import Mathlib

/-!
# Directory index and download manager of the P2P file-sharing system

A shallow embedding of `super-peer/main-web.go` (the directory `Index` with its
register / unregister / search / reclaim / stats operations, the heartbeat
touch and the command loop of the service) and of `DownloadFile`, the `/file`
handler, `ScanSharedDirectory` and `NewPeerClient` in `peer/main-web.go`,
together with the properties established about them.

Modelling conventions.

* A Go `string` is a Lean `String`.  Every string that reaches the index comes
  out of `encoding/json`, which only yields valid UTF-8, so the rune loop of
  `toLowerCase` sees exactly the characters of the string.  `len(s)` and the
  slice `s[:n]` are taken on the UTF-8 bytes (`goBytes`).
* A Go `map[string]V` is a `GoMap V`: a finite list of bindings with pairwise
  distinct keys.  The order of the list is not observable through `get`; the
  order in which a `range` loop visits the bindings is an explicit argument of
  the functions that iterate (`CleanupDeadPeersIn`, `SearchByNameIn`), and
  the versions without that argument use the order of the list.
* `time.Time` is an integer count of nanoseconds, `time.Duration` an integer;
  `time.Now()` is an explicit argument `now`.
* `*Peer` values are never shared between index entries, so pointers are
  modelled by values.  The mutex is not modelled: every operation of the index
  is one atomic step, and so is every critical section of `DownloadFile`.
* `DownloadFile` runs against a `Transfer`, the answers of the network and of
  the file system, and returns with its error the trace of the actions it
  performed, each with the `ActiveDownloads` that was visible meanwhile.
* The progress expression `int(float64(totalRead) / float64(contentLength) *
  100)` is computed by `progressPercent`, which rounds every intermediate
  result to the nearest `float64`, ties to even.
* `filepath.Clean` and `filepath.Join` are the functions of the Go standard
  library for the separator `/`, modelled on the elements of a path; the
  `/file` handler runs against a file system that answers `os.Open`.
* `ScanSharedDirectory` runs against the sequence of calls that
  `filepath.Walk` makes to its function (`WalkEntry`): the walk ends when the
  function returns an error.
* `NewPeerClient` takes the value of `rand.Intn(10000)` as an argument, and
  `%d` is the decimal form `formatInt`.
* The loop of `registrationService` is a step relation on the index and the
  contents of `registrationChan` and `unregisterChan`; a `select` with both
  channels ready may take either.
-/

namespace P2P

/-! ## Go maps -/

/-- Binding lookup in a list of bindings: the first binding of the key. -/
def getEntries {V : Type} (k : String) : List (String × V) → Option V
  | [] => none
  | (k', v) :: t => if k' = k then some v else getEntries k t

/-- Assignment `m[k] = v` on a list of bindings: the binding of `k` is replaced
in place when there is one, and a new binding is added otherwise. -/
def setEntries {V : Type} (k : String) (v : V) : List (String × V) → List (String × V)
  | [] => [(k, v)]
  | (k', v') :: t => if k' = k then (k, v) :: t else (k', v') :: setEntries k v t

/-- The builtin `delete(m, k)` on a list of bindings. -/
def deleteEntries {V : Type} (k : String) : List (String × V) → List (String × V)
  | [] => []
  | (k', v') :: t => if k' = k then deleteEntries k t else (k', v') :: deleteEntries k t

/-- A Go `map[string]V`: finitely many bindings, at most one for each key. -/
structure GoMap (V : Type) where
  entries : List (String × V)
  nodupKeys : (entries.map Prod.fst).Nodup
  deriving DecidableEq

namespace GoMap

variable {V : Type}

/-- The result of `make(map[string]V)`. -/
def empty : GoMap V := ⟨[], List.nodup_nil⟩

/-- The lookup `v, exists := m[k]`; `none` stands for `exists == false`. -/
def get (m : GoMap V) (k : String) : Option V := getEntries k m.entries

/-- The assignment `m[k] = v`. -/
def set (m : GoMap V) (k : String) (v : V) : GoMap V :=
  ⟨setEntries k v m.entries, by
    have hkeys : ∀ l : List (String × V), (setEntries k v l).map Prod.fst =
        if k ∈ l.map Prod.fst then l.map Prod.fst else l.map Prod.fst ++ [k] := by
      intro l
      induction l with
      | nil => simp [setEntries]
      | cons e t ih =>
        obtain ⟨k1, v1⟩ := e
        by_cases h : k1 = k
        · subst h; simp [setEntries]
        · have h2 : ¬ k = k1 := fun hk => h hk.symm
          by_cases hm : k ∈ t.map Prod.fst
          · simp only [setEntries, h, if_false, List.map_cons, ih, hm, if_true, List.mem_cons,
              or_true]
          · simp only [setEntries, h, if_false, List.map_cons, ih, hm, List.mem_cons, h2,
              or_self, List.cons_append]
    rw [hkeys]
    by_cases hm : k ∈ m.entries.map Prod.fst
    · simpa [hm] using m.nodupKeys
    · simp only [hm, if_false]
      exact List.Nodup.append m.nodupKeys (List.nodup_singleton k) (by
        intro a ha hb
        simp only [List.mem_singleton] at hb
        exact hm (hb ▸ ha))⟩

/-- The builtin `delete(m, k)`. -/
def delete (m : GoMap V) (k : String) : GoMap V :=
  ⟨deleteEntries k m.entries, by
    have hkeys : ∀ l : List (String × V), (deleteEntries k l).map Prod.fst =
        (l.map Prod.fst).filter (fun x => decide (x ≠ k)) := by
      intro l
      induction l with
      | nil => simp [deleteEntries]
      | cons e t ih =>
        obtain ⟨k1, v1⟩ := e
        by_cases h : k1 = k
        · simp [deleteEntries, h, ih]
        · simp [deleteEntries, h, ih]
    rw [hkeys]
    exact m.nodupKeys.filter _⟩

/-- The keys of the map, in the order of the bindings. -/
def keys (m : GoMap V) : List String := m.entries.map Prod.fst

/-- The builtin `len(m)`. -/
def len (m : GoMap V) : Nat := m.entries.length

end GoMap

/-! ## Data model of the directory (`super-peer/main-web.go`) -/

/-- The struct `File`. -/
structure File where
  Name : String
  Hash : String
  Size : Int
  PeerIDs : List String
  deriving DecidableEq, Repr

/-- The struct `Peer`; `LastSeen` is a time in nanoseconds. -/
structure Peer where
  ID : String
  Address : String
  Port : Int
  LastSeen : Int
  Files : List File
  deriving DecidableEq, Repr

/-- The struct `Index` (without its mutex). -/
structure Index where
  Peers : GoMap Peer
  FilesByName : GoMap (List String)
  FilesByHash : GoMap (List String)
  deriving DecidableEq

/-- `NewIndex`: the empty index. -/
def NewIndex : Index :=
  { Peers := GoMap.empty, FilesByName := GoMap.empty, FilesByHash := GoMap.empty }

/-! ## Registration and unregistration -/

/-- The loop `for _, id := range bucket { if id == peerID { found = true; break } }`. -/
def foundIn (peerID : String) : List String → Bool
  | [] => false
  | id :: rest => if id = peerID then true else foundIn peerID rest

/-- One half of the body of the loop of `RegisterPeer`, for one of the two
inverted indices: create the bucket of `key` when it is missing, then append
`peerID` to it unless it is already listed. -/
def addToBucket (m : GoMap (List String)) (key peerID : String) : GoMap (List String) :=
  let m1 := match m.get key with
    | some _ => m
    | none => m.set key []
  let bucket := (m1.get key).getD []
  if foundIn peerID bucket then m1 else m1.set key (bucket ++ [peerID])

/-- The body of the loop of `RegisterPeer` for one file of the catalog. -/
def registerFile (peerID : String) (idx : Index) (file : File) : Index :=
  { idx with
    FilesByName := addToBucket idx.FilesByName file.Name peerID
    FilesByHash := addToBucket idx.FilesByHash file.Hash peerID }

/-- `Index.RegisterPeer`; `now` is the value of `time.Now()`. -/
def RegisterPeer (idx : Index) (peer : Peer) (now : Int) : Index :=
  let peer := { peer with LastSeen := now }
  let idx := { idx with Peers := idx.Peers.set peer.ID peer }
  peer.Files.foldl (registerFile peer.ID) idx

/-- The loop that rebuilds a bucket without `peerID`:
`for _, id := range peerIDs { if id != peerID { newPeerIDs = append(newPeerIDs, id) } }`. -/
def withoutPeer (peerID : String) : List String → List String
  | [] => []
  | id :: rest => if id ≠ peerID then id :: withoutPeer peerID rest else withoutPeer peerID rest

/-- One half of the body of the loop of `UnregisterPeer` (and of the inner loop
of `CleanupDeadPeers`), for one of the two inverted indices: when the bucket of
`key` exists, `peerID` is taken out of it and the bucket is deleted if nothing
is left. -/
def removeFromBucket (m : GoMap (List String)) (key peerID : String) : GoMap (List String) :=
  match m.get key with
  | some peerIDs =>
    let newPeerIDs := withoutPeer peerID peerIDs
    if newPeerIDs.length > 0 then m.set key newPeerIDs else m.delete key
  | none => m

/-- The body of the loop of `UnregisterPeer` for one file of the catalog. -/
def unregisterFile (peerID : String) (idx : Index) (file : File) : Index :=
  { idx with
    FilesByName := removeFromBucket idx.FilesByName file.Name peerID
    FilesByHash := removeFromBucket idx.FilesByHash file.Hash peerID }

/-- The footprint removal shared by `UnregisterPeer` and `CleanupDeadPeers`: the
loop over the stored catalog followed by `delete(idx.Peers, peerID)`. -/
def removePeer (idx : Index) (peerID : String) (peer : Peer) : Index :=
  let idx1 := peer.Files.foldl (unregisterFile peerID) idx
  { idx1 with Peers := idx1.Peers.delete peerID }

/-- `Index.UnregisterPeer`. -/
def UnregisterPeer (idx : Index) (peerID : String) : Index :=
  match idx.Peers.get peerID with
  | none => idx
  | some peer => removePeer idx peerID peer

/-! ## Liveness: heartbeat and reclamation -/

/-- The largest `time.Duration`. -/
def maxDuration : Int := 2 ^ 63 - 1

/-- The smallest `time.Duration`. -/
def minDuration : Int := -(2 ^ 63)

/-- `Time.Sub`: the duration `t - u`, saturated at the bounds of `time.Duration`. -/
def Sub (t u : Int) : Int :=
  if t - u > maxDuration then maxDuration
  else if t - u < minDuration then minDuration
  else t - u

/-- The update made by the `/heartbeat` handler under the index mutex:
`if peer, exists := Peers[peerID]; exists { peer.LastSeen = time.Now() }`. -/
def Heartbeat (idx : Index) (peerID : String) (now : Int) : Index :=
  match idx.Peers.get peerID with
  | some peer => { idx with Peers := idx.Peers.set peerID { peer with LastSeen := now } }
  | none => idx

/-- The body of the loop of `CleanupDeadPeers` for one binding `id, peer` of
`idx.Peers`: a peer seen more than `timeout` ago is removed with its footprint. -/
def cleanupStep (timeout now : Int) (idx : Index) (e : String × Peer) : Index :=
  if Sub now e.2.LastSeen > timeout then removePeer idx e.1 e.2 else idx

/-- `Index.CleanupDeadPeers` when the loop `for id, peer := range idx.Peers`
visits the bindings in the order `order`.  The loop deletes only the binding it
is visiting, so it visits every binding of the initial map once. -/
def CleanupDeadPeersIn (idx : Index) (timeout now : Int) (order : List (String × Peer)) :
    Index :=
  order.foldl (cleanupStep timeout now) idx

/-- `Index.CleanupDeadPeers`, visiting the bindings in the order of the list. -/
def CleanupDeadPeers (idx : Index) (timeout now : Int) : Index :=
  CleanupDeadPeersIn idx timeout now idx.Peers.entries

/-! ## Search and statistics -/

/-- The UTF-8 bytes of a string, the units of `len(s)` and of slicing. -/
def goBytes (s : String) : List UInt8 := s.data.flatMap String.utf8EncodeChar

/-- The body of the loop of `toLowerCase` on one rune. -/
def lowerRune (c : Char) : Char :=
  if 'A' ≤ c ∧ c ≤ 'Z' then Char.ofNat (c.toNat + 32) else c

/-- The helper `toLowerCase`. -/
def toLowerCase (s : String) : String :=
  s.data.foldl (fun result c => result ++ String.singleton (lowerRune c)) ""

/-- The helper `containsSubstring`:
`len(s) >= len(substr) && s[:len(substr)] == substr` on the lowered strings. -/
def containsSubstring (s substr : String) : Bool :=
  let s := toLowerCase s
  let substr := toLowerCase substr
  decide ((goBytes s).length ≥ (goBytes substr).length) &&
    decide ((goBytes s).take (goBytes substr).length = goBytes substr)

/-- The loop of `SearchByName` that copies hash and size from the first file of
the catalog with the given name (`break` after the first hit). -/
def fillFrom (name : String) (file : File) : List File → File
  | [] => file
  | peerFile :: rest =>
    if peerFile.Name = name then { file with Hash := peerFile.Hash, Size := peerFile.Size }
    else fillFrom name file rest

/-- The entry that `SearchByName` builds for a matching name: hash and size
come from the catalog of the first peer of the bucket, when that peer is
registered. -/
def searchEntry (idx : Index) (name : String) (peerIDs : List String) : File :=
  let file : File := { Name := name, Hash := "", Size := 0, PeerIDs := peerIDs }
  match peerIDs with
  | [] => file
  | firstPeerID :: _ =>
    match idx.Peers.get firstPeerID with
    | some peer => fillFrom name file peer.Files
    | none => file

/-- The loop of `SearchByName` that adds the registered peers of a bucket to the
result map. -/
def addPeers (idx : Index) (peers : GoMap Peer) : List String → GoMap Peer
  | [] => peers
  | peerID :: rest =>
    match idx.Peers.get peerID with
    | some peer => addPeers idx (peers.set peerID peer) rest
    | none => addPeers idx peers rest

/-- The main loop of `SearchByName` over the bindings `name, peerIDs` still to
be visited, with the results accumulated so far. -/
def searchLoop (idx : Index) (query : String) (limit : Int) :
    List (String × List String) → List File → GoMap Peer → List File × GoMap Peer
  | [], files, peers => (files, peers)
  | (name, peerIDs) :: rest, files, peers =>
    if (files.length : Int) ≥ limit ∧ limit > 0 then (files, peers)
    else if containsSubstring name query then
      searchLoop idx query limit rest (files ++ [searchEntry idx name peerIDs])
        (addPeers idx peers peerIDs)
    else searchLoop idx query limit rest files peers

/-- `Index.SearchByName` when the loop `for name, peerIDs := range
idx.FilesByName` visits the bindings in the order `order`. -/
def SearchByNameIn (idx : Index) (query : String) (limit : Int)
    (order : List (String × List String)) : List File × GoMap Peer :=
  searchLoop idx query limit order [] GoMap.empty

/-- `Index.SearchByName`, visiting the bindings in the order of the list. -/
def SearchByName (idx : Index) (query : String) (limit : Int) : List File × GoMap Peer :=
  SearchByNameIn idx query limit idx.FilesByName.entries

/-- The three counters returned by `GetStats`. -/
structure Stats where
  peerCount : Nat
  uniqueFiles : Nat
  totalFileRefs : Nat
  deriving DecidableEq, Repr

/-- `Index.GetStats`. -/
def GetStats (idx : Index) : Stats :=
  let uniqueFiles : GoMap Bool :=
    idx.FilesByHash.keys.foldl (fun u hash => u.set hash true) GoMap.empty
  { peerCount := idx.Peers.len
    uniqueFiles := uniqueFiles.len
    totalFileRefs := idx.FilesByName.len }

/-! ## The download manager (`peer/main-web.go`) -/

/-- The anonymous struct stored in `PeerClient.ActiveDownloads`. -/
structure ActiveDownload where
  Progress : Int
  Total : Int
  deriving DecidableEq, Repr

/-- The struct `PeerClient` (without its mutex and its HTTP client). -/
structure PeerClient where
  ID : String
  SuperPeerURL : String
  LocalPort : Int
  WebPort : Int
  SharedDir : String
  DownloadDir : String
  Files : List File
  ActiveDownloads : GoMap ActiveDownload
  searchResults : List File
  resultPeers : GoMap Peer
  statusMessage : String

/-- One call of `resp.Body.Read`: the number of bytes it returned and, when that
number is positive, the error of the `destFile.Write` that follows (`none` for
`nil`). -/
structure Chunk where
  n : Nat
  writeErr : Option String
  deriving DecidableEq, Repr

/-- What the network and the file system answer during one call of
`DownloadFile`. -/
structure Transfer where
  /-- The error of `httpClient.Get` (`none` for `nil`). -/
  getErr : Option String
  /-- The field `resp.StatusCode`. -/
  StatusCode : Int
  /-- The body read by `io.ReadAll` when the status is not 200. -/
  errorBody : String
  /-- The field `resp.ContentLength`. -/
  ContentLength : Int
  /-- The error of `os.Create` on the destination. -/
  createErr : Option String
  /-- The reads that return a `nil` error, in order. -/
  chunks : List Chunk
  /-- The read that returns a non-`nil` error, which ends the loop. -/
  last : Chunk
  /-- The error of that read: `none` for `io.EOF`, `some` for any other. -/
  lastErr : Option String
  /-- The error of `copyFile` into the shared directory. -/
  copyErr : Option String
  /-- The error of the re-registration `pc.Register()`. -/
  registerErr : Option String

/-- The input and output actions of `DownloadFile`. -/
inductive Effect where
  /-- `pc.httpClient.Get(url)`. -/
  | httpGet (url : String)
  /-- `io.ReadAll(resp.Body)`. -/
  | readAll
  /-- `os.Create(filepath.Join(dir, filepath.Base(fileName)))`. -/
  | create (dir fileName : String)
  /-- `resp.Body.Read(buf)`. -/
  | read
  /-- `destFile.Write(buf[:n])`. -/
  | write (n : Nat)
  /-- `copyFile` from the download directory to the shared directory. -/
  | copyFile (downloadDir sharedDir fileName : String)
  /-- `pc.ScanSharedDirectory()`. -/
  | scan
  /-- `pc.Register()`. -/
  | register
  deriving DecidableEq, Repr

/-- An action together with the content of `ActiveDownloads` while it runs, as
another goroutine would read it under the mutex. -/
structure Step where
  effect : Effect
  visible : GoMap ActiveDownload
  deriving DecidableEq

/-- The local variables of the transfer that change along the way. -/
structure LoopState where
  totalRead : Int
  active : GoMap ActiveDownload
  trace : List Step

/-- The outcome of one call of `DownloadFile`: the returned error (`none` for
`nil`), `ActiveDownloads` when the call has returned (after the deferred
`delete`), and the actions performed, in order. -/
structure DownloadResult where
  err : Option String
  ActiveDownloads : GoMap ActiveDownload
  trace : List Step

/-- The position of the leading binary digit of `n`, by at most `fuel`
halvings. -/
def log2Fuel : Nat → Nat → Nat
  | 0, _ => 0
  | fuel + 1, n => if n < 2 then 0 else log2Fuel fuel (n / 2) + 1

/-- The integer nearest to `n / d`, the even one on a tie. -/
def roundHalfEven (n d : Nat) : Nat :=
  let q := n / d
  let r := n % d
  if 2 * r < d then q
  else if 2 * r > d then q + 1
  else if q % 2 = 0 then q else q + 1

/-- The `float64` nearest to the rational `n / d` (ties to even), as a fraction
`(numerator, denominator)`; exact for quotients in the range of the normal
numbers with `n, d < 2 ^ 256`. -/
def roundFloat64 (n d : Nat) : Nat × Nat :=
  if n = 0 then (0, 1) else
  let ln := log2Fuel 256 n
  let ld := log2Fuel 256 d
  -- whether `2 ^ (ln - ld) ≤ n / d`; otherwise `2 ^ (ln - ld - 1) ≤ n / d`
  let big : Bool :=
    if ln ≥ ld then decide (n ≥ d * 2 ^ (ln - ld)) else decide (n * 2 ^ (ld - ln) ≥ d)
  -- the quotient is scaled into `[2 ^ 52, 2 ^ 53)` by `2 ^ (ln - up)`
  let up := ld + 52 + (if big then 0 else 1)
  if ln ≥ up then
    (roundHalfEven n (d * 2 ^ (ln - up)) * 2 ^ (ln - up), 1)
  else
    (roundHalfEven (n * 2 ^ (up - ln)) d, 2 ^ (up - ln))

/-- The expression `int(float64(totalRead) / float64(contentLength) * 100)` for
positive 64-bit arguments: two conversions, a division and a multiplication,
each rounded to `float64`, then truncation. -/
def progressPercent (totalRead contentLength : Int) : Int :=
  let t := roundFloat64 totalRead.toNat 1
  let c := roundFloat64 contentLength.toNat 1
  let q := roundFloat64 (t.1 * c.2) (t.2 * c.1)
  let p := roundFloat64 (q.1 * 100) q.2
  ((p.1 / p.2 : Nat) : Int)

/-- The read-modify-write `download := ActiveDownloads[hash]; download.Total =
total; ActiveDownloads[hash] = download` (a missing record reads as the zero
value). -/
def setTotal (active : GoMap ActiveDownload) (fileHash : String) (total : Int) :
    GoMap ActiveDownload :=
  let download := (active.get fileHash).getD { Progress := 0, Total := 0 }
  active.set fileHash { download with Total := total }

/-- The read-modify-write that stores `download.Progress = progress`. -/
def setProgress (active : GoMap ActiveDownload) (fileHash : String) (progress : Int) :
    GoMap ActiveDownload :=
  let download := (active.get fileHash).getD { Progress := 0, Total := 0 }
  active.set fileHash { download with Progress := progress }

/-- Append an action to the trace, with the `ActiveDownloads` of that moment. -/
def LoopState.log (st : LoopState) (e : Effect) : LoopState :=
  { st with trace := st.trace ++ [{ effect := e, visible := st.active }] }

/-- The part of the body of the transfer loop that handles the `n` bytes of one
read: write them, add them to `totalRead`, store the progress.  The first
component is the write error that makes `DownloadFile` return, if any. -/
def readChunk (fileHash : String) (contentLength : Int) (st : LoopState) (c : Chunk) :
    Option String × LoopState :=
  let st1 := st.log Effect.read
  if c.n > 0 then
    let st2 := st1.log (Effect.write c.n)
    match c.writeErr with
    | some writeErr => (some writeErr, st2)
    | none =>
      let totalRead := st2.totalRead + c.n
      if contentLength > 0 then
        (none, { st2 with
          totalRead := totalRead
          active := setProgress st2.active fileHash (progressPercent totalRead contentLength) })
      else (none, { st2 with totalRead := totalRead })
  else (none, st1)

/-- The transfer loop `for { n, err := resp.Body.Read(buf); ... }`.  The first
component is the error with which `DownloadFile` returns from inside the loop;
`none` means that the loop was left by `break` on `io.EOF`. -/
def readLoop (fileHash : String) (contentLength : Int) (last : Chunk) (lastErr : Option String) :
    List Chunk → LoopState → Option String × LoopState
  | [], st =>
    match readChunk fileHash contentLength st last with
    | (some writeErr, st1) => (some writeErr, st1)
    | (none, st1) => (lastErr, st1)
  | c :: rest, st =>
    match readChunk fileHash contentLength st c with
    | (some writeErr, st1) => (some writeErr, st1)
    | (none, st1) => readLoop fileHash contentLength last lastErr rest st1

/-- The end of `DownloadFile` after a complete transfer: the copy into the
shared directory and, when it succeeds, the rescan and the re-registration,
whose errors are only logged.  The call returns `nil`. -/
def finish (pc : PeerClient) (fileName : String) (w : Transfer) (st : LoopState) :
    Option String × LoopState :=
  let st1 := st.log (Effect.copyFile pc.DownloadDir pc.SharedDir fileName)
  match w.copyErr with
  | some _ => (none, st1)
  | none => (none, (st1.log Effect.scan).log Effect.register)

/-- The statements of `DownloadFile` after a 200 response: the expected size is
stored when it is known, the destination is created, the body is copied. -/
def receive (pc : PeerClient) (fileName fileHash : String) (w : Transfer) (st : LoopState) :
    Option String × LoopState :=
  let st1 := if w.ContentLength > 0
    then { st with active := setTotal st.active fileHash w.ContentLength } else st
  let st2 := st1.log (Effect.create pc.DownloadDir fileName)
  match w.createErr with
  | some err => (some err, st2)
  | none =>
    match readLoop fileHash w.ContentLength w.last w.lastErr w.chunks st2 with
    | (some err, st3) => (some err, st3)
    | (none, st3) => finish pc fileName w st3

/-- The statements of `DownloadFile` that follow the duplicate check and the
insertion of the record, up to the `return`; the deferred `delete` is not
included. -/
def downloadBody (pc : PeerClient) (fileName fileHash : String) (peer : Peer) (w : Transfer)
    (active : GoMap ActiveDownload) : Option String × LoopState :=
  let url := "http://" ++ peer.Address ++ ":" ++ toString peer.Port ++ "/file?name=" ++ fileName
  let st : LoopState :=
    LoopState.log { totalRead := 0, active := active, trace := [] } (Effect.httpGet url)
  match w.getErr with
  | some err => (some err, st)
  | none =>
    if w.StatusCode ≠ 200 then (some ("download failed: " ++ w.errorBody), st.log Effect.readAll)
    else receive pc fileName fileHash w st

/-- `PeerClient.DownloadFile`, against the answers `w` of the outside world. -/
def DownloadFile (pc : PeerClient) (fileName fileHash : String) (peer : Peer) (w : Transfer) :
    DownloadResult :=
  match pc.ActiveDownloads.get fileHash with
  | some _ =>
    { err := some "already downloading this file"
      ActiveDownloads := pc.ActiveDownloads
      trace := [] }
  | none =>
    let active := pc.ActiveDownloads.set fileHash { Progress := 0, Total := 100 }
    let r := downloadBody pc fileName fileHash peer w active
    { err := r.1, ActiveDownloads := r.2.active.delete fileHash, trace := r.2.trace }

/-- `PeerClient.GetDownloadProgress`: the progress and `true`, or `0, false`. -/
def GetDownloadProgress (pc : PeerClient) (fileHash : String) : Int × Bool :=
  match pc.ActiveDownloads.get fileHash with
  | some download => (download.Progress, true)
  | none => (0, false)

/-- The state `st2` continues `st`: its trace extends the trace of `st`, and if
the record of `fileHash` was present in `st` and during every action before,
the same holds of `st2`. -/
def Continues (fileHash : String) (st st2 : LoopState) : Prop :=
  (∃ more, st2.trace = st.trace ++ more) ∧
  (((st.active.get fileHash).isSome = true ∧
      ∀ s ∈ st.trace, (s.visible.get fileHash).isSome = true) →
    ((st2.active.get fileHash).isSome = true ∧
      ∀ s ∈ st2.trace, (s.visible.get fileHash).isSome = true))

/-- A peer agent that is downloading nothing. -/
def idleClient : PeerClient :=
  { ID := "peer-42", SuperPeerURL := "http://localhost:8080", LocalPort := 9000, WebPort := 9100,
    SharedDir := "shared", DownloadDir := "downloads", Files := [],
    ActiveDownloads := GoMap.empty, searchResults := [], resultPeers := GoMap.empty,
    statusMessage := "Ready" }

/-- The same agent while a transfer of the digest `d1` is in flight. -/
def busyClient : PeerClient :=
  { idleClient with
    ActiveDownloads := GoMap.empty.set "d1" { Progress := 40, Total := 17 } }

/-- A transfer of 17 bytes that arrive in two reads and succeed. -/
def goodTransfer : Transfer :=
  { getErr := none, StatusCode := 200, errorBody := "", ContentLength := 17, createErr := none,
    chunks := [{ n := 10, writeErr := none }], last := { n := 7, writeErr := none },
    lastErr := none, copyErr := none, registerErr := none }

/-! ## The transfer endpoint (`peer/main-web.go`) and the path functions it uses -/

/-- The elements of a path: the pieces between the separators `/`. -/
def splitSlash : List Char → List (List Char)
  | [] => [[]]
  | c :: cs =>
    if c = '/' then [] :: splitSlash cs
    else
      match splitSlash cs with
      | e :: es => (c :: e) :: es
      | [] => [[c]]

/-- The elements of a path, as strings. -/
def elements (path : String) : List String := (splitSlash path.data).map String.mk

/-- Whether the path begins with the separator (`path[0] == '/'`). -/
def isRooted (path : String) : Bool :=
  match path.data with
  | c :: _ => decide (c = '/')
  | [] => false

/-- One round of the loop of `filepath.Clean`, on the element `e`, with the
elements written so far in `stack`, the last one first.  Empty elements and `.`
are dropped; `..` removes the last element written when that is a real one,
is written itself when the path is not rooted, and is dropped otherwise; any
other element is written. -/
def cleanStep (rooted : Bool) (stack : List String) (e : String) : List String :=
  if e = "" ∨ e = "." then stack
  else if e = ".." then
    match stack with
    | top :: below =>
      if top ≠ ".." then below else if rooted then stack else ".." :: stack
    | [] => if rooted then stack else ".." :: stack
  else e :: stack

/-- The elements that `filepath.Clean` keeps, in order. -/
def cleanElems (rooted : Bool) (elems : List String) : List String :=
  (elems.foldl (cleanStep rooted) []).reverse

/-- The elements joined by single separators. -/
def joinSlash : List String → String
  | [] => ""
  | [e] => e
  | e :: rest => e ++ "/" ++ joinSlash rest

/-- The path with the given elements, rooted or not; `.` when it would be the
empty string. -/
def render (rooted : Bool) (elems : List String) : String :=
  let out := (if rooted then "/" else "") ++ joinSlash elems
  if out = "" then "." else out

/-- `filepath.Clean` (with `/` as the separator): the shortest path equivalent
to `path` by lexical processing. -/
def Clean (path : String) : String :=
  if path = "" then "."
  else render (isRooted path) (cleanElems (isRooted path) (elements path))

/-- `filepath.Join` of two elements: empty elements are ignored, the others are
joined by the separator and the result is cleaned. -/
def Join (a b : String) : String :=
  if a ≠ "" then Clean (a ++ "/" ++ b)
  else if b ≠ "" then Clean b
  else ""

/-- Whether the characters `sub` are the beginning of the list. -/
def startsWith : List Char → List Char → Bool
  | [], _ => true
  | _ :: _, [] => false
  | a :: as, c :: cs => decide (a = c) && startsWith as cs

/-- Whether the characters `sub` occur consecutively in the list. -/
def containsChars (sub : List Char) : List Char → Bool
  | [] => startsWith sub []
  | c :: cs => startsWith sub (c :: cs) || containsChars sub cs

/-- `strings.Contains`. -/
def Contains (s substr : String) : Bool := containsChars substr.data s.data

/-- What the file system answers to `os.Open(path)` followed by `file.Stat()`. -/
inductive OpenResult where
  /-- `os.Open` returns an error. -/
  | openError
  /-- The file opens and `Stat` returns an error. -/
  | statError
  /-- The file opens and has the given size. -/
  | ok (size : Int)
  deriving DecidableEq, Repr

/-- The answer of the `/file` handler: the status code and the paths it passed
to `os.Open`. -/
structure FileResponse where
  status : Nat
  opened : List String
  deriving DecidableEq, Repr

/-- The `/file` handler of `startFileServer`, for a request with the given
method and `name` parameter (the empty string when the parameter is missing),
against the file system `fs`. -/
def fileHandler (pc : PeerClient) (method name : String) (fs : String → OpenResult) :
    FileResponse :=
  if method ≠ "GET" then { status := 405, opened := [] }
  else if name = "" then { status := 400, opened := [] }
  else
    let fileName := Clean name
    if Contains fileName ".." then { status := 400, opened := [] }
    else
      let filePath := Join pc.SharedDir fileName
      match fs filePath with
      | OpenResult.openError => { status := 404, opened := [filePath] }
      | OpenResult.statError => { status := 500, opened := [filePath] }
      | OpenResult.ok _ => { status := 200, opened := [filePath] }

/-- The path is lexically inside the directory `root` (it is that directory or
a path below it): it is made of the elements of the cleaned `root` followed by
further elements, none of which is empty, `.` or `..` or contains a
separator. -/
def lexicallyInside (root path : String) : Prop :=
  ∃ rest : List String,
    (∀ e ∈ rest, e ≠ ".." ∧ e ≠ "." ∧ e ≠ "" ∧ '/' ∉ e.data) ∧
    path = render (isRooted root) (cleanElems (isRooted root) (elements root) ++ rest)

/-! ## Properties of an index -/

/-- The peer `id` is a member of the bucket of `k`. -/
def listed (m : GoMap (List String)) (k id : String) : Prop :=
  ∃ l, m.get k = some l ∧ id ∈ l

/-- Footprint consistency: every ID in a bucket of `FilesByName` (of
`FilesByHash`) is the key of a registered peer whose stored catalog has a file
with that name (with that hash). -/
def FootprintConsistent (idx : Index) : Prop :=
  (∀ n id, listed idx.FilesByName n id →
      ∃ p, idx.Peers.get id = some p ∧ ∃ f ∈ p.Files, f.Name = n) ∧
  (∀ h id, listed idx.FilesByHash h id →
      ∃ p, idx.Peers.get id = some p ∧ ∃ f ∈ p.Files, f.Hash = h)

/-- No key of `FilesByName` or `FilesByHash` is bound to an empty bucket. -/
def NoEmptyBucket (idx : Index) : Prop :=
  (∀ k, idx.FilesByName.get k ≠ some []) ∧ (∀ k, idx.FilesByHash.get k ≠ some [])

/-- The index states that the directory can be in: the empty index, and every
state obtained from such a state by a registration, an unregistration, a
heartbeat or a reclamation sweep (in any visiting order of the peers). -/
inductive Reachable : Index → Prop
  | init : Reachable NewIndex
  | register (idx : Index) (peer : Peer) (now : Int) :
      Reachable idx → Reachable (RegisterPeer idx peer now)
  | unregister (idx : Index) (peerID : String) :
      Reachable idx → Reachable (UnregisterPeer idx peerID)
  | heartbeat (idx : Index) (peerID : String) (now : Int) :
      Reachable idx → Reachable (Heartbeat idx peerID now)
  | cleanup (idx : Index) (timeout now : Int) (order : List (String × Peer)) :
      Reachable idx → order.Perm idx.Peers.entries →
      Reachable (CleanupDeadPeersIn idx timeout now order)

/-- A decision procedure for one half of `FootprintConsistent`: every member of
every bucket of `m` is a registered peer with a catalog file whose key is the
key of the bucket. -/
def bucketsCheck (idx : Index) (m : GoMap (List String)) (key : File → String) : Bool :=
  m.entries.all (fun e => e.2.all (fun id =>
    match idx.Peers.get id with
    | some p => p.Files.any (fun f => decide (key f = e.1))
    | none => false))

/-- A decision procedure for `FootprintConsistent`. -/
def footprintCheck (idx : Index) : Bool :=
  bucketsCheck idx idx.FilesByName File.Name && bucketsCheck idx idx.FilesByHash File.Hash

/-- A decision procedure for `NoEmptyBucket`. -/
def noEmptyCheck (idx : Index) : Bool :=
  idx.FilesByName.entries.all (fun e => !e.2.isEmpty) &&
    idx.FilesByHash.entries.all (fun e => !e.2.isEmpty)

/-! ## Sample catalogs and index states -/

/-- A shared file `a.txt`. -/
def fileA : File := { Name := "a.txt", Hash := "hash-a", Size := 5, PeerIDs := ["P"] }

/-- A shared file `b.txt`, distinct from `fileA` in name and content. -/
def fileB : File := { Name := "b.txt", Hash := "hash-b", Size := 7, PeerIDs := ["P"] }

/-- The registration of peer `P` with the catalog `{a.txt, b.txt}`. -/
def peerWithAB : Peer :=
  { ID := "P", Address := "10.0.0.1", Port := 9000, LastSeen := 0, Files := [fileA, fileB] }

/-- The registration of peer `P` with the catalog `{a.txt}`. -/
def peerWithA : Peer :=
  { ID := "P", Address := "10.0.0.1", Port := 9000, LastSeen := 0, Files := [fileA] }

/-- The registration of a second peer `Q` that shares `a.txt` too. -/
def peerQ : Peer :=
  { ID := "Q", Address := "10.0.0.2", Port := 9001, LastSeen := 0,
    Files := [{ Name := "a.txt", Hash := "hash-a", Size := 5, PeerIDs := ["Q"] }] }

/-- The index after `P` registered `{a.txt, b.txt}` at time 10 and then `Q`
registered `{a.txt}` at time 60. -/
def twoPeers : Index := RegisterPeer (RegisterPeer NewIndex peerWithAB 10) peerQ 60

/-- The index after `P` registered `{a.txt, b.txt}` at time 10 and registered
again with the shrunk catalog `{a.txt}` at time 20. -/
def shrunkIndex : Index := RegisterPeer (RegisterPeer NewIndex peerWithAB 10) peerWithA 20

/-- The registration of peer `A` with the single file `report-doc.txt`. -/
def peerReport : Peer :=
  { ID := "A", Address := "10.0.0.3", Port := 9002, LastSeen := 0,
    Files := [{ Name := "report-doc.txt", Hash := "d1", Size := 17, PeerIDs := ["A"] }] }

/-- The index after `A` registered `report-doc.txt`. -/
def reportIndex : Index := RegisterPeer NewIndex peerReport 1

/-- The catalog entry of the scenario: `doc.txt`, 17 bytes, digest `d1`, as
peer `A` reports it. -/
def docFileA : File := { Name := "doc.txt", Hash := "d1", Size := 17, PeerIDs := ["A"] }

/-- Peer `A` of the scenario, sharing `doc.txt`. -/
def scenarioPeerA : Peer :=
  { ID := "A", Address := "10.0.0.10", Port := 8081, LastSeen := 0, Files := [docFileA] }

/-- Peer `B` of the scenario after its download: it shares the same file. -/
def scenarioPeerB : Peer :=
  { ID := "B", Address := "10.0.0.11", Port := 8081, LastSeen := 0,
    Files := [{ Name := "doc.txt", Hash := "d1", Size := 17, PeerIDs := ["B"] }] }

/-- The directory after the registration of `A`. -/
def scenarioAfterA : Index := RegisterPeer NewIndex scenarioPeerA 100

/-- The directory after the registration of `A` and then of `B`. -/
def scenarioAfterB : Index := RegisterPeer scenarioAfterA scenarioPeerB 200

/-- The two characters are equal or are the upper-case and lower-case forms
of one ASCII letter (`A`-`Z` against `a`-`z`). -/
def sameUpToCase (c d : Char) : Bool :=
  decide (c = d) ||
    (decide ('A' ≤ c ∧ c ≤ 'Z') && decide (d.toNat = c.toNat + 32)) ||
    (decide ('A' ≤ d ∧ d ≤ 'Z') && decide (c.toNat = d.toNat + 32))

/-- The two character sequences have the same length and differ only in the
case of ASCII letters. -/
def sameUpToCaseList : List Char → List Char → Bool
  | [], [] => true
  | c :: cs, d :: ds => sameUpToCase c d && sameUpToCaseList cs ds
  | _, _ => false

/-- The two strings differ only in the case of ASCII letters. -/
@[reducible] def differOnlyInCase (s t : String) : Prop := sameUpToCaseList s.data t.data = true

/-- The registration of peer `P` with the catalog `{b.txt}`. -/
def peerWithB : Peer :=
  { ID := "P", Address := "10.0.0.1", Port := 9000, LastSeen := 0, Files := [fileB] }

/-- The index after `P` registered `{a.txt, b.txt}`, `Q` registered `{a.txt}`
and `P` registered again with `{b.txt}`. -/
def staleFirstIndex : Index := RegisterPeer twoPeers peerWithB 70

/-- The index after `P` registered `{a.txt, b.txt}`, registered again with
`{a.txt}` and then unregistered. -/
def danglingIndex : Index := UnregisterPeer shrunkIndex "P"

/-- The state `st2` has the records of `st` for every digest other than
`fileHash`. -/
def KeepsOthers (fileHash : String) (st st2 : LoopState) : Prop :=
  ∀ k, k ≠ fileHash → st2.active.get k = st.active.get k

/-- A transfer whose connection is reset after 10 of 17 bytes. -/
def brokenTransfer : Transfer :=
  { getErr := none, StatusCode := 200, errorBody := "", ContentLength := 17, createErr := none,
    chunks := [{ n := 10, writeErr := none }], last := { n := 0, writeErr := none },
    lastErr := some "connection reset by peer", copyErr := none, registerErr := none }

/-- The agent while a transfer of another digest `d2` is in flight. -/
def otherBusyClient : PeerClient :=
  { idleClient with
    ActiveDownloads := GoMap.empty.set "d2" { Progress := 40, Total := 1000 } }

/-- A file system in which no file can be opened. -/
def noFiles : String → OpenResult := fun _ => OpenResult.openError

/-- A file system whose only file is `shared/x`, of 3 bytes. -/
def onlySharedX : String → OpenResult :=
  fun path => if path = "shared/x" then OpenResult.ok 3 else OpenResult.openError

/-- The bytes written to the destination by the actions of a trace. -/
def bytesWritten : List Step → Int
  | [] => 0
  | s :: rest =>
    (match s.effect with
      | Effect.write n => (n : Int)
      | _ => 0) + bytesWritten rest

/-- The progress of the download of `fileHash` that an observer reads during
the action `s` (0 when there is no record). -/
def progressAt (fileHash : String) (s : Step) : Int :=
  match s.visible.get fileHash with
  | some download => download.Progress
  | none => 0

/-- During every action of the trace, the progress on record is the percentage
computed from the bytes written before that action. -/
def Tracks (fileHash : String) (total : Int) (trace : List Step) : Prop :=
  ∀ pre s post, trace = pre ++ s :: post →
    progressAt fileHash s = progressPercent (bytesWritten pre) total

/-- The state of the transfer loop is consistent: the trace tracks the
progress, `totalRead` is the number of bytes written, and the progress on
record is the percentage computed from `totalRead`. -/
def Synced (fileHash : String) (total : Int) (st : LoopState) : Prop :=
  Tracks fileHash total st.trace ∧ st.totalRead = bytesWritten st.trace ∧
    ∃ download, st.active.get fileHash = some download ∧
      download.Progress = progressPercent st.totalRead total

/-- The number of bytes that a list of reads returns. -/
def chunkBytes (chunks : List Chunk) : Int := (chunks.map (fun c => (c.n : Int))).sum

/-- A transfer of 100 bytes that arrive as 29 bytes and then 71 bytes. -/
def transfer29 : Transfer :=
  { getErr := none, StatusCode := 200, errorBody := "", ContentLength := 100, createErr := none,
    chunks := [{ n := 29, writeErr := none }], last := { n := 71, writeErr := none },
    lastErr := none, copyErr := none, registerErr := none }

/-! ## Reclamation as repeated unregistration -/

/-- The IDs of the peers that a sweep at time `now` finds stale: the keys of
`Peers` whose record has `now.Sub(LastSeen) > timeout`. -/
def stalePeerIDs (idx : Index) (timeout now : Int) : List String :=
  (idx.Peers.entries.filter (fun e => decide (Sub now e.2.LastSeen > timeout))).map Prod.fst

/-- The reading of reclamation in the specification: `UnregisterPeer` is called
once for each of the given peer IDs, in the order of the list. -/
def unregisterEach (idx : Index) (ids : List String) : Index :=
  ids.foldl UnregisterPeer idx

/-! ## The command loop of the directory service -/

/-- The part of the struct `SuperPeer` that `registrationService` works on: the
index and the contents of the two buffered channels, oldest element first. -/
structure SuperPeer where
  index : Index
  registrationChan : List Peer
  unregisterChan : List String

/-- A mutation applied by `registrationService`: a registration, with the time
at which `RegisterPeer` reads the clock, or an unregistration. -/
inductive Command where
  | register (peer : Peer) (now : Int)
  | unregister (peerID : String)
  deriving DecidableEq, Repr

/-- The effect of a command on the index. -/
def applyCommand (idx : Index) : Command → Index
  | Command.register peer now => RegisterPeer idx peer now
  | Command.unregister peerID => UnregisterPeer idx peerID

/-- The send `sp.registrationChan <- &peer` of the `/register` handler. -/
def submitRegister (sp : SuperPeer) (peer : Peer) : SuperPeer :=
  { sp with registrationChan := sp.registrationChan ++ [peer] }

/-- The send `sp.unregisterChan <- data.PeerID` of the `/unregister` handler. -/
def submitUnregister (sp : SuperPeer) (peerID : String) : SuperPeer :=
  { sp with unregisterChan := sp.unregisterChan ++ [peerID] }

/-- One round of the loop of `registrationService`: the `select` receives from
one of the channels that has an element, whichever it chooses when both have
one, and the command is applied to the index. -/
inductive ServiceStep : SuperPeer → Command → SuperPeer → Prop
  | register (idx : Index) (peer : Peer) (rest : List Peer) (unregs : List String) (now : Int) :
      ServiceStep { index := idx, registrationChan := peer :: rest, unregisterChan := unregs }
        (Command.register peer now)
        { index := RegisterPeer idx peer now, registrationChan := rest, unregisterChan := unregs }
  | unregister (idx : Index) (regs : List Peer) (peerID : String) (rest : List String) :
      ServiceStep { index := idx, registrationChan := regs, unregisterChan := peerID :: rest }
        (Command.unregister peerID)
        { index := UnregisterPeer idx peerID, registrationChan := regs, unregisterChan := rest }

/-- A run of `registrationService`: consecutive rounds of the loop, with the
commands applied, in order. -/
inductive ServiceRun : SuperPeer → List Command → SuperPeer → Prop
  | done (sp : SuperPeer) : ServiceRun sp [] sp
  | step (sp sp1 sp2 : SuperPeer) (cmd : Command) (cmds : List Command) :
      ServiceStep sp cmd sp1 → ServiceRun sp1 cmds sp2 → ServiceRun sp (cmd :: cmds) sp2

/-- The registrations among the commands, in order. -/
def registrationsOf : List Command → List Peer
  | [] => []
  | Command.register peer _ :: rest => peer :: registrationsOf rest
  | Command.unregister _ :: rest => registrationsOf rest

/-- The unregistrations among the commands, in order. -/
def unregistrationsOf : List Command → List String
  | [] => []
  | Command.register _ _ :: rest => unregistrationsOf rest
  | Command.unregister peerID :: rest => peerID :: unregistrationsOf rest

/-! ## The slice expression of `containsSubstring` -/

/-- The slice expression `b[:n]` on the bytes of a string; `none` is the
run-time panic for `n > len(b)`. -/
def sliceTo (b : List UInt8) (n : Nat) : Option (List UInt8) :=
  if n ≤ b.length then some (b.take n) else none

/-- The helper `containsSubstring` with the slice expression as Go evaluates
it: the right operand of `&&` is evaluated only when the left one is true;
`none` stands for a panic. -/
def containsSubstringChecked (s substr : String) : Option Bool :=
  let s := toLowerCase s
  let substr := toLowerCase substr
  if (goBytes s).length ≥ (goBytes substr).length then
    match sliceTo (goBytes s) (goBytes substr).length with
    | some head => some (decide (head = goBytes substr))
    | none => none
  else some false

/-! ## The catalog scan and the agent ID (`peer/main-web.go`) -/

/-- One call of the function that `ScanSharedDirectory` passes to
`filepath.Walk`: the path visited, the error that `Walk` reports for it
(`none` for `nil`), whether it is a directory, its size, the result of
`filepath.Rel(pc.SharedDir, path)` and the result of `calculateFileHash`. -/
structure WalkEntry where
  path : String
  walkErr : Option String
  isDir : Bool
  size : Int
  rel : Except String String
  hash : Except String String

/-- The walk of `ScanSharedDirectory` over the entries still to be visited,
with the catalog built so far.  A non-`nil` error returned by the function
makes `filepath.Walk` stop and return that error, which is the second
component. -/
def scanWalk (ownID : String) : List WalkEntry → List File → List File × Option String
  | [], files => (files, none)
  | e :: rest, files =>
    match e.walkErr with
    | some err => (files, some err)
    | none =>
      if !e.isDir then
        match e.rel with
        | Except.error err => (files, some err)
        | Except.ok relPath =>
          match e.hash with
          | Except.error _ => scanWalk ownID rest files
          | Except.ok hash =>
            scanWalk ownID rest
              (files ++ [{ Name := relPath, Hash := hash, Size := e.size, PeerIDs := [ownID] }])
      else scanWalk ownID rest files

/-- `PeerClient.ScanSharedDirectory`, for the entries that the walk of the
shared directory visits: the catalog is emptied and rebuilt; the error of the
walk is only logged. -/
def ScanSharedDirectory (pc : PeerClient) (walk : List WalkEntry) : PeerClient :=
  { pc with Files := (scanWalk pc.ID walk []).1 }

/-- The decimal digit `d`. -/
def digitChar (d : Nat) : Char := Char.ofNat (48 + d)

/-- The decimal digits of `n`, the last one first, by at most `fuel` divisions. -/
def decimalRev : Nat → Nat → List Char
  | 0, _ => []
  | fuel + 1, n =>
    if n < 10 then [digitChar n] else digitChar (n % 10) :: decimalRev fuel (n / 10)

/-- The verb `%d` of `fmt.Sprintf` on a non-negative integer. -/
def formatInt (n : Nat) : String := String.mk (decimalRev (n + 1) n).reverse

/-- The number that a list of decimal digits, the last one first, stands for. -/
def valueRev : List Char → Nat
  | [] => 0
  | c :: cs => (c.toNat - 48) + 10 * valueRev cs

/-- `NewPeerClient`; `draw` is the value of `rand.Intn(10000)`. -/
def NewPeerClient (superPeerURL : String) (localPort webPort : Int)
    (sharedDir downloadDir : String) (draw : Nat) : PeerClient :=
  { ID := "peer-" ++ formatInt draw
    SuperPeerURL := superPeerURL
    LocalPort := localPort
    WebPort := webPort
    SharedDir := sharedDir
    DownloadDir := downloadDir
    Files := []
    ActiveDownloads := GoMap.empty
    searchResults := []
    resultPeers := GoMap.empty
    statusMessage := "Ready" }

/-- No bucket of `FilesByName` or `FilesByHash` lists a peer ID twice. -/
def NoDuplicateMember (idx : Index) : Prop :=
  (∀ k l, idx.FilesByName.get k = some l → l.Nodup) ∧
  (∀ k l, idx.FilesByHash.get k = some l → l.Nodup)

/-! ## Auxiliary definitions for the refinement and the scan -/

/-- The footprint removal of `removePeer` applied to each binding of the list in
turn. -/
def removeEach (idx : Index) (rs : List (String × Peer)) : Index :=
  rs.foldl (fun i e => removePeer i e.1 e.2) idx

/-- The bindings of the given IDs in the map, in the order of the IDs. -/
def lookupAll (m : GoMap Peer) (ids : List String) : List (String × Peer) :=
  ids.filterMap (fun id => (m.get id).map (fun p => (id, p)))

/-- The IDs of the bindings whose catalog has a file with the key `k`. -/
def touching (key : File → String) (k : String) (rs : List (String × Peer)) : List String :=
  (rs.filter (fun e => decide (k ∈ e.2.Files.map key))).map Prod.fst

/-- A decision procedure for "the peer `id` is listed in no bucket of `m`". -/
def absentCheck (m : GoMap (List String)) (id : String) : Bool :=
  m.entries.all (fun e => !decide (id ∈ e.2))

/-- The entry of the walk makes the function passed to `filepath.Walk` return
an error, which ends the walk: the walk reports an error for it, or it is not
a directory and `filepath.Rel` fails. -/
def scanStops (e : WalkEntry) : Bool :=
  e.walkErr.isSome || (!e.isDir &&
    match e.rel with
    | Except.ok _ => false
    | Except.error _ => true)

/-- The catalog entry that the specification of the scan gives for an entry of
the walk: one for every entry that is not a directory and that can be read and
hashed, with the relative name, the digest, the size and the own ID. -/
def catalogEntry (ownID : String) (e : WalkEntry) : Option File :=
  match e.walkErr, e.isDir, e.rel, e.hash with
  | none, false, Except.ok relPath, Except.ok hash =>
    some { Name := relPath, Hash := hash, Size := e.size, PeerIDs := [ownID] }
  | _, _, _, _ => none

/-- The registration of a peer `R` whose catalog repeats a name and a hash:
`a.txt` twice, and `b.txt` with the content of `a.txt`. -/
def peerRepeats : Peer :=
  { ID := "R", Address := "10.0.0.4", Port := 9003, LastSeen := 0,
    Files := [{ Name := "a.txt", Hash := "hash-a", Size := 5, PeerIDs := ["R"] },
      { Name := "a.txt", Hash := "hash-a", Size := 5, PeerIDs := ["R"] },
      { Name := "b.txt", Hash := "hash-a", Size := 5, PeerIDs := ["R"] }] }

/-- A walk of the shared directory of `idleClient`: the directory, the file
`a.txt`, the file `b.txt` that cannot be hashed, the file `c.txt` for which
the walk reports an error, and the file `d.txt`. -/
def lossyWalk : List WalkEntry :=
  [{ path := "shared", walkErr := none, isDir := true, size := 4096,
      rel := Except.ok ".", hash := Except.error "read shared: is a directory" },
    { path := "shared/a.txt", walkErr := none, isDir := false, size := 5,
      rel := Except.ok "a.txt", hash := Except.ok "hash-a" },
    { path := "shared/b.txt", walkErr := none, isDir := false, size := 7,
      rel := Except.ok "b.txt", hash := Except.error "open shared/b.txt: permission denied" },
    { path := "shared/c.txt", walkErr := some "lstat shared/c.txt: no such file or directory",
      isDir := false, size := 0, rel := Except.ok "c.txt", hash := Except.ok "hash-c" },
    { path := "shared/d.txt", walkErr := none, isDir := false, size := 9,
      rel := Except.ok "d.txt", hash := Except.ok "hash-d" }]

/-- A walk of the shared directory of `idleClient` that finds the single file
`notes..old.txt`. -/
def dottedWalk : List WalkEntry :=
  [{ path := "shared", walkErr := none, isDir := true, size := 4096,
      rel := Except.ok ".", hash := Except.error "read shared: is a directory" },
    { path := "shared/notes..old.txt", walkErr := none, isDir := false, size := 12,
      rel := Except.ok "notes..old.txt", hash := Except.ok "hash-n" }]

/-- A file system whose only file is `shared/notes..old.txt`, of 12 bytes. -/
def onlyDotted : String → OpenResult :=
  fun path => if path = "shared/notes..old.txt" then OpenResult.ok 12 else OpenResult.openError

/-- The directory service with an empty index, after the `/register` handler
sent the registration of `P` and the `/unregister` handler then sent the
unregistration of `P`, before the loop received either. -/
def pendingBoth : SuperPeer :=
  submitUnregister
    (submitRegister { index := NewIndex, registrationChan := [], unregisterChan := [] } peerWithA)
    "P"

/-! ## Closed forms of the bucket updates -/

/-- The bucket after the registration of `peerID` under its key: the peer is
appended unless it is already listed. -/
def appendNew (peerID : String) (bucket : List String) : List String :=
  if foundIn peerID bucket then bucket else bucket ++ [peerID]

/-- The binding of a key after `peerID` was removed under it: the bucket without
the peer, or no binding when nothing is left. -/
def purge (peerID : String) : Option (List String) → Option (List String)
  | some peerIDs =>
    if (withoutPeer peerID peerIDs).length > 0 then some (withoutPeer peerID peerIDs) else none
  | none => none

/-- The buckets after `peerID` was registered under each key of `ks` in turn. -/
def addAll (peerID : String) (m : GoMap (List String)) (ks : List String) :
    GoMap (List String) :=
  ks.foldl (fun m k => addToBucket m k peerID) m

/-- The buckets after `peerID` was removed under each key of `ks` in turn. -/
def removeAll (peerID : String) (m : GoMap (List String)) (ks : List String) :
    GoMap (List String) :=
  ks.foldl (fun m k => removeFromBucket m k peerID) m

/-! ## Laws of the map operations -/

theorem getEntries_setEntries {V : Type} (k k2 : String) (v : V) (l : List (String × V)) :
    getEntries k2 (setEntries k v l) = if k2 = k then some v else getEntries k2 l := by
  induction l with
  | nil =>
    by_cases h : k2 = k
    · simp [setEntries, getEntries, h]
    · have h2 : ¬ k = k2 := fun hk => h hk.symm
      simp [setEntries, getEntries, h, h2]
  | cons e t ih =>
    obtain ⟨k1, v1⟩ := e
    by_cases h1 : k1 = k
    · subst h1
      by_cases h : k2 = k1
      · simp [setEntries, getEntries, h]
      · have h2 : ¬ k1 = k2 := fun hk => h hk.symm
        simp [setEntries, getEntries, h, h2]
    · by_cases h : k1 = k2
      · subst h
        simp [setEntries, getEntries, h1]
      · simp [setEntries, getEntries, h1, h, ih]

theorem getEntries_deleteEntries {V : Type} (k k2 : String) (l : List (String × V)) :
    getEntries k2 (deleteEntries k l) = if k2 = k then none else getEntries k2 l := by
  induction l with
  | nil => simp [deleteEntries, getEntries]
  | cons e t ih =>
    obtain ⟨k1, v1⟩ := e
    by_cases h1 : k1 = k
    · subst h1
      by_cases h : k2 = k1
      · subst h
        simpa [deleteEntries, getEntries] using ih
      · have h2 : ¬ k1 = k2 := fun hk => h hk.symm
        simp [deleteEntries, getEntries, h, h2, ih]
    · by_cases h : k1 = k2
      · subst h
        simp [deleteEntries, getEntries, h1]
      · simp [deleteEntries, getEntries, h1, h, ih]

theorem getEntries_eq_some_iff {V : Type} (k : String) (v : V) (l : List (String × V))
    (hl : (l.map Prod.fst).Nodup) : getEntries k l = some v ↔ (k, v) ∈ l := by
  induction l with
  | nil => simp [getEntries]
  | cons e t ih =>
    obtain ⟨k1, v1⟩ := e
    simp only [List.map_cons, List.nodup_cons] at hl
    by_cases h : k1 = k
    · subst h
      have hnot : ∀ w, (k1, w) ∉ t := fun w hw => hl.1 (List.mem_map.2 ⟨(k1, w), hw, rfl⟩)
      simp only [getEntries, if_true, Option.some.injEq, List.mem_cons, Prod.mk.injEq, true_and]
      constructor
      · intro hv; exact Or.inl hv.symm
      · rintro (hv | hv)
        · exact hv.symm
        · exact absurd hv (hnot v)
    · have h2 : ¬ k = k1 := fun hk => h hk.symm
      simp only [getEntries, h, if_false, ih hl.2, List.mem_cons, Prod.mk.injEq, h2, false_and,
        false_or]

namespace GoMap

variable {V : Type}

@[simp] theorem get_empty (k : String) : (GoMap.empty : GoMap V).get k = none := rfl

theorem get_set (m : GoMap V) (k k2 : String) (v : V) :
    (m.set k v).get k2 = if k2 = k then some v else m.get k2 :=
  getEntries_setEntries k k2 v m.entries

theorem get_delete (m : GoMap V) (k k2 : String) :
    (m.delete k).get k2 = if k2 = k then none else m.get k2 :=
  getEntries_deleteEntries k k2 m.entries

theorem get_eq_some_iff (m : GoMap V) (k : String) (v : V) :
    m.get k = some v ↔ (k, v) ∈ m.entries :=
  getEntries_eq_some_iff k v m.entries m.nodupKeys

end GoMap

/-! ## Buckets -/

theorem foundIn_iff (peerID : String) (l : List String) : foundIn peerID l = true ↔ peerID ∈ l := by
  induction l with
  | nil => simp [foundIn]
  | cons a t ih =>
    by_cases h : a = peerID
    · simp [foundIn, h]
    · have h2 : ¬ peerID = a := fun hk => h hk.symm
      simp [foundIn, h, h2, ih]

theorem withoutPeer_eq_filter (peerID : String) (l : List String) :
    withoutPeer peerID l = l.filter (fun x => decide (x ≠ peerID)) := by
  induction l with
  | nil => simp [withoutPeer]
  | cons a t ih =>
    by_cases h : a = peerID
    · simp [withoutPeer, h, ih]
    · simp [withoutPeer, h, ih]

theorem mem_withoutPeer (peerID x : String) (l : List String) :
    x ∈ withoutPeer peerID l ↔ x ∈ l ∧ x ≠ peerID := by
  simp [withoutPeer_eq_filter]

theorem mem_appendNew (peerID x : String) (l : List String) :
    x ∈ appendNew peerID l ↔ x ∈ l ∨ x = peerID := by
  unfold appendNew
  by_cases h : foundIn peerID l = true
  · have hm := (foundIn_iff peerID l).1 h
    simp only [h, if_true]
    constructor
    · exact Or.inl
    · rintro (hx | hx)
      · exact hx
      · exact hx ▸ hm
  · simp [h]

theorem appendNew_ne_nil (peerID : String) (l : List String) : appendNew peerID l ≠ [] := by
  intro h
  have : peerID ∈ appendNew peerID l := (mem_appendNew peerID peerID l).2 (Or.inr rfl)
  simp [h] at this

theorem appendNew_idem (peerID : String) (l : List String) :
    appendNew peerID (appendNew peerID l) = appendNew peerID l := by
  have hm : peerID ∈ appendNew peerID l := (mem_appendNew peerID peerID l).2 (Or.inr rfl)
  have hf := (foundIn_iff peerID _).2 hm
  generalize appendNew peerID l = b at hf
  simp [appendNew, hf]

theorem withoutPeer_idem (peerID : String) (l : List String) :
    withoutPeer peerID (withoutPeer peerID l) = withoutPeer peerID l := by
  simp [withoutPeer_eq_filter, List.filter_filter]

theorem purge_idem (peerID : String) (o : Option (List String)) :
    purge peerID (purge peerID o) = purge peerID o := by
  cases o with
  | none => rfl
  | some l =>
    by_cases h : (withoutPeer peerID l).length > 0
    · simp [purge, h, withoutPeer_idem]
    · simp [purge, h]

theorem get_addToBucket (m : GoMap (List String)) (key peerID k : String) :
    (addToBucket m key peerID).get k =
      if k = key then some (appendNew peerID ((m.get key).getD [])) else m.get k := by
  unfold addToBucket
  cases hg : m.get key with
  | none =>
    simp only [Option.getD_none, GoMap.get_set, if_true, Option.getD_some, appendNew, foundIn]
    by_cases h : k = key
    · simp [h, GoMap.get_set]
    · simp [h, GoMap.get_set]
  | some b =>
    simp only [hg, Option.getD_some, appendNew]
    by_cases hf : foundIn peerID b = true
    · by_cases h : k = key
      · simp [hf, h, hg]
      · simp [hf, h]
    · by_cases h : k = key
      · simp [hf, h, GoMap.get_set]
      · simp [hf, h, GoMap.get_set]

theorem get_removeFromBucket (m : GoMap (List String)) (key peerID k : String) :
    (removeFromBucket m key peerID).get k =
      if k = key then purge peerID (m.get key) else m.get k := by
  unfold removeFromBucket
  cases hg : m.get key with
  | none =>
    by_cases h : k = key
    · simp [h, hg, purge]
    · simp [h]
  | some b =>
    by_cases hl : (withoutPeer peerID b).length > 0
    · by_cases h : k = key
      · simp [hl, h, purge, GoMap.get_set]
      · simp [hl, h, GoMap.get_set]
    · by_cases h : k = key
      · simp [hl, h, purge, GoMap.get_delete]
      · simp [hl, h, GoMap.get_delete]

theorem get_addAll (peerID : String) (ks : List String) (m : GoMap (List String)) (k : String) :
    (addAll peerID m ks).get k =
      if k ∈ ks then some (appendNew peerID ((m.get k).getD [])) else m.get k := by
  induction ks generalizing m with
  | nil => simp [addAll]
  | cons a t ih =>
    have hstep : addAll peerID m (a :: t) = addAll peerID (addToBucket m a peerID) t := rfl
    rw [hstep, ih, get_addToBucket]
    by_cases ha : k = a
    · subst ha
      by_cases ht : k ∈ t
      · simp [ht, appendNew_idem]
      · simp [ht]
    · by_cases ht : k ∈ t
      · simp [ha, ht]
      · simp [ha, ht]

theorem get_removeAll (peerID : String) (ks : List String) (m : GoMap (List String))
    (k : String) :
    (removeAll peerID m ks).get k = if k ∈ ks then purge peerID (m.get k) else m.get k := by
  induction ks generalizing m with
  | nil => simp [removeAll]
  | cons a t ih =>
    have hstep : removeAll peerID m (a :: t) = removeAll peerID (removeFromBucket m a peerID) t :=
      rfl
    rw [hstep, ih, get_removeFromBucket]
    by_cases ha : k = a
    · subst ha
      by_cases ht : k ∈ t
      · simp [ht, purge_idem]
      · simp [ht]
    · by_cases ht : k ∈ t
      · simp [ha, ht]
      · simp [ha, ht]

theorem foldl_registerFile (peerID : String) (files : List File) (idx : Index) :
    files.foldl (registerFile peerID) idx =
      { Peers := idx.Peers
        FilesByName := addAll peerID idx.FilesByName (files.map File.Name)
        FilesByHash := addAll peerID idx.FilesByHash (files.map File.Hash) } := by
  induction files generalizing idx with
  | nil => rfl
  | cons f t ih => simp only [List.foldl_cons, ih, registerFile, List.map_cons, addAll]

theorem foldl_unregisterFile (peerID : String) (files : List File) (idx : Index) :
    files.foldl (unregisterFile peerID) idx =
      { Peers := idx.Peers
        FilesByName := removeAll peerID idx.FilesByName (files.map File.Name)
        FilesByHash := removeAll peerID idx.FilesByHash (files.map File.Hash) } := by
  induction files generalizing idx with
  | nil => rfl
  | cons f t ih => simp only [List.foldl_cons, ih, unregisterFile, List.map_cons, removeAll]

theorem RegisterPeer_eq (idx : Index) (peer : Peer) (now : Int) :
    RegisterPeer idx peer now =
      { Peers := idx.Peers.set peer.ID { peer with LastSeen := now }
        FilesByName := addAll peer.ID idx.FilesByName (peer.Files.map File.Name)
        FilesByHash := addAll peer.ID idx.FilesByHash (peer.Files.map File.Hash) } := by
  simp only [RegisterPeer, foldl_registerFile]

theorem removePeer_eq (idx : Index) (peerID : String) (peer : Peer) :
    removePeer idx peerID peer =
      { Peers := idx.Peers.delete peerID
        FilesByName := removeAll peerID idx.FilesByName (peer.Files.map File.Name)
        FilesByHash := removeAll peerID idx.FilesByHash (peer.Files.map File.Hash) } := by
  simp only [removePeer, foldl_unregisterFile]

/-! ## Registration -/

theorem listed_addAll (peerID : String) (ks : List String) (m : GoMap (List String))
    (k x : String) :
    listed (addAll peerID m ks) k x ↔ listed m k x ∨ (x = peerID ∧ k ∈ ks) := by
  unfold listed
  rw [get_addAll]
  by_cases hk : k ∈ ks
  · simp only [hk, if_true, Option.some.injEq, and_true]
    constructor
    · rintro ⟨l, rfl, hx⟩
      rcases (mem_appendNew peerID x _).1 hx with h | h
      · cases hg : m.get k with
        | none => simp [hg] at h
        | some b => exact Or.inl ⟨b, rfl, by simpa [hg] using h⟩
      · exact Or.inr h
    · rintro (⟨l, hl, hx⟩ | h)
      · exact ⟨_, rfl, (mem_appendNew peerID x _).2 (Or.inl (by simpa [hl] using hx))⟩
      · exact ⟨_, rfl, (mem_appendNew peerID x _).2 (Or.inr h)⟩
  · simp [hk]

/-- C5. `RegisterPeer` is an upsert without a failure path: it is a total
function, and in the index it returns the entry of `peer.ID` in `Peers` is the
given record with `LastSeen` overwritten by the current time (so its catalog is
exactly `peer.Files`, whatever record was stored before), the records of the
other peers are untouched, and `peer.ID` is a member of the bucket of the name
and of the bucket of the hash of every file of the catalog. -/
theorem RegisterPeer_upsert (idx : Index) (peer : Peer) (now : Int) :
    (RegisterPeer idx peer now).Peers.get peer.ID = some { peer with LastSeen := now } ∧
    (∀ p, (RegisterPeer idx peer now).Peers.get peer.ID = some p →
      p.Files = peer.Files ∧ p.LastSeen = now ∧ p.ID = peer.ID ∧
      p.Address = peer.Address ∧ p.Port = peer.Port) ∧
    (∀ id, id ≠ peer.ID → (RegisterPeer idx peer now).Peers.get id = idx.Peers.get id) ∧
    (∀ f ∈ peer.Files,
      listed (RegisterPeer idx peer now).FilesByName f.Name peer.ID ∧
      listed (RegisterPeer idx peer now).FilesByHash f.Hash peer.ID) := by
  have hget : (RegisterPeer idx peer now).Peers.get peer.ID =
      some { peer with LastSeen := now } := by
    rw [RegisterPeer_eq]; simp [GoMap.get_set]
  refine ⟨hget, ?_, ?_, ?_⟩
  · intro p hp
    rw [hget] at hp
    cases hp
    exact ⟨rfl, rfl, rfl, rfl, rfl⟩
  · intro id hid
    rw [RegisterPeer_eq]; simp [GoMap.get_set, hid]
  · intro f hf
    rw [RegisterPeer_eq]
    exact ⟨(listed_addAll _ _ _ _ _).2 (Or.inr ⟨rfl, List.mem_map_of_mem File.Name hf⟩),
      (listed_addAll _ _ _ _ _).2 (Or.inr ⟨rfl, List.mem_map_of_mem File.Hash hf⟩)⟩

/-! ## Unregistration -/

/-- C7. Unregistering a peer ID that is not a key of `Peers` returns the index
as it was: `Peers`, `FilesByName` and `FilesByHash` are unchanged, and there
is no error to report since the operation returns nothing else. -/
theorem UnregisterPeer_unknown (idx : Index) (peerID : String)
    (h : idx.Peers.get peerID = none) : UnregisterPeer idx peerID = idx := by
  simp [UnregisterPeer, h]

theorem UnregisterPeer_unknown_witness :
    twoPeers.Peers.get "peer-7" = none ∧ UnregisterPeer twoPeers "peer-7" = twoPeers :=
  ⟨by decide, UnregisterPeer_unknown twoPeers "peer-7" (by decide)⟩

theorem purge_ne_nil (peerID : String) (o : Option (List String)) : purge peerID o ≠ some [] := by
  cases o with
  | none => simp [purge]
  | some l =>
    by_cases h : (withoutPeer peerID l).length > 0
    · simp only [purge, h, if_true, ne_eq, Option.some.injEq]
      intro hnil
      simp [hnil] at h
    · simp [purge, h]

theorem purge_eq_some (peerID : String) (o : Option (List String)) (l : List String)
    (h : purge peerID o = some l) : ∃ b, o = some b ∧ l = withoutPeer peerID b := by
  cases o with
  | none => simp [purge] at h
  | some b =>
    by_cases hl : (withoutPeer peerID b).length > 0
    · simp only [purge, hl, if_true, Option.some.injEq] at h
      exact ⟨b, rfl, h.symm⟩
    · simp [purge, hl] at h

theorem listed_purge (peerID : String) (o : Option (List String)) (x : String) :
    (∃ l, purge peerID o = some l ∧ x ∈ l) ↔ (∃ l, o = some l ∧ x ∈ l) ∧ x ≠ peerID := by
  constructor
  · rintro ⟨l, hl, hx⟩
    obtain ⟨b, rfl, rfl⟩ := purge_eq_some peerID o l hl
    have := (mem_withoutPeer peerID x b).1 hx
    exact ⟨⟨b, rfl, this.1⟩, this.2⟩
  · rintro ⟨⟨b, rfl, hx⟩, hne⟩
    have hm : x ∈ withoutPeer peerID b := (mem_withoutPeer peerID x b).2 ⟨hx, hne⟩
    have hpos : (withoutPeer peerID b).length > 0 := List.length_pos_of_mem hm
    exact ⟨withoutPeer peerID b, by simp [purge, hpos], hm⟩

theorem listed_removeAll (peerID : String) (ks : List String) (m : GoMap (List String))
    (k x : String) :
    listed (removeAll peerID m ks) k x ↔ listed m k x ∧ ¬ (x = peerID ∧ k ∈ ks) := by
  unfold listed
  rw [get_removeAll]
  by_cases hk : k ∈ ks
  · simp only [hk, if_true, and_true]
    exact listed_purge peerID (m.get k) x
  · simp [hk]

theorem purge_only (peerID : String) (l : List String) (h : ∀ x ∈ l, x = peerID) :
    purge peerID (some l) = none := by
  have hnil : withoutPeer peerID l = [] := by
    rw [withoutPeer_eq_filter, List.filter_eq_nil_iff]
    intro a ha
    simp [h a ha]
  simp [purge, hnil]

/-- C6. On an index that is footprint-consistent and has no empty bucket,
`UnregisterPeer id` leaves `id` absent from `Peers` and from every bucket of
`FilesByName` and `FilesByHash`, deletes every bucket whose only member was
`id`, and returns an index that is again footprint-consistent (and still has no
empty bucket). -/
theorem UnregisterPeer_removes_footprint (idx : Index) (id : String)
    (hc : FootprintConsistent idx) (hn : NoEmptyBucket idx) :
    (UnregisterPeer idx id).Peers.get id = none ∧
    (∀ k, ¬ listed (UnregisterPeer idx id).FilesByName k id) ∧
    (∀ k, ¬ listed (UnregisterPeer idx id).FilesByHash k id) ∧
    (∀ k l, idx.FilesByName.get k = some l → (∀ x ∈ l, x = id) →
      (UnregisterPeer idx id).FilesByName.get k = none) ∧
    (∀ k l, idx.FilesByHash.get k = some l → (∀ x ∈ l, x = id) →
      (UnregisterPeer idx id).FilesByHash.get k = none) ∧
    FootprintConsistent (UnregisterPeer idx id) ∧
    NoEmptyBucket (UnregisterPeer idx id) := by
  have honly : ∀ (m : GoMap (List String)) (k : String) (l : List String),
      m.get k ≠ some [] → m.get k = some l → (∀ x ∈ l, x = id) → listed m k id := by
    intro m k l hne hl hall
    cases l with
    | nil => exact absurd hl hne
    | cons a t =>
      have ha : a = id := hall a (List.mem_cons_self a t)
      exact ⟨a :: t, hl, ha ▸ List.mem_cons_self a t⟩
  cases hg : idx.Peers.get id with
  | none =>
    have hU : UnregisterPeer idx id = idx := by simp [UnregisterPeer, hg]
    rw [hU]
    refine ⟨hg, ?_, ?_, ?_, ?_, hc, hn⟩
    · intro k hl
      obtain ⟨p, hp, _⟩ := hc.1 k id hl
      simp [hg] at hp
    · intro k hl
      obtain ⟨p, hp, _⟩ := hc.2 k id hl
      simp [hg] at hp
    · intro k l hl hall
      obtain ⟨p, hp, _⟩ := hc.1 k id (honly _ k l (hn.1 k) hl hall)
      simp [hg] at hp
    · intro k l hl hall
      obtain ⟨p, hp, _⟩ := hc.2 k id (honly _ k l (hn.2 k) hl hall)
      simp [hg] at hp
  | some p =>
    have hU : UnregisterPeer idx id = removePeer idx id p := by simp [UnregisterPeer, hg]
    rw [hU, removePeer_eq]
    have hname : ∀ k, listed idx.FilesByName k id → k ∈ p.Files.map File.Name := by
      intro k hl
      obtain ⟨q, hq, f, hf, hfk⟩ := hc.1 k id hl
      rw [hg] at hq
      cases hq
      exact List.mem_map.2 ⟨f, hf, hfk⟩
    have hhash : ∀ k, listed idx.FilesByHash k id → k ∈ p.Files.map File.Hash := by
      intro k hl
      obtain ⟨q, hq, f, hf, hfk⟩ := hc.2 k id hl
      rw [hg] at hq
      cases hq
      exact List.mem_map.2 ⟨f, hf, hfk⟩
    refine ⟨by simp [GoMap.get_delete], ?_, ?_, ?_, ?_, ⟨?_, ?_⟩, ⟨?_, ?_⟩⟩
    · intro k hl
      have h := (listed_removeAll id _ _ k id).1 hl
      exact h.2 ⟨rfl, hname k h.1⟩
    · intro k hl
      have h := (listed_removeAll id _ _ k id).1 hl
      exact h.2 ⟨rfl, hhash k h.1⟩
    · intro k l hl hall
      have hk := hname k (honly _ k l (hn.1 k) hl hall)
      simp only [get_removeAll, hk, if_true, hl]
      exact purge_only id l hall
    · intro k l hl hall
      have hk := hhash k (honly _ k l (hn.2 k) hl hall)
      simp only [get_removeAll, hk, if_true, hl]
      exact purge_only id l hall
    · intro n x hl
      have h := (listed_removeAll id _ _ n x).1 hl
      have hx : x ≠ id := fun hx => h.2 ⟨hx, hname n (hx ▸ h.1)⟩
      obtain ⟨q, hq, hf⟩ := hc.1 n x h.1
      exact ⟨q, by simp [GoMap.get_delete, hx, hq], hf⟩
    · intro n x hl
      have h := (listed_removeAll id _ _ n x).1 hl
      have hx : x ≠ id := fun hx => h.2 ⟨hx, hhash n (hx ▸ h.1)⟩
      obtain ⟨q, hq, hf⟩ := hc.2 n x h.1
      exact ⟨q, by simp [GoMap.get_delete, hx, hq], hf⟩
    · intro k
      simp only [get_removeAll]
      by_cases hk : k ∈ p.Files.map File.Name
      · simp only [hk, if_true]; exact purge_ne_nil id _
      · simp only [hk, if_false]; exact hn.1 k
    · intro k
      simp only [get_removeAll]
      by_cases hk : k ∈ p.Files.map File.Hash
      · simp only [hk, if_true]; exact purge_ne_nil id _
      · simp only [hk, if_false]; exact hn.2 k

/-! ## Reclamation -/

theorem Peers_cleanup (timeout now : Int) (order : List (String × Peer)) (idx : Index)
    (x : String) :
    (CleanupDeadPeersIn idx timeout now order).Peers.get x =
      if ∃ e ∈ order, e.1 = x ∧ Sub now e.2.LastSeen > timeout then none
      else idx.Peers.get x := by
  unfold CleanupDeadPeersIn
  induction order generalizing idx with
  | nil => simp
  | cons e t ih =>
    rw [List.foldl_cons, ih]
    by_cases ht : ∃ e2 ∈ t, e2.1 = x ∧ Sub now e2.2.LastSeen > timeout
    · have hall : ∃ e2 ∈ e :: t, e2.1 = x ∧ Sub now e2.2.LastSeen > timeout := by
        obtain ⟨e2, h2, h3⟩ := ht
        exact ⟨e2, List.mem_cons_of_mem e h2, h3⟩
      simp only [ht, hall, if_true]
    · simp only [ht, if_false]
      by_cases hs : Sub now e.2.LastSeen > timeout
      · by_cases hx : x = e.1
        · have hall : ∃ e2 ∈ e :: t, e2.1 = x ∧ Sub now e2.2.LastSeen > timeout :=
            ⟨e, List.mem_cons_self e t, hx.symm, hs⟩
          rw [if_pos hall]
          simp only [cleanupStep, hs, if_true, removePeer_eq, GoMap.get_delete, hx]
        · have hall : ¬ ∃ e2 ∈ e :: t, e2.1 = x ∧ Sub now e2.2.LastSeen > timeout := by
            rintro ⟨e2, h2, h3, h4⟩
            rcases List.mem_cons.1 h2 with h5 | h5
            · exact hx (h5 ▸ h3.symm)
            · exact ht ⟨e2, h5, h3, h4⟩
          rw [if_neg hall]
          simp only [cleanupStep, hs, if_true, removePeer_eq, GoMap.get_delete, hx, if_false]
      · have hall : ¬ ∃ e2 ∈ e :: t, e2.1 = x ∧ Sub now e2.2.LastSeen > timeout := by
          rintro ⟨e2, h2, h3, h4⟩
          rcases List.mem_cons.1 h2 with h5 | h5
          · exact hs (h5 ▸ h4)
          · exact ht ⟨e2, h5, h3, h4⟩
        rw [if_neg hall]
        simp only [cleanupStep, hs, if_false]

theorem Peers_cleanup_perm (idx : Index) (timeout now : Int) (order : List (String × Peer))
    (horder : order.Perm idx.Peers.entries) (id : String) :
    (CleanupDeadPeersIn idx timeout now order).Peers.get id =
      match idx.Peers.get id with
      | some p => if Sub now p.LastSeen > timeout then none else some p
      | none => none := by
  have hmem : ∀ e : String × Peer, e ∈ order ↔ idx.Peers.get e.1 = some e.2 := by
    intro e
    rw [horder.mem_iff, GoMap.get_eq_some_iff]
  rw [Peers_cleanup]
  cases hg : idx.Peers.get id with
  | none =>
    by_cases h : ∃ e ∈ order, e.1 = id ∧ Sub now e.2.LastSeen > timeout
    · simp only [h, if_true]
    · simp only [h, if_false]
  | some p =>
    by_cases hs : Sub now p.LastSeen > timeout
    · have hyes : ∃ e ∈ order, e.1 = id ∧ Sub now e.2.LastSeen > timeout :=
        ⟨(id, p), (hmem (id, p)).2 hg, rfl, hs⟩
      simp only [hyes, hs, if_true]
    · have hno : ¬ ∃ e ∈ order, e.1 = id ∧ Sub now e.2.LastSeen > timeout := by
        rintro ⟨e, he, h1, h2⟩
        have h3 := (hmem e).1 he
        rw [h1, hg] at h3
        cases h3
        exact hs h2
      simp only [hno, hs, if_false]

/-- C8. `CleanupDeadPeers` removes exactly the stale peers, in whatever order
the loop visits the bindings of `Peers`: a peer with
`now.Sub(LastSeen) <= timeout` is kept with its record unchanged, a peer with
`now.Sub(LastSeen) > timeout` is gone, and no key is added.  In particular a
peer whose `LastSeen` was set by a heartbeat or by a registration at a time
`seen` with `now.Sub(seen) <= timeout` is still there after the sweep. -/
theorem CleanupDeadPeers_exact (idx : Index) (timeout now : Int)
    (order : List (String × Peer)) (horder : order.Perm idx.Peers.entries) :
    (∀ id p, idx.Peers.get id = some p → Sub now p.LastSeen ≤ timeout →
      (CleanupDeadPeersIn idx timeout now order).Peers.get id = some p) ∧
    (∀ id p, idx.Peers.get id = some p → Sub now p.LastSeen > timeout →
      (CleanupDeadPeersIn idx timeout now order).Peers.get id = none) ∧
    (∀ id, idx.Peers.get id = none →
      (CleanupDeadPeersIn idx timeout now order).Peers.get id = none) ∧
    (∀ id p seen order2, idx.Peers.get id = some p → Sub now seen ≤ timeout →
      order2.Perm (Heartbeat idx id seen).Peers.entries →
      (CleanupDeadPeersIn (Heartbeat idx id seen) timeout now order2).Peers.get id =
        some { p with LastSeen := seen }) ∧
    (∀ peer seen order2, Sub now seen ≤ timeout →
      order2.Perm (RegisterPeer idx peer seen).Peers.entries →
      (CleanupDeadPeersIn (RegisterPeer idx peer seen) timeout now order2).Peers.get peer.ID =
        some { peer with LastSeen := seen }) := by
  refine ⟨?_, ?_, ?_, ?_, ?_⟩
  · intro id p hp hfresh
    rw [Peers_cleanup_perm idx timeout now order horder, hp]
    simp [not_lt.2 hfresh]
  · intro id p hp hstale
    rw [Peers_cleanup_perm idx timeout now order horder, hp]
    simp [hstale]
  · intro id hnone
    rw [Peers_cleanup_perm idx timeout now order horder, hnone]
  · intro id p seen order2 hp hfresh horder2
    have hget : (Heartbeat idx id seen).Peers.get id = some { p with LastSeen := seen } := by
      simp [Heartbeat, hp, GoMap.get_set]
    rw [Peers_cleanup_perm _ timeout now order2 horder2, hget]
    simp [not_lt.2 hfresh]
  · intro peer seen order2 hfresh horder2
    have hget : (RegisterPeer idx peer seen).Peers.get peer.ID =
        some { peer with LastSeen := seen } := by
      rw [RegisterPeer_eq]; simp [GoMap.get_set]
    rw [Peers_cleanup_perm _ timeout now order2 horder2, hget]
    simp [not_lt.2 hfresh]

/-! ## No empty bucket -/

theorem NoEmptyBucket_removePeer (idx : Index) (peerID : String) (peer : Peer)
    (hn : NoEmptyBucket idx) : NoEmptyBucket (removePeer idx peerID peer) := by
  rw [removePeer_eq]
  constructor
  · intro k
    simp only [get_removeAll]
    by_cases hk : k ∈ peer.Files.map File.Name
    · simp only [hk, if_true]; exact purge_ne_nil peerID _
    · simp only [hk, if_false]; exact hn.1 k
  · intro k
    simp only [get_removeAll]
    by_cases hk : k ∈ peer.Files.map File.Hash
    · simp only [hk, if_true]; exact purge_ne_nil peerID _
    · simp only [hk, if_false]; exact hn.2 k

theorem NoEmptyBucket_RegisterPeer (idx : Index) (peer : Peer) (now : Int)
    (hn : NoEmptyBucket idx) : NoEmptyBucket (RegisterPeer idx peer now) := by
  rw [RegisterPeer_eq]
  constructor
  · intro k
    simp only [get_addAll]
    by_cases hk : k ∈ peer.Files.map File.Name
    · simp only [hk, if_true, ne_eq, Option.some.injEq]; exact appendNew_ne_nil _ _
    · simp only [hk, if_false]; exact hn.1 k
  · intro k
    simp only [get_addAll]
    by_cases hk : k ∈ peer.Files.map File.Hash
    · simp only [hk, if_true, ne_eq, Option.some.injEq]; exact appendNew_ne_nil _ _
    · simp only [hk, if_false]; exact hn.2 k

theorem NoEmptyBucket_UnregisterPeer (idx : Index) (peerID : String)
    (hn : NoEmptyBucket idx) : NoEmptyBucket (UnregisterPeer idx peerID) := by
  unfold UnregisterPeer
  cases hg : idx.Peers.get peerID with
  | none => exact hn
  | some p => exact NoEmptyBucket_removePeer idx peerID p hn

theorem NoEmptyBucket_Heartbeat (idx : Index) (peerID : String) (now : Int)
    (hn : NoEmptyBucket idx) : NoEmptyBucket (Heartbeat idx peerID now) := by
  unfold Heartbeat
  cases hg : idx.Peers.get peerID with
  | none => exact hn
  | some p => exact hn

theorem NoEmptyBucket_cleanup (timeout now : Int) (order : List (String × Peer)) (idx : Index)
    (hn : NoEmptyBucket idx) : NoEmptyBucket (CleanupDeadPeersIn idx timeout now order) := by
  unfold CleanupDeadPeersIn
  induction order generalizing idx with
  | nil => exact hn
  | cons e t ih =>
    rw [List.foldl_cons]
    apply ih
    unfold cleanupStep
    by_cases hs : Sub now e.2.LastSeen > timeout
    · simp only [hs, if_true]; exact NoEmptyBucket_removePeer idx e.1 e.2 hn
    · simp only [hs, if_false]; exact hn

/-- C10. No bucket is empty but present: in every index state reached from the
empty index by registrations, unregistrations, heartbeats and reclamation
sweeps, every key of `FilesByName` and every key of `FilesByHash` is bound to
a non-empty list of peer IDs. -/
theorem Reachable_noEmptyBucket (idx : Index) (h : Reachable idx) :
    (∀ k l, idx.FilesByName.get k = some l → l ≠ []) ∧
    (∀ k l, idx.FilesByHash.get k = some l → l ≠ []) := by
  have hn : NoEmptyBucket idx := by
    induction h with
    | init => exact ⟨fun k => by simp [NewIndex], fun k => by simp [NewIndex]⟩
    | register idx peer now _ ih => exact NoEmptyBucket_RegisterPeer idx peer now ih
    | unregister idx peerID _ ih => exact NoEmptyBucket_UnregisterPeer idx peerID ih
    | heartbeat idx peerID now _ ih => exact NoEmptyBucket_Heartbeat idx peerID now ih
    | cleanup idx timeout now order _ _ ih => exact NoEmptyBucket_cleanup timeout now order idx ih
  exact ⟨fun k l hl hnil => hn.1 k (hnil ▸ hl), fun k l hl hnil => hn.2 k (hnil ▸ hl)⟩

/-! ## Deciding the index properties on concrete states -/

theorem bucketsCheck_sound (idx : Index) (m : GoMap (List String)) (key : File → String)
    (h : bucketsCheck idx m key = true) :
    ∀ n id, listed m n id → ∃ p, idx.Peers.get id = some p ∧ ∃ f ∈ p.Files, key f = n := by
  rintro n id ⟨l, hl, hid⟩
  have hmem := (GoMap.get_eq_some_iff m n l).1 hl
  simp only [bucketsCheck, List.all_eq_true] at h
  have h2 := h (n, l) hmem id hid
  cases hg : idx.Peers.get id with
  | none => simp [hg] at h2
  | some p =>
    simp only [hg, List.any_eq_true, decide_eq_true_eq] at h2
    exact ⟨p, rfl, h2⟩

theorem footprintCheck_sound (idx : Index) (h : footprintCheck idx = true) :
    FootprintConsistent idx := by
  simp only [footprintCheck, Bool.and_eq_true] at h
  exact ⟨bucketsCheck_sound idx _ _ h.1, bucketsCheck_sound idx _ _ h.2⟩

theorem noEmptyCheck_sound (idx : Index) (h : noEmptyCheck idx = true) : NoEmptyBucket idx := by
  simp only [noEmptyCheck, Bool.and_eq_true, List.all_eq_true] at h
  constructor
  · intro k hk
    have := h.1 (k, []) ((GoMap.get_eq_some_iff _ k []).1 hk)
    simp at this
  · intro k hk
    have := h.2 (k, []) ((GoMap.get_eq_some_iff _ k []).1 hk)
    simp at this

/-! ## Instances of the theorems on the sample states -/

theorem UnregisterPeer_removes_footprint_witness :
    FootprintConsistent twoPeers ∧ NoEmptyBucket twoPeers ∧
    twoPeers.FilesByName.get "b.txt" = some ["P"] ∧
    (UnregisterPeer twoPeers "P").Peers.get "P" = none ∧
    (UnregisterPeer twoPeers "P").FilesByName.get "b.txt" = none ∧
    FootprintConsistent (UnregisterPeer twoPeers "P") :=
  have h := UnregisterPeer_removes_footprint twoPeers "P"
    (footprintCheck_sound twoPeers (by decide)) (noEmptyCheck_sound twoPeers (by decide))
  ⟨footprintCheck_sound twoPeers (by decide), noEmptyCheck_sound twoPeers (by decide),
    by decide, h.1, h.2.2.2.1 "b.txt" ["P"] (by decide) (by decide), h.2.2.2.2.2.1⟩

theorem CleanupDeadPeers_exact_witness :
    twoPeers.Peers.entries.Perm twoPeers.Peers.entries ∧
    (CleanupDeadPeersIn twoPeers 50 100 twoPeers.Peers.entries).Peers.get "P" = none ∧
    (CleanupDeadPeersIn twoPeers 50 100 twoPeers.Peers.entries).Peers.get "Q" =
      some { peerQ with LastSeen := 60 } :=
  have h := CleanupDeadPeers_exact twoPeers 50 100 twoPeers.Peers.entries (List.Perm.refl _)
  ⟨List.Perm.refl _,
    h.2.1 "P" { peerWithAB with LastSeen := 10 } (by decide) (by decide),
    h.1 "Q" { peerQ with LastSeen := 60 } (by decide) (by decide)⟩

theorem Reachable_noEmptyBucket_witness :
    Reachable (UnregisterPeer twoPeers "P") ∧
    (∀ k l, (UnregisterPeer twoPeers "P").FilesByName.get k = some l → l ≠ []) :=
  have hr : Reachable (UnregisterPeer twoPeers "P") :=
    Reachable.unregister _ _ (Reachable.register _ _ _ (Reachable.register _ _ _ Reachable.init))
  ⟨hr, (Reachable_noEmptyBucket _ hr).1⟩

/-! ## Re-registration with a shrunk catalog, and the prefix test of the search -/

/-- C1. Evaluation at the failing input: after `P` registers `{a.txt, b.txt}`
and registers again with `{a.txt}`, the index (a reachable state) still lists
`P` in the buckets of `b.txt` and of its hash while the stored catalog of `P`
has no such file, so the index is not footprint-consistent. -/
theorem shrunk_reregistration_breaks_footprint :
    Reachable shrunkIndex ∧
    shrunkIndex.Peers.get "P" = some { peerWithA with LastSeen := 20 } ∧
    listed shrunkIndex.FilesByName "b.txt" "P" ∧
    listed shrunkIndex.FilesByHash "hash-b" "P" ∧
    ¬ FootprintConsistent shrunkIndex := by
  have hl : listed shrunkIndex.FilesByName "b.txt" "P" := ⟨["P"], by decide, by decide⟩
  refine ⟨Reachable.register _ _ _ (Reachable.register _ _ _ Reachable.init), by decide, hl,
    ⟨["P"], by decide, by decide⟩, ?_⟩
  intro hc
  obtain ⟨p, hp, f, hf, hname⟩ := hc.1 "b.txt" "P" hl
  have hP : shrunkIndex.Peers.get "P" = some { peerWithA with LastSeen := 20 } := by decide
  rw [hP] at hp
  cases hp
  simp only [peerWithA, List.mem_singleton] at hf
  subst hf
  exact absurd hname (by decide)

/-- C2. Evaluation at the failing input: registering `P` with `{a.txt, b.txt}`
and then with `{a.txt}` leaves the buckets of `b.txt` and of its hash in
place, with `P` still their member; the buckets of `a.txt` are kept. -/
theorem reregistration_merges_buckets :
    (RegisterPeer (RegisterPeer NewIndex peerWithAB 10) peerWithA 20).FilesByName.get "a.txt" =
      some ["P"] ∧
    (RegisterPeer (RegisterPeer NewIndex peerWithAB 10) peerWithA 20).FilesByHash.get "hash-a" =
      some ["P"] ∧
    (RegisterPeer (RegisterPeer NewIndex peerWithAB 10) peerWithA 20).FilesByName.get "b.txt" =
      some ["P"] ∧
    (RegisterPeer (RegisterPeer NewIndex peerWithAB 10) peerWithA 20).FilesByHash.get "hash-b" =
      some ["P"] := by
  decide

/-- C3. Evaluation at the failing input: `doc` occurs inside the indexed name
`report-doc.txt` but not at its start, `containsSubstring` answers false, and
the unbounded search for `doc` returns no file. -/
theorem substring_query_finds_nothing :
    reportIndex.FilesByName.get "report-doc.txt" = some ["A"] ∧
    containsSubstring "report-doc.txt" "doc" = false ∧
    (SearchByName reportIndex "doc" 0).1 = [] := by
  decide

/-- C9. Evaluation at the failing input: `P` registers `{a.txt, b.txt}` at
time 10 and `{a.txt}` at time 20; the sweep at time 100 with timeout 5 reclaims
`P`, yet the search for `b` still returns `b.txt` with `P` among its peer IDs
(the returned peers map is empty), and `GetStats` still counts one name and one
hash although no peer is left. -/
theorem reclaimed_peer_still_listed :
    Reachable (CleanupDeadPeers shrunkIndex 5 100) ∧
    (CleanupDeadPeers shrunkIndex 5 100).Peers.get "P" = none ∧
    (SearchByName (CleanupDeadPeers shrunkIndex 5 100) "b" 0).1 =
      [{ Name := "b.txt", Hash := "", Size := 0, PeerIDs := ["P"] }] ∧
    (SearchByName (CleanupDeadPeers shrunkIndex 5 100) "b" 0).2.entries = [] ∧
    GetStats (CleanupDeadPeers shrunkIndex 5 100) =
      { peerCount := 0, uniqueFiles := 1, totalFileRefs := 1 } := by
  refine ⟨Reachable.cleanup _ _ _ _
    (Reachable.register _ _ _ (Reachable.register _ _ _ Reachable.init)) (List.Perm.refl _),
    by decide, by decide, by decide, by decide⟩

/-! ## Download mutual exclusion -/

theorem Continues_refl (fileHash : String) (st : LoopState) : Continues fileHash st st :=
  ⟨⟨[], by simp⟩, fun h => h⟩

theorem Continues_trans (fileHash : String) (st st2 st3 : LoopState)
    (h1 : Continues fileHash st st2) (h2 : Continues fileHash st2 st3) :
    Continues fileHash st st3 := by
  obtain ⟨⟨m1, hm1⟩, hk1⟩ := h1
  obtain ⟨⟨m2, hm2⟩, hk2⟩ := h2
  exact ⟨⟨m1 ++ m2, by rw [hm2, hm1, List.append_assoc]⟩, fun h => hk2 (hk1 h)⟩

theorem Continues_log (fileHash : String) (st : LoopState) (e : Effect) :
    Continues fileHash st (st.log e) := by
  refine ⟨⟨_, rfl⟩, ?_⟩
  intro h
  refine ⟨h.1, ?_⟩
  intro s hs
  simp only [LoopState.log, List.mem_append, List.mem_singleton] at hs
  rcases hs with hs | hs
  · exact h.2 s hs
  · rw [hs]; exact h.1

theorem Continues_set (fileHash : String) (st : LoopState) (v : ActiveDownload) :
    Continues fileHash st { st with active := st.active.set fileHash v } :=
  ⟨⟨[], by simp⟩, fun h => ⟨by simp [GoMap.get_set], h.2⟩⟩

theorem Continues_set_total (fileHash : String) (st : LoopState) (v : ActiveDownload)
    (n : Int) :
    Continues fileHash st { st with totalRead := n, active := st.active.set fileHash v } :=
  ⟨⟨[], by simp⟩, fun h => ⟨by simp [GoMap.get_set], h.2⟩⟩

theorem Continues_readChunk (fileHash : String) (contentLength : Int) (st : LoopState)
    (c : Chunk) : Continues fileHash st (readChunk fileHash contentLength st c).2 := by
  have h1 := Continues_log fileHash st Effect.read
  have h2 := Continues_trans _ _ _ _ h1 (Continues_log fileHash _ (Effect.write c.n))
  unfold readChunk
  by_cases hn : c.n > 0
  · simp only [hn, if_true]
    cases hw : c.writeErr with
    | some e => exact h2
    | none =>
      by_cases hc : contentLength > 0
      · simp only [hc, if_true]
        exact Continues_trans _ _ _ _ h2 (Continues_set_total fileHash _ _ _)
      · simp only [hc, if_false]
        exact ⟨h2.1, h2.2⟩
  · simp only [hn, if_false]
    exact h1

theorem Continues_readLoop (fileHash : String) (contentLength : Int) (last : Chunk)
    (lastErr : Option String) (chunks : List Chunk) (st : LoopState) :
    Continues fileHash st (readLoop fileHash contentLength last lastErr chunks st).2 := by
  induction chunks generalizing st with
  | nil =>
    have h1 := Continues_readChunk fileHash contentLength st last
    unfold readLoop
    rcases hr : readChunk fileHash contentLength st last with ⟨_ | e, st1⟩
    · rw [hr] at h1; exact h1
    · rw [hr] at h1; exact h1
  | cons c rest ih =>
    have h1 := Continues_readChunk fileHash contentLength st c
    unfold readLoop
    rcases hr : readChunk fileHash contentLength st c with ⟨_ | e, st1⟩
    · rw [hr] at h1; exact Continues_trans _ _ _ _ h1 (ih st1)
    · rw [hr] at h1; exact h1

theorem Continues_finish (pc : PeerClient) (fileName fileHash : String) (w : Transfer)
    (st : LoopState) : Continues fileHash st (finish pc fileName w st).2 := by
  have h1 := Continues_log fileHash st (Effect.copyFile pc.DownloadDir pc.SharedDir fileName)
  unfold finish
  cases hcp : w.copyErr with
  | some e => exact h1
  | none =>
    exact Continues_trans _ _ _ _ h1 (Continues_trans _ _ _ _
      (Continues_log fileHash _ Effect.scan) (Continues_log fileHash _ Effect.register))

theorem Continues_receive (pc : PeerClient) (fileName fileHash : String) (w : Transfer)
    (st : LoopState) : Continues fileHash st (receive pc fileName fileHash w st).2 := by
  have h1 : Continues fileHash st (if w.ContentLength > 0
      then { st with active := setTotal st.active fileHash w.ContentLength } else st) := by
    by_cases hc : w.ContentLength > 0
    · simp only [hc, if_true]
      exact Continues_set fileHash st _
    · simp only [hc, if_false]
      exact Continues_refl fileHash st
  have h2 := Continues_trans _ _ _ _ h1
    (Continues_log fileHash _ (Effect.create pc.DownloadDir fileName))
  unfold receive
  cases hcr : w.createErr with
  | some e => exact h2
  | none =>
    have h3 := Continues_trans _ _ _ _ h2
      (Continues_readLoop fileHash w.ContentLength w.last w.lastErr w.chunks _)
    simp only
    rcases hr : readLoop fileHash w.ContentLength w.last w.lastErr w.chunks _ with ⟨_ | e, st1⟩
    · rw [hr] at h3
      exact Continues_trans _ _ _ _ h3 (Continues_finish pc fileName fileHash w st1)
    · rw [hr] at h3
      exact h3

theorem Continues_downloadBody (pc : PeerClient) (fileName fileHash : String) (peer : Peer)
    (w : Transfer) (active : GoMap ActiveDownload) :
    Continues fileHash
      (LoopState.log { totalRead := 0, active := active, trace := [] }
        (Effect.httpGet ("http://" ++ peer.Address ++ ":" ++ toString peer.Port ++
          "/file?name=" ++ fileName)))
      (downloadBody pc fileName fileHash peer w active).2 := by
  unfold downloadBody
  cases hg : w.getErr with
  | some e => exact Continues_refl fileHash _
  | none =>
    by_cases hs : w.StatusCode ≠ 200
    · simp only []
      rw [if_pos hs]
      exact Continues_log fileHash _ Effect.readAll
    · simp only []
      rw [if_neg hs]
      exact Continues_receive pc fileName fileHash w _

theorem DownloadFile_duplicate (pc : PeerClient) (fileName fileHash : String) (peer : Peer)
    (w : Transfer) (h : (pc.ActiveDownloads.get fileHash).isSome = true) :
    (DownloadFile pc fileName fileHash peer w).err = some "already downloading this file" ∧
    (DownloadFile pc fileName fileHash peer w).trace = [] ∧
    (DownloadFile pc fileName fileHash peer w).ActiveDownloads = pc.ActiveDownloads := by
  cases hg : pc.ActiveDownloads.get fileHash with
  | none => simp [hg] at h
  | some v => simp [DownloadFile, hg]

theorem DownloadFile_started (pc : PeerClient) (fileName fileHash : String) (peer : Peer)
    (w : Transfer) (h : pc.ActiveDownloads.get fileHash = none) :
    (∃ url rest, (DownloadFile pc fileName fileHash peer w).trace =
      { effect := Effect.httpGet url,
        visible := pc.ActiveDownloads.set fileHash { Progress := 0, Total := 100 } } :: rest) ∧
    (∀ s ∈ (DownloadFile pc fileName fileHash peer w).trace,
      (s.visible.get fileHash).isSome = true) := by
  have hc := Continues_downloadBody pc fileName fileHash peer w
    (pc.ActiveDownloads.set fileHash { Progress := 0, Total := 100 })
  have htr : (DownloadFile pc fileName fileHash peer w).trace =
      (downloadBody pc fileName fileHash peer w
        (pc.ActiveDownloads.set fileHash { Progress := 0, Total := 100 })).2.trace := by
    simp [DownloadFile, h]
  rw [htr]
  obtain ⟨⟨more, hmore⟩, hkeep⟩ := hc
  constructor
  · exact ⟨"http://" ++ peer.Address ++ ":" ++ toString peer.Port ++ "/file?name=" ++ fileName,
      more, by rw [hmore]; simp [LoopState.log]⟩
  · refine (hkeep ⟨by simp [LoopState.log, GoMap.get_set], ?_⟩).2
    intro s hs
    simp only [LoopState.log, List.nil_append, List.mem_singleton] at hs
    rw [hs]
    simp [GoMap.get_set]

/-- C4. `DownloadFile` fails at once with the error `already downloading this
file`, before any network or file action, exactly when `ActiveDownloads` holds
a record for the digest at the call, and it then leaves `ActiveDownloads` as it
is.  Otherwise its first action is the HTTP request, made with the record
`{Progress: 0, Total: 100}` already inserted; the record stays present during
every action of the transfer, so a second request for the same digest made
during any of them fails at once and leaves the record of the first in place. -/
theorem DownloadFile_mutual_exclusion (pc : PeerClient) (fileName fileHash : String)
    (peer : Peer) (w : Transfer) :
    (((DownloadFile pc fileName fileHash peer w).err = some "already downloading this file" ∧
        (DownloadFile pc fileName fileHash peer w).trace = []) ↔
      (pc.ActiveDownloads.get fileHash).isSome = true) ∧
    ((pc.ActiveDownloads.get fileHash).isSome = true →
      (DownloadFile pc fileName fileHash peer w).ActiveDownloads = pc.ActiveDownloads) ∧
    (pc.ActiveDownloads.get fileHash = none →
      ∃ url rest, (DownloadFile pc fileName fileHash peer w).trace =
        { effect := Effect.httpGet url,
          visible := pc.ActiveDownloads.set fileHash { Progress := 0, Total := 100 } } :: rest) ∧
    (pc.ActiveDownloads.get fileHash = none →
      ∀ s ∈ (DownloadFile pc fileName fileHash peer w).trace,
        ∀ (fileName2 : String) (peer2 : Peer) (w2 : Transfer),
          (DownloadFile { pc with ActiveDownloads := s.visible } fileName2 fileHash peer2 w2).err =
            some "already downloading this file" ∧
          (DownloadFile { pc with ActiveDownloads := s.visible } fileName2 fileHash peer2 w2).trace
            = [] ∧
          (DownloadFile { pc with ActiveDownloads := s.visible } fileName2 fileHash peer2
            w2).ActiveDownloads = s.visible) := by
  refine ⟨⟨?_, ?_⟩, ?_, ?_, ?_⟩
  · rintro ⟨_, htrace⟩
    cases hg : pc.ActiveDownloads.get fileHash with
    | some v => rfl
    | none =>
      obtain ⟨url, rest, hrest⟩ := (DownloadFile_started pc fileName fileHash peer w hg).1
      rw [hrest] at htrace
      cases htrace
  · intro h
    exact ⟨(DownloadFile_duplicate pc fileName fileHash peer w h).1,
      (DownloadFile_duplicate pc fileName fileHash peer w h).2.1⟩
  · intro h
    exact (DownloadFile_duplicate pc fileName fileHash peer w h).2.2
  · intro h
    exact (DownloadFile_started pc fileName fileHash peer w h).1
  · intro h s hs fileName2 peer2 w2
    exact DownloadFile_duplicate { pc with ActiveDownloads := s.visible } fileName2 fileHash peer2
      w2 ((DownloadFile_started pc fileName fileHash peer w h).2 s hs)

theorem DownloadFile_mutual_exclusion_witness :
    (busyClient.ActiveDownloads.get "d1").isSome = true ∧
    (DownloadFile busyClient "doc.txt" "d1" peerQ goodTransfer).err =
      some "already downloading this file" ∧
    (DownloadFile busyClient "doc.txt" "d1" peerQ goodTransfer).trace = [] ∧
    (DownloadFile busyClient "doc.txt" "d1" peerQ goodTransfer).ActiveDownloads =
      busyClient.ActiveDownloads ∧
    idleClient.ActiveDownloads.get "d1" = none ∧
    (∃ url rest, (DownloadFile idleClient "doc.txt" "d1" peerQ goodTransfer).trace =
      { effect := Effect.httpGet url,
        visible := idleClient.ActiveDownloads.set "d1" { Progress := 0, Total := 100 } } ::
        rest) :=
  have hb : (busyClient.ActiveDownloads.get "d1").isSome = true := by decide
  have hbusy := DownloadFile_mutual_exclusion busyClient "doc.txt" "d1" peerQ goodTransfer
  have hidle := DownloadFile_mutual_exclusion idleClient "doc.txt" "d1" peerQ goodTransfer
  ⟨hb, (hbusy.1.2 hb).1, (hbusy.1.2 hb).2, hbusy.2.1 hb, rfl, hidle.2.2.1 rfl⟩

/-! ## Search: the files returned -/

theorem fillFrom_Name (name : String) (file : File) (files : List File) :
    (fillFrom name file files).Name = file.Name := by
  induction files with
  | nil => rfl
  | cons f t ih =>
    by_cases h : f.Name = name
    · simp [fillFrom, h]
    · simp [fillFrom, h, ih]

theorem fillFrom_PeerIDs (name : String) (file : File) (files : List File) :
    (fillFrom name file files).PeerIDs = file.PeerIDs := by
  induction files with
  | nil => rfl
  | cons f t ih =>
    by_cases h : f.Name = name
    · simp [fillFrom, h]
    · simp [fillFrom, h, ih]

theorem searchEntry_Name (idx : Index) (name : String) (peerIDs : List String) :
    (searchEntry idx name peerIDs).Name = name := by
  cases peerIDs with
  | nil => rfl
  | cons a t =>
    cases hg : idx.Peers.get a with
    | none => simp [searchEntry, hg]
    | some p => simp [searchEntry, hg, fillFrom_Name]

theorem searchEntry_PeerIDs (idx : Index) (name : String) (peerIDs : List String) :
    (searchEntry idx name peerIDs).PeerIDs = peerIDs := by
  cases peerIDs with
  | nil => rfl
  | cons a t =>
    cases hg : idx.Peers.get a with
    | none => simp [searchEntry, hg]
    | some p => simp [searchEntry, hg, fillFrom_PeerIDs]

theorem searchLoop_files (idx : Index) (query : String) (limit : Int)
    (order : List (String × List String)) (files : List File) (peers : GoMap Peer) :
    (searchLoop idx query limit order files peers).1 =
      files ++ ((if limit > 0
          then (order.filter (fun e => containsSubstring e.1 query)).take
            (limit.toNat - files.length)
          else order.filter (fun e => containsSubstring e.1 query)).map
        (fun e => searchEntry idx e.1 e.2)) := by
  induction order generalizing files peers with
  | nil => simp [searchLoop]
  | cons e t ih =>
    obtain ⟨name, peerIDs⟩ := e
    unfold searchLoop
    by_cases hstop : (files.length : Int) ≥ limit ∧ limit > 0
    · have hnat : (limit.toNat : Int) = limit := Int.toNat_of_nonneg (by omega)
      have hzero : limit.toNat - files.length = 0 := by omega
      simp [hstop, hzero]
    · rw [if_neg hstop]
      by_cases hm : containsSubstring name query = true
      · rw [if_pos hm, ih]
        by_cases hl : limit > 0
        · have hnat : (limit.toNat : Int) = limit := Int.toNat_of_nonneg (by omega)
          have hlt : files.length < limit.toNat := by omega
          obtain ⟨k, hk⟩ : ∃ k, limit.toNat - files.length = k + 1 :=
            ⟨limit.toNat - files.length - 1, by omega⟩
          have hk2 : limit.toNat - (files ++ [searchEntry idx name peerIDs]).length = k := by
            simp only [List.length_append, List.length_singleton]; omega
          simp only [hl, if_true, hk2, hk, List.filter_cons, hm, List.take_succ_cons,
            List.map_cons, List.append_assoc, List.singleton_append]
        · simp only [hl, if_false, List.filter_cons, hm, if_true, List.map_cons,
            List.append_assoc, List.singleton_append]
      · rw [if_neg hm, ih]
        simp only [List.filter_cons, hm]
        rfl

theorem SearchByNameIn_files (idx : Index) (query : String) (limit : Int)
    (order : List (String × List String)) :
    (SearchByNameIn idx query limit order).1 =
      (if limit > 0
        then (order.filter (fun e => containsSubstring e.1 query)).take limit.toNat
        else order.filter (fun e => containsSubstring e.1 query)).map
      (fun e => searchEntry idx e.1 e.2) := by
  simp [SearchByNameIn, searchLoop_files]

theorem map_fst_filter {V : Type} (p : String → Bool) (l : List (String × V)) :
    (l.filter (fun e => p e.1)).map Prod.fst = (l.map Prod.fst).filter p := by
  induction l with
  | nil => rfl
  | cons e t ih =>
    by_cases h : p e.1 = true
    · simp [List.filter_cons, h, ih]
    · simp [List.filter_cons, h, ih]

/-- C11. The search limit, for every visiting order of the name index: with
`m` the number of indexed names that match the query, a positive `limit`
yields exactly `min(limit, m)` files, and `limit <= 0` yields exactly `m`
files, whose names are the matching indexed names, each once. -/
theorem SearchByName_limit (idx : Index) (query : String) (limit : Int)
    (order : List (String × List String)) (horder : order.Perm idx.FilesByName.entries) :
    (0 < limit → (SearchByNameIn idx query limit order).1.length =
      min limit.toNat
        (idx.FilesByName.keys.filter (fun n => containsSubstring n query)).length) ∧
    (limit ≤ 0 →
      (SearchByNameIn idx query limit order).1.length =
        (idx.FilesByName.keys.filter (fun n => containsSubstring n query)).length ∧
      ((SearchByNameIn idx query limit order).1.map File.Name).Perm
        (idx.FilesByName.keys.filter (fun n => containsSubstring n query)) ∧
      ((SearchByNameIn idx query limit order).1.map File.Name).Nodup) := by
  have hperm : ((order.filter (fun e => containsSubstring e.1 query)).map Prod.fst).Perm
      (idx.FilesByName.keys.filter (fun n => containsSubstring n query)) := by
    rw [map_fst_filter (fun n => containsSubstring n query) order]
    exact (horder.map Prod.fst).filter _
  have hlen : (order.filter (fun e => containsSubstring e.1 query)).length =
      (idx.FilesByName.keys.filter (fun n => containsSubstring n query)).length := by
    rw [← hperm.length_eq, List.length_map]
  have hnames : ∀ l : List (String × List String),
      (l.map (fun e => searchEntry idx e.1 e.2)).map File.Name = l.map Prod.fst := by
    intro l
    simp [List.map_map, Function.comp_def, searchEntry_Name]
  constructor
  · intro hpos
    rw [SearchByNameIn_files]
    simp only [hpos, if_true, List.length_map, List.length_take, hlen]
  · intro hle
    have hnot : ¬ limit > 0 := by omega
    rw [SearchByNameIn_files]
    simp only [hnot, if_false, List.length_map, hlen, hnames, true_and]
    refine ⟨hperm, ?_⟩
    rw [hperm.nodup_iff]
    exact idx.FilesByName.nodupKeys.filter _

theorem SearchByName_limit_witness :
    twoPeers.FilesByName.entries.Perm twoPeers.FilesByName.entries ∧
    (SearchByNameIn twoPeers "" 1 twoPeers.FilesByName.entries).1.length = 1 ∧
    (SearchByNameIn twoPeers "" 0 twoPeers.FilesByName.entries).1.length = 2 :=
  have h1 := SearchByName_limit twoPeers "" 1 twoPeers.FilesByName.entries (List.Perm.refl _)
  have h0 := SearchByName_limit twoPeers "" 0 twoPeers.FilesByName.entries (List.Perm.refl _)
  ⟨List.Perm.refl _, (h1.1 (by decide)).trans (by decide), ((h0.2 (by decide)).1).trans (by decide)⟩

/-! ## Heartbeat -/

theorem keys_setEntries_of_get {V : Type} (k : String) (v w : V) (l : List (String × V))
    (h : getEntries k l = some w) : (setEntries k v l).map Prod.fst = l.map Prod.fst := by
  induction l with
  | nil => simp [getEntries] at h
  | cons e t ih =>
    obtain ⟨k1, v1⟩ := e
    by_cases hk : k1 = k
    · simp [setEntries, hk]
    · simp only [getEntries, hk, if_false] at h
      simp [setEntries, hk, ih h]

theorem GoMap.mem_keys_iff {V : Type} (m : GoMap V) (k : String) :
    k ∈ m.keys ↔ ∃ v, m.get k = some v := by
  constructor
  · intro hk
    obtain ⟨e, he, hfst⟩ := List.mem_map.1 hk
    exact ⟨e.2, (m.get_eq_some_iff k e.2).2 (by rw [← hfst]; exact he)⟩
  · rintro ⟨v, hv⟩
    exact List.mem_map.2 ⟨(k, v), (m.get_eq_some_iff k v).1 hv, rfl⟩

/-- C15. The heartbeat update touches liveness only.  When the ID is a key of
`Peers`, its record becomes the old record with `LastSeen` set to the current
time (ID, address, port and catalog are the old ones), every other record is
unchanged, the keys of `Peers` are the same, and `FilesByName` and
`FilesByHash` are unchanged.  When the ID is unknown the index is unchanged,
so no peer is created. -/
theorem Heartbeat_touches_liveness_only (idx : Index) (peerID : String) (now : Int) :
    (∀ p, idx.Peers.get peerID = some p →
      (Heartbeat idx peerID now).Peers.get peerID = some { p with LastSeen := now }) ∧
    (∀ k, k ≠ peerID → (Heartbeat idx peerID now).Peers.get k = idx.Peers.get k) ∧
    (Heartbeat idx peerID now).Peers.keys = idx.Peers.keys ∧
    (Heartbeat idx peerID now).FilesByName = idx.FilesByName ∧
    (Heartbeat idx peerID now).FilesByHash = idx.FilesByHash ∧
    (idx.Peers.get peerID = none → Heartbeat idx peerID now = idx) := by
  cases hg : idx.Peers.get peerID with
  | none =>
    have hH : Heartbeat idx peerID now = idx := by simp [Heartbeat, hg]
    rw [hH]
    exact ⟨fun p hp => by simp at hp, fun k _ => rfl, rfl, rfl, rfl, fun _ => rfl⟩
  | some p =>
    have hH : Heartbeat idx peerID now =
        { idx with Peers := idx.Peers.set peerID { p with LastSeen := now } } := by
      simp [Heartbeat, hg]
    rw [hH]
    refine ⟨?_, ?_, ?_, rfl, rfl, fun h => by simp at h⟩
    · intro q hq
      cases hq
      simp [GoMap.get_set]
    · intro k hk
      simp [GoMap.get_set, hk]
    · exact keys_setEntries_of_get peerID _ p idx.Peers.entries hg

/-! ## Statistics -/

theorem GoMap.mem_keys_set {V : Type} (m : GoMap V) (k k2 : String) (v : V) :
    k2 ∈ (m.set k v).keys ↔ k2 = k ∨ k2 ∈ m.keys := by
  rw [GoMap.mem_keys_iff, GoMap.mem_keys_iff, GoMap.get_set]
  by_cases h : k2 = k
  · simp [h]
  · simp [h]

theorem GoMap.len_eq_card {V : Type} (m : GoMap V) : m.len = m.keys.toFinset.card := by
  have h : m.keys.toFinset.card = m.keys.length := List.toFinset_card_of_nodup m.nodupKeys
  rw [h]
  simp [GoMap.len, GoMap.keys]

theorem keys_foldl_set_true (ks : List String) (u : GoMap Bool) :
    (ks.foldl (fun u hash => u.set hash true) u).keys.toFinset = u.keys.toFinset ∪ ks.toFinset := by
  induction ks generalizing u with
  | nil => simp
  | cons a t ih =>
    rw [List.foldl_cons, ih]
    ext x
    simp only [Finset.mem_union, List.mem_toFinset, GoMap.mem_keys_set, List.mem_cons]
    tauto

/-- C16. `GetStats` returns as `peerCount` the number of keys of `Peers`, as
`uniqueFiles` the number of keys of `FilesByHash` (the distinct digests
indexed) and as `totalFileRefs` the number of keys of `FilesByName` (the
distinct names indexed); on the empty index the three counts are 0. -/
theorem GetStats_counts (idx : Index) :
    (GetStats idx).peerCount = idx.Peers.keys.toFinset.card ∧
    (GetStats idx).uniqueFiles = idx.FilesByHash.keys.toFinset.card ∧
    (GetStats idx).totalFileRefs = idx.FilesByName.keys.toFinset.card ∧
    GetStats NewIndex = { peerCount := 0, uniqueFiles := 0, totalFileRefs := 0 } := by
  refine ⟨GoMap.len_eq_card _, ?_, GoMap.len_eq_card _, rfl⟩
  simp only [GetStats]
  rw [GoMap.len_eq_card, keys_foldl_set_true]
  simp [GoMap.keys, GoMap.empty]

/-! ## The scenario at the directory -/

theorem take_singleton_of_pos {α : Type} (x : α) (n : Nat) (h : 0 < n) : [x].take n = [x] := by
  cases n with
  | zero => omega
  | succ k => simp

/-- C17. The scenario at the directory.  After `A` registers the catalog
`[doc.txt, d1, 17]` on the empty index, the search for `doc` returns, for
every limit, exactly one file: `doc.txt` with hash `d1`, size 17 and
`PeerIDs = [A]`.  After `B` registers a catalog with the same file, `GetStats`
reports `uniqueFiles = 1` and the search for `doc` returns one file, whose
`PeerIDs` are `A` and `B`. -/
theorem scenario_directory (limit : Int) :
    (SearchByName scenarioAfterA "doc" limit).1 =
      [{ Name := "doc.txt", Hash := "d1", Size := 17, PeerIDs := ["A"] }] ∧
    (GetStats scenarioAfterB).uniqueFiles = 1 ∧
    (SearchByName scenarioAfterB "doc" limit).1 =
      [{ Name := "doc.txt", Hash := "d1", Size := 17, PeerIDs := ["A", "B"] }] ∧
    "A" ∈ ["A", "B"] ∧ "B" ∈ ["A", "B"] := by
  have hA : scenarioAfterA.FilesByName.entries = [("doc.txt", ["A"])] := by decide
  have hB : scenarioAfterB.FilesByName.entries = [("doc.txt", ["A", "B"])] := by decide
  have hm : containsSubstring "doc.txt" "doc" = true := by decide
  have hEA : searchEntry scenarioAfterA "doc.txt" ["A"] =
      { Name := "doc.txt", Hash := "d1", Size := 17, PeerIDs := ["A"] } := by decide
  have hEB : searchEntry scenarioAfterB "doc.txt" ["A", "B"] =
      { Name := "doc.txt", Hash := "d1", Size := 17, PeerIDs := ["A", "B"] } := by decide
  refine ⟨?_, by decide, ?_, by decide, by decide⟩
  · rw [SearchByName, SearchByNameIn_files, hA]
    by_cases hl : limit > 0
    · have hpos : 0 < limit.toNat := by omega
      simp only [hl, if_true, List.filter_cons, hm, List.filter_nil,
        take_singleton_of_pos _ _ hpos, List.map_cons, List.map_nil, hEA]
    · simp only [hl, if_false, List.filter_cons, hm, if_true, List.filter_nil, List.map_cons,
        List.map_nil, hEA]
  · rw [SearchByName, SearchByNameIn_files, hB]
    by_cases hl : limit > 0
    · have hpos : 0 < limit.toNat := by omega
      simp only [hl, if_true, List.filter_cons, hm, List.filter_nil,
        take_singleton_of_pos _ _ hpos, List.map_cons, List.map_nil, hEB]
    · simp only [hl, if_false, List.filter_cons, hm, if_true, List.filter_nil, List.map_cons,
        List.map_nil, hEB]

/-! ## Case-insensitive matching -/

theorem foldl_lowerRune (l : List Char) (acc : String) :
    l.foldl (fun result c => result ++ String.singleton (lowerRune c)) acc =
      ⟨acc.data ++ l.map lowerRune⟩ := by
  induction l generalizing acc with
  | nil => simp
  | cons c t ih =>
    rw [List.foldl_cons, ih]
    apply String.ext
    simp [String.data_append, String.singleton]

theorem toLowerCase_data (s : String) : (toLowerCase s).data = s.data.map lowerRune := by
  simp [toLowerCase, foldl_lowerRune]

theorem isUpper_iff (c : Char) : ('A' ≤ c ∧ c ≤ 'Z') ↔ (65 ≤ c.toNat ∧ c.toNat ≤ 90) := by
  simp only [Char.le_def, UInt32.le_def, Char.toNat, Fin.le_def]
  rfl

theorem lowerRune_of_upper (c d : Char) (hc : 'A' ≤ c ∧ c ≤ 'Z') (hd : d.toNat = c.toNat + 32) :
    lowerRune c = lowerRune d := by
  have hc2 := (isUpper_iff c).1 hc
  have hnd : ¬ ('A' ≤ d ∧ d ≤ 'Z') := by
    rw [isUpper_iff]
    omega
  rw [lowerRune, lowerRune, if_pos hc, if_neg hnd, ← hd, Char.ofNat_toNat]

theorem lowerRune_congr (c d : Char) (h : sameUpToCase c d = true) :
    lowerRune c = lowerRune d := by
  simp only [sameUpToCase, Bool.or_eq_true, Bool.and_eq_true, decide_eq_true_eq] at h
  rcases h with (h | h) | h
  · rw [h]
  · exact lowerRune_of_upper c d h.1 h.2
  · exact (lowerRune_of_upper d c h.1 h.2).symm

theorem map_lowerRune_congr (l1 l2 : List Char) (h : sameUpToCaseList l1 l2 = true) :
    l1.map lowerRune = l2.map lowerRune := by
  induction l1 generalizing l2 with
  | nil =>
    cases l2 with
    | nil => rfl
    | cons d ds => simp [sameUpToCaseList] at h
  | cons c cs ih =>
    cases l2 with
    | nil => simp [sameUpToCaseList] at h
    | cons d ds =>
      simp only [sameUpToCaseList, Bool.and_eq_true] at h
      simp [lowerRune_congr c d h.1, ih ds h.2]

theorem toLowerCase_congr (s t : String) (h : differOnlyInCase s t) :
    toLowerCase s = toLowerCase t := by
  apply String.ext
  rw [toLowerCase_data, toLowerCase_data]
  exact map_lowerRune_congr _ _ h

theorem searchLoop_congr (idx : Index) (q1 q2 : String) (limit : Int)
    (h : ∀ name, containsSubstring name q1 = containsSubstring name q2)
    (order : List (String × List String)) (files : List File) (peers : GoMap Peer) :
    searchLoop idx q1 limit order files peers = searchLoop idx q2 limit order files peers := by
  induction order generalizing files peers with
  | nil => simp [searchLoop]
  | cons e t ih =>
    obtain ⟨name, peerIDs⟩ := e
    simp only [searchLoop, h name, ih]

/-- C12. Matching ignores the case of ASCII letters: when `n2` differs from
`n` and `q2` differs from `q` only in the case of letters `A`-`Z` / `a`-`z`,
`containsSubstring n q = containsSubstring n2 q2`; hence a search for `q2`
returns exactly what the search for `q` returns, and a name matches `q` if and
only if its re-cased form does. -/
theorem containsSubstring_case_insensitive (n n2 q q2 : String)
    (hn : differOnlyInCase n n2) (hq : differOnlyInCase q q2) :
    containsSubstring n q = containsSubstring n2 q2 ∧
    (∀ (idx : Index) (limit : Int) (order : List (String × List String)),
      SearchByNameIn idx q limit order = SearchByNameIn idx q2 limit order) := by
  have hsame : ∀ (a a2 b b2 : String), differOnlyInCase a a2 → differOnlyInCase b b2 →
      containsSubstring a b = containsSubstring a2 b2 := by
    intro a a2 b b2 ha hb
    simp only [containsSubstring, toLowerCase_congr a a2 ha, toLowerCase_congr b b2 hb]
  have hrefl : ∀ a : String, differOnlyInCase a a := by
    intro a
    unfold differOnlyInCase
    induction a.data with
    | nil => rfl
    | cons c cs ih => simp [sameUpToCaseList, sameUpToCase, ih]
  refine ⟨hsame n n2 q q2 hn hq, ?_⟩
  intro idx limit order
  exact searchLoop_congr idx q q2 limit (fun name => hsame name name q q2 (hrefl name) hq)
    order [] GoMap.empty

theorem containsSubstring_case_insensitive_witness :
    differOnlyInCase "Report-DOC.txt" "rePort-doc.TXT" ∧ differOnlyInCase "REP" "rep" ∧
    containsSubstring "Report-DOC.txt" "REP" = containsSubstring "rePort-doc.TXT" "rep" ∧
    containsSubstring "rePort-doc.TXT" "rep" = true :=
  ⟨by decide, by decide,
    (containsSubstring_case_insensitive "Report-DOC.txt" "rePort-doc.TXT" "REP" "rep"
      (by decide) (by decide)).1, by decide⟩

/-! ## Search on an index with a stale bucket member -/

/-- C13. Evaluation at the failing input: `P` registers `{a.txt, b.txt}`,
registers again with `{a.txt}` and unregisters.  In that reachable state the
search for `b` returns `b.txt` with `PeerIDs = [P]`, but the returned peers
map has no key: the ID listed in the result has no record. -/
theorem search_lists_peer_without_record :
    Reachable danglingIndex ∧
    (SearchByName danglingIndex "b" 0).1 =
      [{ Name := "b.txt", Hash := "", Size := 0, PeerIDs := ["P"] }] ∧
    (SearchByName danglingIndex "b" 0).2.keys = [] ∧
    (SearchByName danglingIndex "b" 0).2.get "P" = none := by
  refine ⟨Reachable.unregister _ _
    (Reachable.register _ _ _ (Reachable.register _ _ _ Reachable.init)),
    by decide, by decide, by decide⟩

/-- C14. Evaluation at the failing input: `P` registers `{a.txt, b.txt}`, `Q`
registers `{a.txt}` and `P` registers again with `{b.txt}`.  In that reachable
state the bucket of `a.txt` is `[P, Q]`, the catalog of `P` has no `a.txt`, and
`Q` is registered with `a.txt` of hash `hash-a` and size 5; the search for `a`
returns `a.txt` with an empty hash and size 0, not the hash and size that `Q`
reports. -/
theorem search_metadata_from_stale_first_peer :
    Reachable staleFirstIndex ∧
    staleFirstIndex.FilesByName.get "a.txt" = some ["P", "Q"] ∧
    staleFirstIndex.Peers.get "P" = some { peerWithB with LastSeen := 70 } ∧
    staleFirstIndex.Peers.get "Q" = some { peerQ with LastSeen := 60 } ∧
    (SearchByName staleFirstIndex "a" 0).1 =
      [{ Name := "a.txt", Hash := "", Size := 0, PeerIDs := ["P", "Q"] }] := by
  refine ⟨Reachable.register _ _ _ (Reachable.register _ _ _
    (Reachable.register _ _ _ Reachable.init)), by decide, by decide, by decide, by decide⟩

/-! ## The record of a download is removed when the call returns -/

theorem KeepsOthers_refl (fileHash : String) (st : LoopState) : KeepsOthers fileHash st st :=
  fun _ _ => rfl

theorem KeepsOthers_trans (fileHash : String) (st st2 st3 : LoopState)
    (h1 : KeepsOthers fileHash st st2) (h2 : KeepsOthers fileHash st2 st3) :
    KeepsOthers fileHash st st3 :=
  fun k hk => (h2 k hk).trans (h1 k hk)

theorem KeepsOthers_log (fileHash : String) (st : LoopState) (e : Effect) :
    KeepsOthers fileHash st (st.log e) :=
  fun _ _ => rfl

theorem KeepsOthers_readChunk (fileHash : String) (contentLength : Int) (st : LoopState)
    (c : Chunk) : KeepsOthers fileHash st (readChunk fileHash contentLength st c).2 := by
  intro k hk
  unfold readChunk
  by_cases hn : c.n > 0
  · simp only [hn, if_true]
    cases hw : c.writeErr with
    | some e => rfl
    | none =>
      by_cases hc : contentLength > 0
      · simp only [hc, if_true, setProgress, GoMap.get_set, hk, if_false]
        rfl
      · simp only [hc, if_false]
        rfl
  · simp only [hn, if_false]
    rfl

theorem KeepsOthers_readLoop (fileHash : String) (contentLength : Int) (last : Chunk)
    (lastErr : Option String) (chunks : List Chunk) (st : LoopState) :
    KeepsOthers fileHash st (readLoop fileHash contentLength last lastErr chunks st).2 := by
  induction chunks generalizing st with
  | nil =>
    have h1 := KeepsOthers_readChunk fileHash contentLength st last
    unfold readLoop
    rcases hr : readChunk fileHash contentLength st last with ⟨_ | e, st1⟩
    · rw [hr] at h1; exact h1
    · rw [hr] at h1; exact h1
  | cons c rest ih =>
    have h1 := KeepsOthers_readChunk fileHash contentLength st c
    unfold readLoop
    rcases hr : readChunk fileHash contentLength st c with ⟨_ | e, st1⟩
    · rw [hr] at h1; exact KeepsOthers_trans _ _ _ _ h1 (ih st1)
    · rw [hr] at h1; exact h1

theorem KeepsOthers_finish (pc : PeerClient) (fileName fileHash : String) (w : Transfer)
    (st : LoopState) : KeepsOthers fileHash st (finish pc fileName w st).2 := by
  intro k hk
  unfold finish
  cases hcp : w.copyErr with
  | some e => rfl
  | none => rfl

theorem KeepsOthers_receive (pc : PeerClient) (fileName fileHash : String) (w : Transfer)
    (st : LoopState) : KeepsOthers fileHash st (receive pc fileName fileHash w st).2 := by
  have h1 : KeepsOthers fileHash st (if w.ContentLength > 0
      then { st with active := setTotal st.active fileHash w.ContentLength } else st) := by
    intro k hk
    by_cases hc : w.ContentLength > 0
    · simp only [hc, if_true, setTotal, GoMap.get_set, hk, if_false]
    · simp only [hc, if_false]
  have h2 := KeepsOthers_trans _ _ _ _ h1
    (KeepsOthers_log fileHash _ (Effect.create pc.DownloadDir fileName))
  unfold receive
  cases hcr : w.createErr with
  | some e => exact h2
  | none =>
    have h3 := KeepsOthers_trans _ _ _ _ h2
      (KeepsOthers_readLoop fileHash w.ContentLength w.last w.lastErr w.chunks _)
    simp only
    rcases hr : readLoop fileHash w.ContentLength w.last w.lastErr w.chunks _ with ⟨_ | e, st1⟩
    · rw [hr] at h3
      exact KeepsOthers_trans _ _ _ _ h3 (KeepsOthers_finish pc fileName fileHash w st1)
    · rw [hr] at h3
      exact h3

theorem KeepsOthers_downloadBody (pc : PeerClient) (fileName fileHash : String) (peer : Peer)
    (w : Transfer) (active : GoMap ActiveDownload) :
    ∀ k, k ≠ fileHash →
      (downloadBody pc fileName fileHash peer w active).2.active.get k = active.get k := by
  have h0 : KeepsOthers fileHash { totalRead := 0, active := active, trace := [] }
      (downloadBody pc fileName fileHash peer w active).2 := by
    unfold downloadBody
    cases hg : w.getErr with
    | some e => exact KeepsOthers_log fileHash _ _
    | none =>
      by_cases hs : w.StatusCode ≠ 200
      · simp only []
        rw [if_pos hs]
        exact KeepsOthers_trans _ _ _ _ (KeepsOthers_log fileHash _ _)
          (KeepsOthers_log fileHash _ Effect.readAll)
      · simp only []
        rw [if_neg hs]
        exact KeepsOthers_trans _ _ _ _ (KeepsOthers_log fileHash _ _)
          (KeepsOthers_receive pc fileName fileHash w _)
  exact h0

/-- C18. Records of `ActiveDownloads` never dangle: when a call of
`DownloadFile` that passed the duplicate check returns, whatever the outcome of
the transfer (request error, non-200 status, create, write or read error,
success, failed copy or re-registration), `ActiveDownloads` has no record for
the digest and the records of all other digests are those present at the call;
`GetDownloadProgress` reports `0, false` for the digest after the call, as it
does before. -/
theorem DownloadFile_record_removed (pc : PeerClient) (fileName fileHash : String)
    (peer : Peer) (w : Transfer) (h : pc.ActiveDownloads.get fileHash = none) :
    (DownloadFile pc fileName fileHash peer w).ActiveDownloads.get fileHash = none ∧
    (∀ k, k ≠ fileHash →
      (DownloadFile pc fileName fileHash peer w).ActiveDownloads.get k =
        pc.ActiveDownloads.get k) ∧
    GetDownloadProgress
      { pc with ActiveDownloads := (DownloadFile pc fileName fileHash peer w).ActiveDownloads }
      fileHash = (0, false) ∧
    GetDownloadProgress pc fileHash = (0, false) := by
  have hAD : (DownloadFile pc fileName fileHash peer w).ActiveDownloads =
      (downloadBody pc fileName fileHash peer w
        (pc.ActiveDownloads.set fileHash { Progress := 0, Total := 100 })).2.active.delete
          fileHash := by
    simp [DownloadFile, h]
  have hgone : (DownloadFile pc fileName fileHash peer w).ActiveDownloads.get fileHash = none := by
    rw [hAD, GoMap.get_delete]
    simp
  refine ⟨hgone, ?_, ?_, ?_⟩
  · intro k hk
    rw [hAD, GoMap.get_delete, if_neg hk, KeepsOthers_downloadBody pc fileName fileHash peer w _ k hk,
      GoMap.get_set, if_neg hk]
  · simp only [GetDownloadProgress, hgone]
  · simp only [GetDownloadProgress, h]

theorem DownloadFile_record_removed_witness :
    otherBusyClient.ActiveDownloads.get "d1" = none ∧
    (DownloadFile otherBusyClient "doc.txt" "d1" peerQ brokenTransfer).err =
      some "connection reset by peer" ∧
    (DownloadFile otherBusyClient "doc.txt" "d1" peerQ brokenTransfer).ActiveDownloads.get "d1" =
      none ∧
    (DownloadFile otherBusyClient "doc.txt" "d1" peerQ brokenTransfer).ActiveDownloads.get "d2" =
      some { Progress := 40, Total := 1000 } :=
  have h := DownloadFile_record_removed otherBusyClient "doc.txt" "d1" peerQ brokenTransfer
    (by decide)
  ⟨by decide, by decide, h.1, (h.2.1 "d2" (by decide)).trans (by decide)⟩

/-! ## The transfer endpoint stays inside the shared directory -/

theorem splitSlash_ne_nil (l : List Char) : splitSlash l ≠ [] := by
  cases l with
  | nil => simp [splitSlash]
  | cons c cs =>
    by_cases hc : c = '/'
    · simp [splitSlash, hc]
    · cases hs : splitSlash cs with
      | nil => simp [splitSlash, hc, hs]
      | cons e es => simp [splitSlash, hc, hs]

theorem splitSlash_append (a b : List Char) :
    splitSlash (a ++ '/' :: b) = splitSlash a ++ splitSlash b := by
  induction a with
  | nil => simp [splitSlash]
  | cons c cs ih =>
    by_cases hc : c = '/'
    · simp [splitSlash, hc, ih]
    · cases hs : splitSlash cs with
      | nil => exact absurd hs (splitSlash_ne_nil cs)
      | cons e es => simp [splitSlash, hc, ih, hs]

theorem splitSlash_head_append (l e : List Char) (es : List (List Char))
    (h : splitSlash l = e :: es) : ∃ rest, l = e ++ rest := by
  induction l generalizing e es with
  | nil =>
    simp only [splitSlash, List.cons.injEq] at h
    exact ⟨[], by simp [← h.1]⟩
  | cons c cs ih =>
    by_cases hc : c = '/'
    · simp only [splitSlash, hc, if_true, List.cons.injEq] at h
      exact ⟨c :: cs, by simp [← h.1]⟩
    · cases hs : splitSlash cs with
      | nil => exact absurd hs (splitSlash_ne_nil cs)
      | cons e2 es2 =>
        simp only [splitSlash, hc, if_false, hs, List.cons.injEq] at h
        obtain ⟨rest, hrest⟩ := ih e2 es2 hs
        exact ⟨rest, by rw [← h.1, hrest]; rfl⟩

theorem containsChars_of_element (l : List Char) (h : ['.', '.'] ∈ splitSlash l) :
    containsChars ['.', '.'] l = true := by
  induction l with
  | nil => simp [splitSlash] at h
  | cons c cs ih =>
    by_cases hc : c = '/'
    · simp only [splitSlash, hc, if_true, List.mem_cons] at h
      rcases h with h | h
      · cases h
      · simp [containsChars, ih h]
    · cases hs : splitSlash cs with
      | nil => exact absurd hs (splitSlash_ne_nil cs)
      | cons e es =>
        simp only [splitSlash, hc, if_false, hs, List.mem_cons, List.cons.injEq] at h
        rcases h with h | h
        · obtain ⟨rest, hrest⟩ := splitSlash_head_append cs e es hs
          rw [hrest, ← h.2, ← h.1]
          simp [containsChars, startsWith]
        · have hmem : ['.', '.'] ∈ splitSlash cs := by rw [hs]; exact List.mem_cons_of_mem _ h
          simp [containsChars, ih hmem]

theorem no_slash_in_element (l e : List Char) (h : e ∈ splitSlash l) : '/' ∉ e := by
  induction l generalizing e with
  | nil =>
    simp only [splitSlash, List.mem_singleton] at h
    simp [h]
  | cons c cs ih =>
    by_cases hc : c = '/'
    · simp only [splitSlash, hc, if_true, List.mem_cons] at h
      rcases h with h | h
      · simp [h]
      · exact ih e h
    · cases hs : splitSlash cs with
      | nil => exact absurd hs (splitSlash_ne_nil cs)
      | cons e2 es =>
        simp only [splitSlash, hc, if_false, hs, List.mem_cons] at h
        rcases h with h | h
        · have h2 : '/' ∉ e2 := ih e2 (by rw [hs]; exact List.mem_cons_self _ _)
          rw [h]
          intro hmem
          rcases List.mem_cons.1 hmem with h3 | h3
          · exact hc h3.symm
          · exact h2 h3
        · exact ih e (by rw [hs]; exact List.mem_cons_of_mem _ h)

theorem elements_append (a b : String) :
    elements (a ++ "/" ++ b) = elements a ++ elements b := by
  have hdata : (a ++ "/" ++ b).data = a.data ++ '/' :: b.data := by
    simp [String.data_append]
  simp [elements, hdata, splitSlash_append]

theorem isRooted_append (a b : String) (ha : a ≠ "") : isRooted (a ++ b) = isRooted a := by
  have hdata : (a ++ b).data = a.data ++ b.data := by simp [String.data_append]
  cases hd : a.data with
  | nil => exact absurd (String.ext hd) ha
  | cons c cs => simp [isRooted, hdata, hd]

theorem foldl_cleanStep_real (rooted : Bool) (es : List String) (stack : List String)
    (h : ∀ e ∈ es, e ≠ "..") :
    es.foldl (cleanStep rooted) stack =
      (es.filter (fun e => decide (e ≠ "" ∧ e ≠ "."))).reverse ++ stack := by
  induction es generalizing stack with
  | nil => simp
  | cons e t ih =>
    have hne : e ≠ ".." := h e (List.mem_cons_self _ _)
    have ht : ∀ x ∈ t, x ≠ ".." := fun x hx => h x (List.mem_cons_of_mem _ hx)
    rw [List.foldl_cons, ih _ ht]
    by_cases hskip : e = "" ∨ e = "."
    · have hf : ¬ (e ≠ "" ∧ e ≠ ".") := by tauto
      simp [cleanStep, hskip, List.filter_cons, hf]
    · have hf : e ≠ "" ∧ e ≠ "." := by tauto
      simp [cleanStep, hskip, hne, List.filter_cons, hf]

theorem Clean_eq_render (path : String) :
    Clean path = render (isRooted path) (cleanElems (isRooted path) (elements path)) := by
  by_cases h : path = ""
  · subst h; decide
  · simp [Clean, h]

theorem Join_inside (root fileName : String) (hroot : root ≠ "")
    (hclean : Contains fileName ".." = false) :
    lexicallyInside root (Join root fileName) := by
  have hno : ∀ e ∈ elements fileName, e ≠ ".." := by
    intro e he hdd
    obtain ⟨cs, hcs, hmk⟩ := List.mem_map.1 he
    have hcs2 : ['.', '.'] ∈ splitSlash fileName.data := by
      have : cs = ['.', '.'] := by
        have := congrArg String.data hmk
        rw [hdd] at this
        simpa using this
      rw [← this]; exact hcs
    have := containsChars_of_element _ hcs2
    simp [Contains] at hclean
    rw [this] at hclean
    cases hclean
  have hjoin : Join root fileName = Clean (root ++ "/" ++ fileName) := by simp [Join, hroot]
  have hrooted : isRooted (root ++ "/" ++ fileName) = isRooted root := by
    rw [String.append_assoc]
    exact isRooted_append root _ hroot
  refine ⟨(elements fileName).filter (fun e => decide (e ≠ "" ∧ e ≠ ".")), ?_, ?_⟩
  · intro e he
    have hmem := List.mem_filter.1 he
    have hreal : e ≠ "" ∧ e ≠ "." := by simpa using hmem.2
    refine ⟨hno e hmem.1, hreal.2, hreal.1, ?_⟩
    obtain ⟨cs, hcs, hmk⟩ := List.mem_map.1 hmem.1
    rw [← hmk]
    exact no_slash_in_element _ cs hcs
  · rw [hjoin, Clean_eq_render, hrooted, elements_append]
    simp only [cleanElems, List.foldl_append]
    rw [foldl_cleanStep_real _ _ _ hno]
    simp

/-- `Clean` on rows of the table of examples that documents `filepath.Clean`. -/
theorem Clean_examples :
    Clean "" = "." ∧ Clean "abc/def/" = "abc/def" ∧ Clean "abc//def//ghi" = "abc/def/ghi" ∧
    Clean "//abc//" = "/abc" ∧ Clean "/./abc/def" = "/abc/def" ∧
    Clean "abc/def/ghi/../jkl" = "abc/def/jkl" ∧ Clean "abc/def/../.." = "." ∧
    Clean "/abc/def/../../.." = "/" ∧ Clean "abc/def/../../.." = ".." ∧
    Clean "abc/def/../../../ghi/jkl/../../../mno" = "../../mno" ∧
    Clean "abc/../../././../def" = "../../def" ∧ Clean "../.." = "../.." := by
  decide

/-- C20, the claim as stated fails: the name `/../x`, which leads out of the
shared directory when it is joined to it as it is (`Join "shared" "/../x"` is
`x`), is not answered with 400.  It is cleaned to `/x` and the handler opens
`shared/x`: the answer is 404 when that file is absent and 200 when it
exists.  With an empty `SharedDir` the name `/etc/passwd` opens
`/etc/passwd`. -/
theorem fileHandler_rooted_dotdot_not_rejected :
    Join "shared" "/../x" = "x" ∧
    Clean "/../x" = "/x" ∧
    fileHandler idleClient "GET" "/../x" noFiles = { status := 404, opened := ["shared/x"] } ∧
    fileHandler idleClient "GET" "/../x" onlySharedX =
      { status := 200, opened := ["shared/x"] } ∧
    fileHandler { idleClient with SharedDir := "" } "GET" "/etc/passwd" noFiles =
      { status := 404, opened := ["/etc/passwd"] } := by
  decide

/-- C20, amended.  For a non-empty `SharedDir` and every value of the `name`
parameter of a GET request, the `/file` handler either answers 400 without
opening any file (the name is empty, or its cleaned form contains `..`), or it
opens exactly the path `Join(SharedDir, Clean(name))`, which is lexically
inside `SharedDir`.  The names `../secret` and `a/../../secret` are answered
with 400. -/
theorem fileHandler_confined (pc : PeerClient) (name : String) (fs : String → OpenResult)
    (hshared : pc.SharedDir ≠ "") :
    (((fileHandler pc "GET" name fs).status = 400 ∧ (fileHandler pc "GET" name fs).opened = [] ∧
        (name = "" ∨ Contains (Clean name) ".." = true)) ∨
      ((fileHandler pc "GET" name fs).status ≠ 400 ∧
        (fileHandler pc "GET" name fs).opened = [Join pc.SharedDir (Clean name)] ∧
        lexicallyInside pc.SharedDir (Join pc.SharedDir (Clean name)))) ∧
    (∀ path ∈ (fileHandler pc "GET" name fs).opened, lexicallyInside pc.SharedDir path) ∧
    fileHandler pc "GET" "../secret" fs = { status := 400, opened := [] } ∧
    fileHandler pc "GET" "a/../../secret" fs = { status := 400, opened := [] } := by
  have hmain : ((fileHandler pc "GET" name fs).status = 400 ∧
        (fileHandler pc "GET" name fs).opened = [] ∧
        (name = "" ∨ Contains (Clean name) ".." = true)) ∨
      ((fileHandler pc "GET" name fs).status ≠ 400 ∧
        (fileHandler pc "GET" name fs).opened = [Join pc.SharedDir (Clean name)] ∧
        lexicallyInside pc.SharedDir (Join pc.SharedDir (Clean name))) := by
    by_cases hname : name = ""
    · left
      simp [fileHandler, hname]
    · by_cases hdd : Contains (Clean name) ".." = true
      · left
        simp [fileHandler, hname, hdd]
      · right
        have hdd2 : Contains (Clean name) ".." = false := by simpa using hdd
        have hin := Join_inside pc.SharedDir (Clean name) hshared hdd2
        cases hfs : fs (Join pc.SharedDir (Clean name)) with
        | openError => simp [fileHandler, hname, hdd2, hfs, hin]
        | statError => simp [fileHandler, hname, hdd2, hfs, hin]
        | ok size => simp [fileHandler, hname, hdd2, hfs, hin]
  refine ⟨hmain, ?_, ?_, ?_⟩
  · intro path hpath
    rcases hmain with h | h
    · rw [h.2.1] at hpath
      cases hpath
    · rw [h.2.1, List.mem_singleton] at hpath
      rw [hpath]
      exact h.2.2
  · have h1 : Contains (Clean "../secret") ".." = true := by decide
    have h2 : ("../secret" : String) ≠ "" := by decide
    simp [fileHandler, h1, h2]
  · have h1 : Contains (Clean "a/../../secret") ".." = true := by decide
    have h2 : ("a/../../secret" : String) ≠ "" := by decide
    simp [fileHandler, h1, h2]

theorem fileHandler_confined_witness :
    idleClient.SharedDir ≠ "" ∧
    (fileHandler idleClient "GET" "docs/./a.txt" onlySharedX).opened = ["shared/docs/a.txt"] ∧
    lexicallyInside idleClient.SharedDir "shared/docs/a.txt" :=
  have h := fileHandler_confined idleClient "docs/./a.txt" onlySharedX (by decide)
  ⟨by decide, by decide, h.2.1 "shared/docs/a.txt" (by decide)⟩

/-! ## The arithmetic of the progress percentage -/

theorem log2Fuel_spec (fuel n : Nat) (hn : 0 < n) (hlt : n < 2 ^ fuel) :
    2 ^ log2Fuel fuel n ≤ n ∧ n < 2 ^ (log2Fuel fuel n + 1) := by
  induction fuel generalizing n with
  | zero => simp at hlt; omega
  | succ f ih =>
    unfold log2Fuel
    by_cases h2 : n < 2
    · have : n = 1 := by omega
      simp [h2, this]
    · simp only [h2, if_false]
      have hpos : 0 < n / 2 := Nat.div_pos (by omega) (by norm_num)
      have hlt2 : n / 2 < 2 ^ f := by
        rw [Nat.div_lt_iff_lt_mul (by norm_num)]
        rw [pow_succ] at hlt
        exact hlt
      obtain ⟨h1, h3⟩ := ih (n / 2) hpos hlt2
      constructor
      · rw [pow_succ]
        have := Nat.div_mul_le_self n 2
        calc 2 ^ log2Fuel f (n / 2) * 2 ≤ n / 2 * 2 := Nat.mul_le_mul_right 2 h1
          _ ≤ n := this
      · rw [pow_succ]
        have := (Nat.div_lt_iff_lt_mul (by norm_num : 0 < 2)).1 h3
        exact this

theorem rhe_cases (n d : Nat) :
    (roundHalfEven n d = n / d ∧ (2 * (n % d) < d ∨ (2 * (n % d) = d ∧ (n / d) % 2 = 0))) ∨
    (roundHalfEven n d = n / d + 1 ∧ (2 * (n % d) > d ∨ (2 * (n % d) = d ∧ (n / d) % 2 ≠ 0))) := by
  unfold roundHalfEven
  by_cases h1 : 2 * (n % d) < d
  · left; simp [h1]
  · by_cases h2 : 2 * (n % d) > d
    · right; simp [h1, h2]
    · have h3 : 2 * (n % d) = d := by omega
      by_cases h4 : (n / d) % 2 = 0
      · left; simp [h1, h2, h4, h3]
      · right; simp [h1, h2, h4, h3]

theorem rhe_mono (n1 d1 n2 d2 : Nat) (hd1 : 0 < d1) (hd2 : 0 < d2)
    (h : n1 * d2 ≤ n2 * d1) : roundHalfEven n1 d1 ≤ roundHalfEven n2 d2 := by
  have e1 := Nat.div_add_mod n1 d1
  have e2 := Nat.div_add_mod n2 d2
  have r1 := Nat.mod_lt n1 hd1
  have r2 := Nat.mod_lt n2 hd2
  -- floor monotone
  have hq : n1 / d1 ≤ n2 / d2 := by
    rw [Nat.le_div_iff_mul_le hd2]
    have h5 : n1 / d1 * d2 * d1 ≤ n2 * d1 := by
      calc n1 / d1 * d2 * d1 = (d1 * (n1 / d1)) * d2 := by ring
        _ ≤ n1 * d2 := Nat.mul_le_mul_right _ (by omega)
        _ ≤ n2 * d1 := h
    exact Nat.le_of_mul_le_mul_right h5 hd1
  rcases rhe_cases n1 d1 with ⟨c1, _⟩ | ⟨c1, k1⟩ <;> rcases rhe_cases n2 d2 with ⟨c2, k2⟩ | ⟨c2, _⟩
  · rw [c1, c2]; exact hq
  · rw [c1, c2]; omega
  · rw [c1, c2]
    by_contra hcon
    have hqeq : n1 / d1 = n2 / d2 := by omega
    -- fractions: r1 * d2 ≤ r2 * d1
    have hr : (n1 % d1) * d2 ≤ (n2 % d2) * d1 := by
      have : (d1 * (n1 / d1) + n1 % d1) * d2 ≤ (d2 * (n2 / d2) + n2 % d2) * d1 := by
        rw [e1, e2]; exact h
      rw [hqeq] at this
      nlinarith
    rcases k1 with k1 | ⟨k1, o1⟩ <;> rcases k2 with k2 | ⟨k2, o2⟩
    · nlinarith
    · nlinarith
    · nlinarith
    · rw [hqeq] at o1; exact o1 o2
  · rw [c1, c2]; omega

theorem rhe_mul (k d : Nat) (hd : 0 < d) : roundHalfEven (k * d) d = k := by
  unfold roundHalfEven
  simp [Nat.mul_div_cancel _ hd, hd]



theorem pow_split (a b c : Nat) (h : a = b + c) : 2 ^ a = 2 ^ b * 2 ^ c := by
  rw [h, pow_add]

theorem roundFloat64_spec (n d : Nat) (hn : 0 < n) (hd : 0 < d) (hnb : n < 2 ^ 256)
    (hdb : d < 2 ^ 256) :
    ∃ i j : Nat, (i = 0 ∨ j = 0) ∧
      roundFloat64 n d = (roundHalfEven (n * 2 ^ j) (d * 2 ^ i) * 2 ^ i, 2 ^ j) ∧
      2 ^ 52 * (d * 2 ^ i) ≤ n * 2 ^ j ∧ n * 2 ^ j < 2 ^ 53 * (d * 2 ^ i) := by
  obtain ⟨hn1, hn2⟩ := log2Fuel_spec 256 n hn hnb
  obtain ⟨hd1, hd2⟩ := log2Fuel_spec 256 d hd hdb
  have hne : n ≠ 0 := by omega
  unfold roundFloat64
  simp only [hne, if_false]
  generalize log2Fuel 256 n = ln at hn1 hn2 ⊢
  generalize log2Fuel 256 d = ld at hd1 hd2 ⊢
  by_cases hge : ln ≥ ld
  · by_cases hb : n ≥ d * 2 ^ (ln - ld)
    · by_cases hA : ln ≥ ld + 52
      · refine ⟨ln - (ld + 52), 0, Or.inr rfl, by simp [hge, hb, hA], ?_, ?_⟩
        · have e := pow_split (ln - ld) 52 (ln - (ld + 52)) (by omega)
          calc 2 ^ 52 * (d * 2 ^ (ln - (ld + 52))) = d * (2 ^ 52 * 2 ^ (ln - (ld + 52))) := by ring
            _ = d * 2 ^ (ln - ld) := by rw [e]
            _ ≤ n := hb
            _ = n * 2 ^ 0 := by simp
        · have e := pow_split (ln + 1) 53 (ld + (ln - (ld + 52))) (by omega)
          calc n * 2 ^ 0 = n := by simp
            _ < 2 ^ (ln + 1) := hn2
            _ = 2 ^ 53 * (2 ^ ld * 2 ^ (ln - (ld + 52))) := by rw [e, pow_add]
            _ ≤ 2 ^ 53 * (d * 2 ^ (ln - (ld + 52))) :=
              Nat.mul_le_mul_left _ (Nat.mul_le_mul_right _ hd1)
      · refine ⟨0, ld + 52 - ln, Or.inl rfl, by simp [hge, hb, hA], ?_, ?_⟩
        · have e := pow_split 52 (ln - ld) (ld + 52 - ln) (by omega)
          calc 2 ^ 52 * (d * 2 ^ 0) = d * (2 ^ (ln - ld) * 2 ^ (ld + 52 - ln)) := by rw [← e]; ring
            _ = d * 2 ^ (ln - ld) * 2 ^ (ld + 52 - ln) := by ring
            _ ≤ n * 2 ^ (ld + 52 - ln) := Nat.mul_le_mul_right _ hb
        · have e := pow_split (ld + 53) (ln + 1) (ld + 52 - ln) (by omega)
          calc n * 2 ^ (ld + 52 - ln) < 2 ^ (ln + 1) * 2 ^ (ld + 52 - ln) :=
                Nat.mul_lt_mul_of_pos_right hn2 (by positivity)
            _ = 2 ^ 53 * 2 ^ ld := by rw [← e, pow_add]; ring
            _ ≤ 2 ^ 53 * (d * 2 ^ 0) := by
                simp only [pow_zero, mul_one]
                exact Nat.mul_le_mul_left _ hd1
    · have hb2 : n < d * 2 ^ (ln - ld) := by omega
      by_cases hA : ln ≥ ld + 53
      · refine ⟨ln - (ld + 53), 0, Or.inr rfl, by simp [hge, hb, hA], ?_, ?_⟩
        · have e := pow_split ln 52 (ld + 1 + (ln - (ld + 53))) (by omega)
          calc 2 ^ 52 * (d * 2 ^ (ln - (ld + 53)))
              ≤ 2 ^ 52 * (2 ^ (ld + 1) * 2 ^ (ln - (ld + 53))) :=
                Nat.mul_le_mul_left _ (Nat.mul_le_mul_right _ (le_of_lt hd2))
            _ = 2 ^ ln := by rw [e, pow_add 2 (ld + 1) (ln - (ld + 53))]
            _ ≤ n := hn1
            _ = n * 2 ^ 0 := by simp
        · have e := pow_split (ln - ld) 53 (ln - (ld + 53)) (by omega)
          calc n * 2 ^ 0 = n := by simp
            _ < d * 2 ^ (ln - ld) := hb2
            _ = 2 ^ 53 * (d * 2 ^ (ln - (ld + 53))) := by rw [e]; ring
      · refine ⟨0, ld + 53 - ln, Or.inl rfl, by simp [hge, hb, hA], ?_, ?_⟩
        · have e := pow_split (ld + 53) ln (ld + 53 - ln) (by omega)
          calc 2 ^ 52 * (d * 2 ^ 0) = 2 ^ 52 * d := by simp
            _ ≤ 2 ^ 52 * 2 ^ (ld + 1) := Nat.mul_le_mul_left _ (le_of_lt hd2)
            _ = 2 ^ ln * 2 ^ (ld + 53 - ln) := by
              rw [← e, pow_split (ld + 53) 52 (ld + 1) (by omega)]
            _ ≤ n * 2 ^ (ld + 53 - ln) := Nat.mul_le_mul_right _ hn1
        · have e := pow_split 53 (ln - ld) (ld + 53 - ln) (by omega)
          calc n * 2 ^ (ld + 53 - ln) < d * 2 ^ (ln - ld) * 2 ^ (ld + 53 - ln) :=
                Nat.mul_lt_mul_of_pos_right hb2 (by positivity)
            _ = 2 ^ 53 * (d * 2 ^ 0) := by rw [e]; ring
  · have hlt : ln < ld := by omega
    by_cases hb : n * 2 ^ (ld - ln) ≥ d
    · have hA : ¬ ln ≥ ld + 52 := by omega
      refine ⟨0, ld + 52 - ln, Or.inl rfl, by simp [hge, hb, hA], ?_, ?_⟩
      · have e := pow_split (ld + 52 - ln) (ld - ln) 52 (by omega)
        calc 2 ^ 52 * (d * 2 ^ 0) = d * 2 ^ 52 := by ring
          _ ≤ n * 2 ^ (ld - ln) * 2 ^ 52 := Nat.mul_le_mul_right _ hb
          _ = n * 2 ^ (ld + 52 - ln) := by rw [e]; ring
      · have e := pow_split (ld + 53) (ln + 1) (ld + 52 - ln) (by omega)
        calc n * 2 ^ (ld + 52 - ln) < 2 ^ (ln + 1) * 2 ^ (ld + 52 - ln) :=
              Nat.mul_lt_mul_of_pos_right hn2 (by positivity)
          _ = 2 ^ 53 * 2 ^ ld := by rw [← e, pow_add]; ring
          _ ≤ 2 ^ 53 * (d * 2 ^ 0) := by
              simp only [pow_zero, mul_one]
              exact Nat.mul_le_mul_left _ hd1
    · have hb2 : n * 2 ^ (ld - ln) < d := by omega
      have hA : ¬ ln ≥ ld + 53 := by omega
      refine ⟨0, ld + 53 - ln, Or.inl rfl, by simp [hge, hb, hA], ?_, ?_⟩
      · have e := pow_split (ld + 53) ln (ld + 53 - ln) (by omega)
        calc 2 ^ 52 * (d * 2 ^ 0) = 2 ^ 52 * d := by simp
          _ ≤ 2 ^ 52 * 2 ^ (ld + 1) := Nat.mul_le_mul_left _ (le_of_lt hd2)
          _ = 2 ^ ln * 2 ^ (ld + 53 - ln) := by
              rw [← e, pow_split (ld + 53) 52 (ld + 1) (by omega)]
          _ ≤ n * 2 ^ (ld + 53 - ln) := Nat.mul_le_mul_right _ hn1
      · have e := pow_split (ld + 53 - ln) (ld - ln) 53 (by omega)
        calc n * 2 ^ (ld + 53 - ln) = n * 2 ^ (ld - ln) * 2 ^ 53 := by rw [e]; ring
          _ < d * 2 ^ 53 := Nat.mul_lt_mul_of_pos_right hb2 (by positivity)
          _ = 2 ^ 53 * (d * 2 ^ 0) := by ring



theorem rhe_bounds (N D : Nat) (hD : 0 < D) (hlo : 2 ^ 52 * D ≤ N) (hhi : N < 2 ^ 53 * D) :
    2 ^ 52 ≤ roundHalfEven N D ∧ roundHalfEven N D ≤ 2 ^ 53 := by
  constructor
  · have h := rhe_mono (2 ^ 52 * D) D N D hD hD (Nat.mul_le_mul_right _ hlo)
    rwa [rhe_mul _ _ hD] at h
  · have h := rhe_mono N D (2 ^ 53 * D) D hD hD (Nat.mul_le_mul_right _ (le_of_lt hhi))
    rwa [rhe_mul _ _ hD] at h

theorem roundFloat64_mono (n1 d1 n2 d2 : Nat) (hn1 : 0 < n1) (hd1 : 0 < d1) (hn2 : 0 < n2)
    (hd2 : 0 < d2) (bn1 : n1 < 2 ^ 256) (bd1 : d1 < 2 ^ 256) (bn2 : n2 < 2 ^ 256)
    (bd2 : d2 < 2 ^ 256) (h : n1 * d2 ≤ n2 * d1) :
    (roundFloat64 n1 d1).1 * (roundFloat64 n2 d2).2 ≤
      (roundFloat64 n2 d2).1 * (roundFloat64 n1 d1).2 := by
  obtain ⟨i1, j1, _, e1, lo1, hi1⟩ := roundFloat64_spec n1 d1 hn1 hd1 bn1 bd1
  obtain ⟨i2, j2, _, e2, lo2, hi2⟩ := roundFloat64_spec n2 d2 hn2 hd2 bn2 bd2
  have hD1 : 0 < d1 * 2 ^ i1 := by positivity
  have hD2 : 0 < d2 * 2 ^ i2 := by positivity
  obtain ⟨mlo1, mhi1⟩ := rhe_bounds _ _ hD1 lo1 hi1
  obtain ⟨mlo2, mhi2⟩ := rhe_bounds _ _ hD2 lo2 hi2
  rw [e1, e2]
  simp only
  have hAB : i1 + j2 < i2 + j1 + 1 := by
    have hlt : 2 ^ 52 * (d1 * d2) * 2 ^ (i1 + j2) < 2 ^ 52 * (d1 * d2) * 2 ^ (i2 + j1 + 1) := by
      calc 2 ^ 52 * (d1 * d2) * 2 ^ (i1 + j2)
          = (2 ^ 52 * (d1 * 2 ^ i1)) * (d2 * 2 ^ j2) := by rw [pow_add]; ring
        _ ≤ (n1 * 2 ^ j1) * (d2 * 2 ^ j2) := Nat.mul_le_mul_right _ lo1
        _ = (n1 * d2) * (2 ^ j1 * 2 ^ j2) := by ring
        _ ≤ (n2 * d1) * (2 ^ j1 * 2 ^ j2) := Nat.mul_le_mul_right _ h
        _ = (n2 * 2 ^ j2) * (d1 * 2 ^ j1) := by ring
        _ < (2 ^ 53 * (d2 * 2 ^ i2)) * (d1 * 2 ^ j1) :=
            Nat.mul_lt_mul_of_pos_right hi2 (by positivity)
        _ = 2 ^ 52 * (d1 * d2) * 2 ^ (i2 + j1 + 1) := by
            rw [pow_add, pow_add, pow_split 53 52 1 (by norm_num)]; ring
    have hpos : 0 < 2 ^ 52 * (d1 * d2) := by positivity
    have := Nat.lt_of_mul_lt_mul_left hlt
    exact (Nat.pow_lt_pow_iff_right (by norm_num)).1 this
  by_cases hAeq : i1 + j2 = i2 + j1
  · have hpow : 2 ^ i1 * 2 ^ j2 = 2 ^ i2 * 2 ^ j1 := by rw [← pow_add, ← pow_add, hAeq]
    have hm : roundHalfEven (n1 * 2 ^ j1) (d1 * 2 ^ i1) ≤
        roundHalfEven (n2 * 2 ^ j2) (d2 * 2 ^ i2) := by
      apply rhe_mono _ _ _ _ hD1 hD2
      calc n1 * 2 ^ j1 * (d2 * 2 ^ i2) = (n1 * d2) * (2 ^ i2 * 2 ^ j1) := by ring
        _ ≤ (n2 * d1) * (2 ^ i2 * 2 ^ j1) := Nat.mul_le_mul_right _ h
        _ = (n2 * d1) * (2 ^ i1 * 2 ^ j2) := by rw [hpow]
        _ = n2 * 2 ^ j2 * (d1 * 2 ^ i1) := by ring
    calc roundHalfEven (n1 * 2 ^ j1) (d1 * 2 ^ i1) * 2 ^ i1 * 2 ^ j2
        = roundHalfEven (n1 * 2 ^ j1) (d1 * 2 ^ i1) * (2 ^ i1 * 2 ^ j2) := by ring
      _ ≤ roundHalfEven (n2 * 2 ^ j2) (d2 * 2 ^ i2) * (2 ^ i1 * 2 ^ j2) :=
          Nat.mul_le_mul_right _ hm
      _ = roundHalfEven (n2 * 2 ^ j2) (d2 * 2 ^ i2) * 2 ^ i2 * 2 ^ j1 := by rw [hpow]; ring
  · have hlt : i1 + j2 + 1 ≤ i2 + j1 := by omega
    have hpow : 2 ^ (i1 + j2 + 1) ≤ 2 ^ (i2 + j1) := Nat.pow_le_pow_right (by norm_num) hlt
    calc roundHalfEven (n1 * 2 ^ j1) (d1 * 2 ^ i1) * 2 ^ i1 * 2 ^ j2
        = roundHalfEven (n1 * 2 ^ j1) (d1 * 2 ^ i1) * 2 ^ (i1 + j2) := by rw [pow_add]; ring
      _ ≤ 2 ^ 53 * 2 ^ (i1 + j2) := Nat.mul_le_mul_right _ mhi1
      _ = 2 ^ 52 * 2 ^ (i1 + j2 + 1) := by
          rw [pow_split 53 52 1 (by norm_num), pow_add _ (i1 + j2) 1]; ring
      _ ≤ 2 ^ 52 * 2 ^ (i2 + j1) := Nat.mul_le_mul_left _ hpow
      _ ≤ roundHalfEven (n2 * 2 ^ j2) (d2 * 2 ^ i2) * 2 ^ (i2 + j1) :=
          Nat.mul_le_mul_right _ mlo2
      _ = roundHalfEven (n2 * 2 ^ j2) (d2 * 2 ^ i2) * 2 ^ i2 * 2 ^ j1 := by rw [pow_add]; ring

theorem roundFloat64_bounds (n d : Nat) (hn : 0 < n) (hd : 0 < d) (bn : n < 2 ^ 256)
    (bd : d < 2 ^ 256) :
    0 < (roundFloat64 n d).1 ∧ 0 < (roundFloat64 n d).2 ∧
    (roundFloat64 n d).1 ≤ 2 * n + 2 ^ 53 ∧ (roundFloat64 n d).2 ≤ 2 ^ 53 * d := by
  obtain ⟨i, j, hij, e, lo, hi⟩ := roundFloat64_spec n d hn hd bn bd
  have hD : 0 < d * 2 ^ i := by positivity
  obtain ⟨mlo, mhi⟩ := rhe_bounds _ _ hD lo hi
  rw [e]
  simp only
  refine ⟨by positivity, by positivity, ?_, ?_⟩
  · rcases hij with hi0 | hj0
    · subst hi0
      simp only [pow_zero, mul_one] at mhi ⊢
      omega
    · subst hj0
      simp only [pow_zero, mul_one] at lo mhi ⊢
      have h1 : roundHalfEven n (d * 2 ^ i) * 2 ^ i ≤ 2 ^ 53 * 2 ^ i :=
        Nat.mul_le_mul_right _ mhi
      have h2 : 2 ^ 53 * 2 ^ i ≤ 2 * (2 ^ 52 * (d * 2 ^ i)) := by
        calc 2 ^ 53 * 2 ^ i = 2 * (2 ^ 52 * (1 * 2 ^ i)) := by
              rw [pow_split 53 52 1 (by norm_num)]; ring
          _ ≤ 2 * (2 ^ 52 * (d * 2 ^ i)) :=
              Nat.mul_le_mul_left _ (Nat.mul_le_mul_left _ (Nat.mul_le_mul_right _ hd))
      omega
  · rcases hij with hi0 | hj0
    · subst hi0
      simp only [pow_zero, mul_one] at hi
      have : 2 ^ j ≤ n * 2 ^ j := Nat.le_mul_of_pos_left _ hn
      omega
    · subst hj0
      simp only [pow_zero]
      have : 1 ≤ 2 ^ 53 * d := Nat.one_le_iff_ne_zero.2 (by positivity)
      exact this



set_option maxRecDepth 20000 in
theorem ref_quotient : roundFloat64 (2 ^ 53 - 1) (2 ^ 53) = (2 ^ 53 - 1, 2 ^ 53) := by decide

set_option maxRecDepth 20000 in
theorem ref_percent :
    roundFloat64 ((2 ^ 53 - 1) * 100) (2 ^ 53) = (7036874417766399, 70368744177664) := by decide



theorem div_le_div_of_cross (a b c d : Nat) (hb : 0 < b) (hd : 0 < d) (h : a * d ≤ c * b) :
    a / b ≤ c / d := by
  rw [Nat.le_div_iff_mul_le hd]
  have h1 : a / b * d * b ≤ c * b := by
    calc a / b * d * b = (a / b * b) * d := by ring
      _ ≤ a * d := Nat.mul_le_mul_right _ (Nat.div_mul_le_self a b)
      _ ≤ c * b := h
  exact Nat.le_of_mul_le_mul_right h1 hb

theorem mul_lt_two_pow_256 (a b : Nat) (ha : a < 2 ^ 128) (hb : b ≤ 2 ^ 128) :
    a * b < 2 ^ 256 := by
  calc a * b ≤ a * 2 ^ 128 := Nat.mul_le_mul_left _ hb
    _ < 2 ^ 128 * 2 ^ 128 := Nat.mul_lt_mul_of_pos_right ha (by positivity)
    _ = 2 ^ 256 := by norm_num

theorem progressPercent_natCast (a L : Nat) :
    progressPercent (a : Int) (L : Int) =
      (((roundFloat64 ((roundFloat64 ((roundFloat64 a 1).1 * (roundFloat64 L 1).2)
            ((roundFloat64 a 1).2 * (roundFloat64 L 1).1)).1 * 100)
          (roundFloat64 ((roundFloat64 a 1).1 * (roundFloat64 L 1).2)
            ((roundFloat64 a 1).2 * (roundFloat64 L 1).1)).2).1 /
        (roundFloat64 ((roundFloat64 ((roundFloat64 a 1).1 * (roundFloat64 L 1).2)
            ((roundFloat64 a 1).2 * (roundFloat64 L 1).1)).1 * 100)
          (roundFloat64 ((roundFloat64 a 1).1 * (roundFloat64 L 1).2)
            ((roundFloat64 a 1).2 * (roundFloat64 L 1).1)).2).2 : Nat) : Int) := by
  simp [progressPercent]

theorem convert_bounds (a : Nat) (ha : 0 < a) (hb : a < 2 ^ 63) :
    0 < (roundFloat64 a 1).1 ∧ 0 < (roundFloat64 a 1).2 ∧
    (roundFloat64 a 1).1 < 2 ^ 65 ∧ (roundFloat64 a 1).2 ≤ 2 ^ 53 := by
  have hb2 : a < 2 ^ 256 := lt_of_lt_of_le hb (Nat.pow_le_pow_right (by norm_num) (by norm_num))
  obtain ⟨h1, h2, h3, h4⟩ := roundFloat64_bounds a 1 ha (by norm_num) hb2 (by norm_num)
  refine ⟨h1, h2, ?_, ?_⟩
  · omega
  · omega

theorem quotient_args (T C : Nat × Nat) (hT1 : 0 < T.1) (hT2 : 0 < T.2) (hT3 : T.1 < 2 ^ 65)
    (hT4 : T.2 ≤ 2 ^ 53) (hC1 : 0 < C.1) (hC2 : 0 < C.2) (hC3 : C.1 < 2 ^ 65)
    (hC4 : C.2 ≤ 2 ^ 53) :
    0 < T.1 * C.2 ∧ 0 < T.2 * C.1 ∧ T.1 * C.2 < 2 ^ 118 ∧ T.2 * C.1 < 2 ^ 118 := by
  refine ⟨by positivity, by positivity, ?_, ?_⟩
  · calc T.1 * C.2 ≤ T.1 * 2 ^ 53 := Nat.mul_le_mul_left _ hC4
      _ < 2 ^ 65 * 2 ^ 53 := Nat.mul_lt_mul_of_pos_right hT3 (by positivity)
      _ = 2 ^ 118 := by norm_num
  · calc T.2 * C.1 ≤ 2 ^ 53 * C.1 := Nat.mul_le_mul_right _ hT4
      _ < 2 ^ 53 * 2 ^ 65 := Nat.mul_lt_mul_of_pos_left hC3 (by positivity)
      _ = 2 ^ 118 := by norm_num

theorem percent_args (n d : Nat) (hn : 0 < n) (hd : 0 < d) (bn : n < 2 ^ 118)
    (bd : d < 2 ^ 118) :
    0 < (roundFloat64 n d).1 * 100 ∧ 0 < (roundFloat64 n d).2 ∧
    (roundFloat64 n d).1 * 100 < 2 ^ 256 ∧ (roundFloat64 n d).2 < 2 ^ 256 := by
  have bn2 : n < 2 ^ 256 := lt_of_lt_of_le bn (Nat.pow_le_pow_right (by norm_num) (by norm_num))
  have bd2 : d < 2 ^ 256 := lt_of_lt_of_le bd (Nat.pow_le_pow_right (by norm_num) (by norm_num))
  obtain ⟨h1, h2, h3, h4⟩ := roundFloat64_bounds n d hn hd bn2 bd2
  refine ⟨by positivity, h2, ?_, ?_⟩
  · have : (roundFloat64 n d).1 < 2 ^ 120 := by omega
    omega
  · have : 2 ^ 53 * d < 2 ^ 53 * 2 ^ 118 := Nat.mul_lt_mul_of_pos_left bd (by positivity)
    have e : (2:Nat) ^ 53 * 2 ^ 118 = 2 ^ 171 := by norm_num
    have e2 : (2:Nat) ^ 171 < 2 ^ 256 := by norm_num
    omega

theorem progressPercent_mono_nat (a1 a2 L : Nat) (h1 : 0 < a1) (h12 : a1 ≤ a2)
    (h2 : a2 < 2 ^ 63) (hL : 0 < L) (hL2 : L < 2 ^ 63) :
    progressPercent (a1 : Int) (L : Int) ≤ progressPercent (a2 : Int) (L : Int) := by
  rw [progressPercent_natCast, progressPercent_natCast]
  have b256 : ∀ x : Nat, x < 2 ^ 63 → x < 2 ^ 256 := fun x hx =>
    lt_of_lt_of_le hx (Nat.pow_le_pow_right (by norm_num) (by norm_num))
  have b118 : ∀ x : Nat, x < 2 ^ 118 → x < 2 ^ 256 := fun x hx =>
    lt_of_lt_of_le hx (Nat.pow_le_pow_right (by norm_num) (by norm_num))
  obtain ⟨t1a, t1b, t1c, t1d⟩ := convert_bounds a1 h1 (by omega)
  obtain ⟨t2a, t2b, t2c, t2d⟩ := convert_bounds a2 (by omega) h2
  obtain ⟨ca, cb, cc, cd⟩ := convert_bounds L hL hL2
  have hT := roundFloat64_mono a1 1 a2 1 h1 (by norm_num) (by omega) (by norm_num)
    (b256 a1 (by omega)) (by norm_num) (b256 a2 h2) (by norm_num) (by omega)
  generalize roundFloat64 a1 1 = T1 at *
  generalize roundFloat64 a2 1 = T2 at *
  generalize roundFloat64 L 1 = C at *
  obtain ⟨q1a, q1b, q1c, q1d⟩ := quotient_args T1 C t1a t1b t1c t1d ca cb cc cd
  obtain ⟨q2a, q2b, q2c, q2d⟩ := quotient_args T2 C t2a t2b t2c t2d ca cb cc cd
  have hcross : T1.1 * C.2 * (T2.2 * C.1) ≤ T2.1 * C.2 * (T1.2 * C.1) := by
    calc T1.1 * C.2 * (T2.2 * C.1) = (T1.1 * T2.2) * (C.1 * C.2) := by ring
      _ ≤ (T2.1 * T1.2) * (C.1 * C.2) := Nat.mul_le_mul_right _ hT
      _ = T2.1 * C.2 * (T1.2 * C.1) := by ring
  have hQ := roundFloat64_mono _ _ _ _ q1a q1b q2a q2b (b118 _ q1c) (b118 _ q1d) (b118 _ q2c)
    (b118 _ q2d) hcross
  obtain ⟨p1a, p1b, p1c, p1d⟩ := percent_args _ _ q1a q1b q1c q1d
  obtain ⟨p2a, p2b, p2c, p2d⟩ := percent_args _ _ q2a q2b q2c q2d
  generalize roundFloat64 (T1.1 * C.2) (T1.2 * C.1) = Q1 at *
  generalize roundFloat64 (T2.1 * C.2) (T2.2 * C.1) = Q2 at *
  have hcross2 : Q1.1 * 100 * Q2.2 ≤ Q2.1 * 100 * Q1.2 := by
    calc Q1.1 * 100 * Q2.2 = (Q1.1 * Q2.2) * 100 := by ring
      _ ≤ (Q2.1 * Q1.2) * 100 := Nat.mul_le_mul_right _ hQ
      _ = Q2.1 * 100 * Q1.2 := by ring
  have hP := roundFloat64_mono _ _ _ _ p1a p1b p2a p2b p1c p1d p2c p2d hcross2
  obtain ⟨r1a, r1b, _, _⟩ := roundFloat64_bounds _ _ p1a p1b p1c p1d
  obtain ⟨r2a, r2b, _, _⟩ := roundFloat64_bounds _ _ p2a p2b p2c p2d
  exact Int.ofNat_le.2 (div_le_div_of_cross _ _ _ _ r1b r2b hP)



theorem convert_exact (a : Nat) (ha : 0 < a) (hb : a ≤ 2 ^ 53) :
    (roundFloat64 a 1).1 = a * (roundFloat64 a 1).2 := by
  have hb2 : a < 2 ^ 256 :=
    lt_of_le_of_lt hb (Nat.pow_lt_pow_right (by norm_num) (by norm_num))
  obtain ⟨i, j, hij, e, lo, hi⟩ := roundFloat64_spec a 1 ha (by norm_num) hb2 (by norm_num)
  rw [e]
  simp only
  have hi01 : i = 0 ∨ (i = 1 ∧ j = 0 ∧ a = 2 ^ 53) := by
    rcases hij with h | h
    · exact Or.inl h
    · subst h
      simp only [pow_zero, mul_one, one_mul] at lo
      have h2 : 2 ^ 52 * 2 ^ i ≤ 2 ^ 52 * 2 ^ 1 := by
        calc 2 ^ 52 * 2 ^ i ≤ a := lo
          _ ≤ 2 ^ 53 := hb
          _ = 2 ^ 52 * 2 ^ 1 := by norm_num
      have h3 : 2 ^ i ≤ 2 ^ 1 := Nat.le_of_mul_le_mul_left h2 (by positivity)
      have h4 : i ≤ 1 := (Nat.pow_le_pow_iff_right (by norm_num)).1 h3
      rcases Nat.le_one_iff_eq_zero_or_eq_one.1 h4 with h5 | h5
      · exact Or.inl h5
      · subst h5
        refine Or.inr ⟨rfl, rfl, ?_⟩
        have : 2 ^ 52 * 2 ^ 1 = 2 ^ 53 := by norm_num
        omega
  rcases hi01 with h | ⟨h1, h2, h3⟩
  · subst h
    simp only [pow_zero, mul_one]
    have := rhe_mul (a * 2 ^ j) 1 (by norm_num)
    simp only [mul_one] at this
    exact this
  · subst h1 h2 h3
    have := rhe_mul (2 ^ 52) (2 ^ 1) (by norm_num)
    have e2 : (2:Nat) ^ 52 * 2 ^ 1 = 2 ^ 53 * 2 ^ 0 := by norm_num
    have e3 : (1:Nat) * 2 ^ 1 = 2 ^ 1 := by norm_num
    rw [← e2, e3, this]

theorem progressPercent_lt_100 (a L : Nat) (ha : 0 < a) (haL : a < L) (hL : L ≤ 2 ^ 53) :
    progressPercent (a : Int) (L : Int) ≤ 99 := by
  rw [progressPercent_natCast]
  have hL0 : 0 < L := by omega
  have e63 : (2:Nat) ^ 53 < 2 ^ 63 := by norm_num
  obtain ⟨ta, tb, tc, td⟩ := convert_bounds a ha (by omega)
  obtain ⟨ca, cb, cc, cd⟩ := convert_bounds L hL0 (by omega)
  have hTe := convert_exact a ha (by omega)
  have hCe := convert_exact L hL0 hL
  generalize roundFloat64 a 1 = T at *
  generalize roundFloat64 L 1 = C at *
  obtain ⟨qa, qb, qc, qd⟩ := quotient_args T C ta tb tc td ca cb cc cd
  have b118 : ∀ x : Nat, x < 2 ^ 118 → x < 2 ^ 256 := fun x hx =>
    lt_of_lt_of_le hx (Nat.pow_le_pow_right (by norm_num) (by norm_num))
  have hratio : a * 2 ^ 53 ≤ (2 ^ 53 - 1) * L := by
    have h1 : a + 1 ≤ L := haL
    have h2 : (a + 1) * 2 ^ 53 ≤ L * 2 ^ 53 := Nat.mul_le_mul_right _ h1
    have h3 : (2 ^ 53 - 1) * L = L * 2 ^ 53 - L := by
      rw [Nat.sub_mul, one_mul, mul_comm]
    rw [h3]
    have h4 : (a + 1) * 2 ^ 53 = a * 2 ^ 53 + 2 ^ 53 := by ring
    omega
  have hcross : T.1 * C.2 * 2 ^ 53 ≤ (2 ^ 53 - 1) * (T.2 * C.1) := by
    rw [hTe, hCe]
    calc a * T.2 * C.2 * 2 ^ 53 = (a * 2 ^ 53) * (T.2 * C.2) := by ring
      _ ≤ ((2 ^ 53 - 1) * L) * (T.2 * C.2) := Nat.mul_le_mul_right _ hratio
      _ = (2 ^ 53 - 1) * (T.2 * (L * C.2)) := by ring
  have hQ := roundFloat64_mono (T.1 * C.2) (T.2 * C.1) (2 ^ 53 - 1) (2 ^ 53) qa qb (by norm_num)
    (by norm_num) (b118 _ qc) (b118 _ qd) (by norm_num) (by norm_num) hcross
  rw [ref_quotient] at hQ
  simp only at hQ
  obtain ⟨pa, pb, pc, pd⟩ := percent_args _ _ qa qb qc qd
  generalize roundFloat64 (T.1 * C.2) (T.2 * C.1) = Q at *
  have hcross2 : Q.1 * 100 * 2 ^ 53 ≤ (2 ^ 53 - 1) * 100 * Q.2 := by
    calc Q.1 * 100 * 2 ^ 53 = (Q.1 * 2 ^ 53) * 100 := by ring
      _ ≤ ((2 ^ 53 - 1) * Q.2) * 100 := Nat.mul_le_mul_right _ hQ
      _ = (2 ^ 53 - 1) * 100 * Q.2 := by ring
  have hP := roundFloat64_mono (Q.1 * 100) Q.2 ((2 ^ 53 - 1) * 100) (2 ^ 53) pa pb (by norm_num)
    (by norm_num) pc pd (by norm_num) (by norm_num) hcross2
  rw [ref_percent] at hP
  simp only at hP
  obtain ⟨ra, rb, _, _⟩ := roundFloat64_bounds _ _ pa pb pc pd
  have hdiv := div_le_div_of_cross _ _ _ _ rb (by norm_num : 0 < 70368744177664) hP
  have h99 : 7036874417766399 / 70368744177664 = 99 := by norm_num
  rw [h99] at hdiv
  exact_mod_cast hdiv

theorem progressPercent_zero (L : Int) : progressPercent 0 L = 0 := by
  simp [progressPercent, roundFloat64]

theorem progressPercent_nonneg (t L : Int) : 0 ≤ progressPercent t L := by
  unfold progressPercent
  exact Int.ofNat_nonneg _

/-! ## The progress on record during a transfer -/

theorem bytesWritten_append (a b : List Step) :
    bytesWritten (a ++ b) = bytesWritten a + bytesWritten b := by
  induction a with
  | nil => simp [bytesWritten]
  | cons s t ih =>
    show bytesWritten (s :: (t ++ b)) = bytesWritten (s :: t) + bytesWritten b
    simp only [bytesWritten, ih, add_assoc]

theorem bytesWritten_nonneg (a : List Step) : 0 ≤ bytesWritten a := by
  induction a with
  | nil => simp [bytesWritten]
  | cons s t ih =>
    simp only [bytesWritten]
    cases s.effect <;> simp <;> omega

theorem Tracks_concat (fileHash : String) (total : Int) (trace : List Step) (s : Step)
    (h : Tracks fileHash total trace)
    (hs : progressAt fileHash s = progressPercent (bytesWritten trace) total) :
    Tracks fileHash total (trace ++ [s]) := by
  intro pre s2 post hdec
  rcases List.eq_nil_or_concat post with hp | ⟨post2, x, hp⟩
  · subst hp
    have := List.append_inj' hdec rfl
    rw [← this.1]
    have hs2 : s = s2 := by simpa using this.2
    rw [← hs2]; exact hs
  · subst hp
    have hdec2 : trace ++ [s] = (pre ++ s2 :: post2) ++ [x] := by simpa using hdec
    have := List.append_inj' hdec2 rfl
    exact h pre s2 post2 this.1

theorem Synced_progressAt (fileHash : String) (total : Int) (st : LoopState) (e : Effect)
    (h : Synced fileHash total st) :
    progressAt fileHash { effect := e, visible := st.active } =
      progressPercent (bytesWritten st.trace) total := by
  obtain ⟨_, htot, d, hd, hp⟩ := h
  simp only [progressAt, hd, hp, htot]

theorem Tracks_log (fileHash : String) (total : Int) (st : LoopState) (e : Effect)
    (h : Synced fileHash total st) : Tracks fileHash total (st.log e).trace :=
  Tracks_concat fileHash total st.trace _ h.1 (Synced_progressAt fileHash total st e h)

theorem Synced_log (fileHash : String) (total : Int) (st : LoopState) (e : Effect)
    (h : Synced fileHash total st) (he : ∀ n, e ≠ Effect.write n) :
    Synced fileHash total (st.log e) := by
  refine ⟨Tracks_log fileHash total st e h, ?_, h.2.2⟩
  have hz : bytesWritten [{ effect := e, visible := st.active }] = 0 := by
    cases e <;> simp [bytesWritten]
    case write n => exact absurd rfl (he n)
  simp only [LoopState.log, bytesWritten_append, hz, add_zero]
  exact h.2.1

theorem Synced_readChunk (fileHash : String) (total : Int) (htotal : total > 0)
    (st : LoopState) (c : Chunk) (h : Synced fileHash total st) :
    Tracks fileHash total (readChunk fileHash total st c).2.trace ∧
    ((readChunk fileHash total st c).1 = none →
      Synced fileHash total (readChunk fileHash total st c).2) ∧
    bytesWritten (readChunk fileHash total st c).2.trace ≤ bytesWritten st.trace + c.n := by
  have h1 := Synced_log fileHash total st Effect.read h (fun n hn => by cases hn)
  have hb1 : bytesWritten (st.log Effect.read).trace = bytesWritten st.trace := by
    rw [← h1.2.1, ← h.2.1]; rfl
  have hb2 : bytesWritten ((st.log Effect.read).log (Effect.write c.n)).trace =
      bytesWritten st.trace + c.n := by
    have : ((st.log Effect.read).log (Effect.write c.n)).trace =
        (st.log Effect.read).trace ++
          [{ effect := Effect.write c.n, visible := (st.log Effect.read).active }] := rfl
    rw [this, bytesWritten_append, hb1]
    simp [bytesWritten]
  have h2 := Tracks_log fileHash total _ (Effect.write c.n) h1
  by_cases hn : c.n > 0
  · cases hw : c.writeErr with
    | some e =>
      have hr : readChunk fileHash total st c =
          (some e, (st.log Effect.read).log (Effect.write c.n)) := by
        simp [readChunk, hn, hw]
      rw [hr]
      refine ⟨h2, ?_, le_of_eq hb2⟩
      intro hnone
      simp at hnone
    | none =>
      have hr : readChunk fileHash total st c =
          (none, { (st.log Effect.read).log (Effect.write c.n) with
            totalRead := ((st.log Effect.read).log (Effect.write c.n)).totalRead + c.n
            active := setProgress ((st.log Effect.read).log (Effect.write c.n)).active fileHash
              (progressPercent
                (((st.log Effect.read).log (Effect.write c.n)).totalRead + c.n) total) }) := by
        simp [readChunk, hn, hw, htotal]
      rw [hr]
      refine ⟨h2, fun _ => ⟨h2, ?_, ?_⟩, le_of_eq hb2⟩
      · show (st.log Effect.read).totalRead + (c.n : Int) = _
        rw [hb2, ← h.2.1]; rfl
      · have hget : ∀ (A : GoMap ActiveDownload) (P : Int),
            (setProgress A fileHash P).get fileHash =
              some { (A.get fileHash).getD { Progress := 0, Total := 0 } with Progress := P } := by
          intro A P
          simp [setProgress, GoMap.get_set]
        exact ⟨_, hget _ _, rfl⟩
  · have hr : readChunk fileHash total st c = (none, st.log Effect.read) := by
      simp [readChunk, hn]
    rw [hr]
    refine ⟨h1.1, fun _ => h1, ?_⟩
    show bytesWritten (st.log Effect.read).trace ≤ _
    rw [hb1]
    have : (0 : Int) ≤ c.n := Int.ofNat_nonneg _
    omega

theorem Synced_readLoop (fileHash : String) (total : Int) (htotal : total > 0) (last : Chunk)
    (lastErr : Option String) (chunks : List Chunk) (st : LoopState)
    (h : Synced fileHash total st) :
    Tracks fileHash total (readLoop fileHash total last lastErr chunks st).2.trace ∧
    ((readLoop fileHash total last lastErr chunks st).1 = none →
      Synced fileHash total (readLoop fileHash total last lastErr chunks st).2) ∧
    bytesWritten (readLoop fileHash total last lastErr chunks st).2.trace ≤
      bytesWritten st.trace + chunkBytes (chunks ++ [last]) := by
  induction chunks generalizing st with
  | nil =>
    obtain ⟨h1, h2, h3⟩ := Synced_readChunk fileHash total htotal st last h
    have hsum : chunkBytes ([] ++ [last]) = last.n := by simp [chunkBytes]
    rw [hsum]
    rcases hr : readChunk fileHash total st last with ⟨_ | e, st1⟩
    · have hl : readLoop fileHash total last lastErr [] st = (lastErr, st1) := by
        simp [readLoop, hr]
      rw [hr] at h1 h2 h3
      rw [hl]
      exact ⟨h1, fun _ => h2 rfl, h3⟩
    · have hl : readLoop fileHash total last lastErr [] st = (some e, st1) := by
        simp [readLoop, hr]
      rw [hr] at h1 h2 h3
      rw [hl]
      refine ⟨h1, ?_, h3⟩
      intro hnone
      simp at hnone
  | cons c rest ih =>
    obtain ⟨h1, h2, h3⟩ := Synced_readChunk fileHash total htotal st c h
    have hsum : chunkBytes (c :: rest ++ [last]) = c.n + chunkBytes (rest ++ [last]) := by
      simp [chunkBytes]
    rw [hsum]
    rcases hr : readChunk fileHash total st c with ⟨_ | e, st1⟩
    · have hl : readLoop fileHash total last lastErr (c :: rest) st =
          readLoop fileHash total last lastErr rest st1 := by
        simp [readLoop, hr]
      rw [hr] at h1 h2 h3
      rw [hl]
      obtain ⟨k1, k2, k3⟩ := ih st1 (h2 rfl)
      refine ⟨k1, k2, ?_⟩
      simp only at h3
      omega
    · have hl : readLoop fileHash total last lastErr (c :: rest) st = (some e, st1) := by
        simp [readLoop, hr]
      rw [hr] at h1 h2 h3
      rw [hl]
      have hpos : 0 ≤ chunkBytes (rest ++ [last]) := by
        unfold chunkBytes
        apply List.sum_nonneg
        intro x hx
        obtain ⟨y, _, hy⟩ := List.mem_map.1 hx
        rw [← hy]; exact Int.ofNat_nonneg _
      refine ⟨h1, ?_, ?_⟩
      · intro hnone
        simp at hnone
      · simp only at h3 ⊢
        omega

theorem Synced_finish (pc : PeerClient) (fileName fileHash : String) (total : Int) (w : Transfer)
    (st : LoopState) (h : Synced fileHash total st) :
    Tracks fileHash total (finish pc fileName w st).2.trace ∧
    bytesWritten (finish pc fileName w st).2.trace = bytesWritten st.trace := by
  have h1 := Synced_log fileHash total st (Effect.copyFile pc.DownloadDir pc.SharedDir fileName) h
    (fun n hn => by cases hn)
  have h2 := Synced_log fileHash total _ Effect.scan h1 (fun n hn => by cases hn)
  have h3 := Synced_log fileHash total _ Effect.register h2 (fun n hn => by cases hn)
  cases hcp : w.copyErr with
  | some e =>
    have hf : finish pc fileName w st =
        (none, st.log (Effect.copyFile pc.DownloadDir pc.SharedDir fileName)) := by
      simp [finish, hcp]
    rw [hf]
    exact ⟨h1.1, by rw [← h1.2.1, ← h.2.1]; rfl⟩
  | none =>
    have hf : finish pc fileName w st =
        (none, ((st.log (Effect.copyFile pc.DownloadDir pc.SharedDir fileName)).log
          Effect.scan).log Effect.register) := by
      simp [finish, hcp]
    rw [hf]
    exact ⟨h3.1, by rw [← h3.2.1, ← h.2.1]; rfl⟩

theorem Synced_receive (pc : PeerClient) (fileName fileHash : String) (w : Transfer)
    (hlen : w.ContentLength > 0) (st : LoopState) (h : Synced fileHash w.ContentLength st) :
    Tracks fileHash w.ContentLength (receive pc fileName fileHash w st).2.trace ∧
    bytesWritten (receive pc fileName fileHash w st).2.trace ≤
      bytesWritten st.trace + chunkBytes (w.chunks ++ [w.last]) := by
  have hpos : 0 ≤ chunkBytes (w.chunks ++ [w.last]) := by
    unfold chunkBytes
    apply List.sum_nonneg
    intro x hx
    obtain ⟨y, _, hy⟩ := List.mem_map.1 hx
    rw [← hy]; exact Int.ofNat_nonneg _
  have h1 : Synced fileHash w.ContentLength
      { st with active := setTotal st.active fileHash w.ContentLength } := by
    obtain ⟨ht, htot, d, hd, hp⟩ := h
    refine ⟨ht, htot, { d with Total := w.ContentLength }, ?_, hp⟩
    simp [setTotal, GoMap.get_set, hd]
  have h2 := Synced_log fileHash w.ContentLength _ (Effect.create pc.DownloadDir fileName) h1
    (fun n hn => by cases hn)
  have hb2 : bytesWritten (LoopState.log
      { st with active := setTotal st.active fileHash w.ContentLength }
      (Effect.create pc.DownloadDir fileName)).trace = bytesWritten st.trace := by
    rw [← h2.2.1, ← h.2.1]; rfl
  cases hcr : w.createErr with
  | some e =>
    have hr : receive pc fileName fileHash w st =
        (some e, LoopState.log { st with active := setTotal st.active fileHash w.ContentLength }
          (Effect.create pc.DownloadDir fileName)) := by
      simp [receive, hlen, hcr]
    rw [hr]
    refine ⟨h2.1, ?_⟩
    simp only [hb2]
    omega
  | none =>
    obtain ⟨k1, k2, k3⟩ := Synced_readLoop fileHash w.ContentLength hlen w.last w.lastErr
      w.chunks _ h2
    rw [hb2] at k3
    rcases hl : readLoop fileHash w.ContentLength w.last w.lastErr w.chunks
        (LoopState.log { st with active := setTotal st.active fileHash w.ContentLength }
          (Effect.create pc.DownloadDir fileName)) with ⟨_ | e, st3⟩
    · have hr : receive pc fileName fileHash w st = finish pc fileName w st3 := by
        simp [receive, hlen, hcr, hl]
      rw [hl] at k1 k2 k3
      obtain ⟨f1, f2⟩ := Synced_finish pc fileName fileHash w.ContentLength w st3 (k2 rfl)
      rw [hr]
      refine ⟨f1, ?_⟩
      rw [f2]
      exact k3
    · have hr : receive pc fileName fileHash w st = (some e, st3) := by
        simp [receive, hlen, hcr, hl]
      rw [hl] at k1 k3
      rw [hr]
      exact ⟨k1, k3⟩

theorem Tracks_downloadBody (pc : PeerClient) (fileName fileHash : String) (peer : Peer)
    (w : Transfer) (hlen : w.ContentLength > 0) (active : GoMap ActiveDownload) (total : Int)
    (hact : active.get fileHash = some { Progress := 0, Total := total }) :
    Tracks fileHash w.ContentLength (downloadBody pc fileName fileHash peer w active).2.trace ∧
    bytesWritten (downloadBody pc fileName fileHash peer w active).2.trace ≤
      chunkBytes (w.chunks ++ [w.last]) := by
  have hpos : 0 ≤ chunkBytes (w.chunks ++ [w.last]) := by
    unfold chunkBytes
    apply List.sum_nonneg
    intro x hx
    obtain ⟨y, _, hy⟩ := List.mem_map.1 hx
    rw [← hy]; exact Int.ofNat_nonneg _
  have h0 : Synced fileHash w.ContentLength { totalRead := 0, active := active, trace := [] } := by
    refine ⟨?_, rfl, _, hact, (progressPercent_zero _).symm⟩
    intro pre s post hdec
    simp at hdec
  have h1 := Synced_log fileHash w.ContentLength _
    (Effect.httpGet ("http://" ++ peer.Address ++ ":" ++ toString peer.Port ++ "/file?name=" ++
      fileName)) h0 (fun n hn => by cases hn)
  have hb1 : bytesWritten (LoopState.log { totalRead := 0, active := active, trace := [] }
      (Effect.httpGet ("http://" ++ peer.Address ++ ":" ++ toString peer.Port ++ "/file?name=" ++
        fileName))).trace = 0 := by
    rw [← h1.2.1]; rfl
  cases hg : w.getErr with
  | some e =>
    have hr : downloadBody pc fileName fileHash peer w active =
        (some e, LoopState.log { totalRead := 0, active := active, trace := [] }
          (Effect.httpGet ("http://" ++ peer.Address ++ ":" ++ toString peer.Port ++
            "/file?name=" ++ fileName))) := by
      simp [downloadBody, hg]
    rw [hr]
    refine ⟨h1.1, ?_⟩
    simp only [hb1]
    exact hpos
  | none =>
    by_cases hs : w.StatusCode ≠ 200
    · have h2 := Synced_log fileHash w.ContentLength _ Effect.readAll h1
        (fun n hn => by cases hn)
      have hr : downloadBody pc fileName fileHash peer w active =
          (some ("download failed: " ++ w.errorBody),
            (LoopState.log { totalRead := 0, active := active, trace := [] }
              (Effect.httpGet ("http://" ++ peer.Address ++ ":" ++ toString peer.Port ++
                "/file?name=" ++ fileName))).log Effect.readAll) := by
        simp only [downloadBody, hg]
        rw [if_pos hs]
      rw [hr]
      refine ⟨h2.1, ?_⟩
      have : bytesWritten ((LoopState.log { totalRead := 0, active := active, trace := [] }
          (Effect.httpGet ("http://" ++ peer.Address ++ ":" ++ toString peer.Port ++
            "/file?name=" ++ fileName))).log Effect.readAll).trace = 0 := by
        rw [← h2.2.1]; rfl
      simp only [this]
      exact hpos
    · have hr : downloadBody pc fileName fileHash peer w active =
          receive pc fileName fileHash w
            (LoopState.log { totalRead := 0, active := active, trace := [] }
              (Effect.httpGet ("http://" ++ peer.Address ++ ":" ++ toString peer.Port ++
                "/file?name=" ++ fileName))) := by
        simp only [downloadBody, hg]
        rw [if_neg hs]
      rw [hr]
      obtain ⟨r1, r2⟩ := Synced_receive pc fileName fileHash w hlen _ h1
      refine ⟨r1, ?_⟩
      rw [hb1] at r2
      omega

theorem progressPercent_mono (t1 t2 total : Int) (h0 : 0 ≤ t1) (h12 : t1 ≤ t2)
    (h2 : t2 < 2 ^ 63) (hL : 0 < total) (hL2 : total < 2 ^ 63) :
    progressPercent t1 total ≤ progressPercent t2 total := by
  by_cases hz : t1 = 0
  · rw [hz, progressPercent_zero]
    exact progressPercent_nonneg _ _
  · obtain ⟨a1, rfl⟩ := Int.eq_ofNat_of_zero_le h0
    obtain ⟨a2, rfl⟩ := Int.eq_ofNat_of_zero_le (le_trans h0 h12)
    obtain ⟨L, rfl⟩ := Int.eq_ofNat_of_zero_le (le_of_lt hL)
    have e63 : ((2 : Int) ^ 63) = ((2 ^ 63 : Nat) : Int) := by norm_num
    rw [e63] at h2 hL2
    exact progressPercent_mono_nat a1 a2 L (by omega) (by exact_mod_cast h12)
      (by exact_mod_cast h2) (by exact_mod_cast hL) (by exact_mod_cast hL2)

theorem progressPercent_eq_100 (t total : Int) (h0 : 0 ≤ t) (ht : t ≤ total)
    (hL : total ≤ 2 ^ 53) (h100 : progressPercent t total = 100) : t = total := by
  by_contra hne
  have hlt : t < total := lt_of_le_of_ne ht hne
  by_cases hz : t = 0
  · rw [hz, progressPercent_zero] at h100
    norm_num at h100
  · obtain ⟨a, rfl⟩ := Int.eq_ofNat_of_zero_le h0
    obtain ⟨L, rfl⟩ := Int.eq_ofNat_of_zero_le (le_trans h0 ht)
    have e53 : ((2 : Int) ^ 53) = ((2 ^ 53 : Nat) : Int) := by norm_num
    rw [e53] at hL
    have := progressPercent_lt_100 a L (by omega) (by exact_mod_cast hlt) (by exact_mod_cast hL)
    rw [h100] at this
    norm_num at this

set_option maxRecDepth 20000 in
/-- C19, the claim as stated fails.  In the download of 100 bytes that arrive
as 29 and 71 bytes, the progress on record after the first chunk (29 bytes
written) is 28, while the truncated percentage `29 * 100 / 100` is 29: the
code computes `int(float64(29) / float64(100) * 100)` in floating point.  And
for a total of `2 ^ 53 + 4` bytes the value 100 is computed already from
`2 ^ 53 + 3` bytes. -/
theorem progress_below_truncated_percentage :
    bytesWritten ((DownloadFile idleClient "doc.txt" "d1" peerQ transfer29).trace.take 4) = 29 ∧
    ((DownloadFile idleClient "doc.txt" "d1" peerQ transfer29).trace[4]?).map
      (progressAt "d1") = some 28 ∧
    (29 * 100 / 100 : Int) = 29 ∧
    progressPercent (2 ^ 53 + 3) (2 ^ 53 + 4) = 100 := by
  decide

/-- C19, amended.  For a download that passed the duplicate check, with a known
total size `L` (`0 < L < 2 ^ 63`) and chunks whose sizes add up to at most `L`:
during every action of the transfer the progress on record is
`int(float64(bytes) / float64(L) * 100)` for the bytes written so far (the
value stored after the last chunk written); the progress on record never
decreases from one action to a later one; and when `L <= 2 ^ 53`, the value 100
is on record only once the bytes written equal `L`. -/
theorem progress_monotone (pc : PeerClient) (fileName fileHash : String) (peer : Peer)
    (w : Transfer) (hstart : pc.ActiveDownloads.get fileHash = none)
    (hlen : 0 < w.ContentLength) (hmax : w.ContentLength < 2 ^ 63)
    (hsum : chunkBytes (w.chunks ++ [w.last]) ≤ w.ContentLength) :
    (∀ pre s post, (DownloadFile pc fileName fileHash peer w).trace = pre ++ s :: post →
      progressAt fileHash s = progressPercent (bytesWritten pre) w.ContentLength ∧
      0 ≤ bytesWritten pre ∧ bytesWritten pre ≤ w.ContentLength) ∧
    (∀ pre s mid s2 post,
      (DownloadFile pc fileName fileHash peer w).trace = pre ++ s :: (mid ++ s2 :: post) →
      progressAt fileHash s ≤ progressAt fileHash s2) ∧
    (w.ContentLength ≤ 2 ^ 53 →
      ∀ pre s post, (DownloadFile pc fileName fileHash peer w).trace = pre ++ s :: post →
        progressAt fileHash s = 100 → bytesWritten pre = w.ContentLength) := by
  have htr : (DownloadFile pc fileName fileHash peer w).trace =
      (downloadBody pc fileName fileHash peer w
        (pc.ActiveDownloads.set fileHash { Progress := 0, Total := 100 })).2.trace := by
    simp [DownloadFile, hstart]
  obtain ⟨htracks, hbytes⟩ := Tracks_downloadBody pc fileName fileHash peer w hlen
    (pc.ActiveDownloads.set fileHash { Progress := 0, Total := 100 }) 100
    (by simp [GoMap.get_set])
  rw [← htr] at htracks hbytes
  have hA : ∀ pre s post, (DownloadFile pc fileName fileHash peer w).trace = pre ++ s :: post →
      progressAt fileHash s = progressPercent (bytesWritten pre) w.ContentLength ∧
      0 ≤ bytesWritten pre ∧ bytesWritten pre ≤ w.ContentLength := by
    intro pre s post hdec
    refine ⟨htracks pre s post hdec, bytesWritten_nonneg pre, ?_⟩
    have h1 : bytesWritten (DownloadFile pc fileName fileHash peer w).trace =
        bytesWritten pre + bytesWritten (s :: post) := by
      rw [hdec, bytesWritten_append]
    have h2 := bytesWritten_nonneg (s :: post)
    omega
  refine ⟨hA, ?_, ?_⟩
  · intro pre s mid s2 post hdec
    have hdec2 : (DownloadFile pc fileName fileHash peer w).trace =
        (pre ++ s :: mid) ++ s2 :: post := by
      rw [hdec]; simp
    obtain ⟨e1, n1, _⟩ := hA pre s (mid ++ s2 :: post) hdec
    obtain ⟨e2, _, b2⟩ := hA (pre ++ s :: mid) s2 post hdec2
    rw [e1, e2]
    apply progressPercent_mono _ _ _ n1 _ (lt_of_le_of_lt b2 hmax) hlen hmax
    rw [bytesWritten_append]
    have := bytesWritten_nonneg (s :: mid)
    omega
  · intro hsmall pre s post hdec h100
    obtain ⟨e1, n1, b1⟩ := hA pre s post hdec
    rw [e1] at h100
    exact progressPercent_eq_100 _ _ n1 b1 hsmall h100

set_option maxRecDepth 20000 in
theorem progress_monotone_witness :
    idleClient.ActiveDownloads.get "d1" = none ∧ 0 < transfer29.ContentLength ∧
    transfer29.ContentLength < 2 ^ 63 ∧
    chunkBytes (transfer29.chunks ++ [transfer29.last]) ≤ transfer29.ContentLength ∧
    (∀ pre s mid s2 post,
      (DownloadFile idleClient "doc.txt" "d1" peerQ transfer29).trace =
        pre ++ s :: (mid ++ s2 :: post) →
      progressAt "d1" s ≤ progressAt "d1" s2) ∧
    ((DownloadFile idleClient "doc.txt" "d1" peerQ transfer29).trace.map (progressAt "d1")) =
      [0, 0, 0, 0, 28, 28, 100, 100, 100] :=
  ⟨by decide, by decide, by decide, by decide,
    (progress_monotone idleClient "doc.txt" "d1" peerQ transfer29 (by decide) (by decide)
      (by decide) (by decide)).2.1, by decide⟩

/-! ## The match test of the search -/

/-- C23. The helper `containsSubstring(s, q)` is true exactly when the lowered
query is at most as long as the lowered name and the first `len` bytes of the
lowered name equal it, that is, when the bytes of `toLowerCase(q)` are an
initial segment of the bytes of `toLowerCase(s)`; and it never indexes out of
range: evaluated with the slice expression checked, it returns the same
result for every pair of strings, a name shorter than the query included. -/
theorem containsSubstring_leading_bytes (s q : String) :
    (containsSubstring s q = true ↔
      (goBytes (toLowerCase s)).length ≥ (goBytes (toLowerCase q)).length ∧
      (goBytes (toLowerCase s)).take (goBytes (toLowerCase q)).length =
        goBytes (toLowerCase q)) ∧
    (containsSubstring s q = true ↔ goBytes (toLowerCase q) <+: goBytes (toLowerCase s)) ∧
    containsSubstringChecked s q = some (containsSubstring s q) := by
  unfold containsSubstring containsSubstringChecked sliceTo
  simp only [Bool.and_eq_true, decide_eq_true_eq]
  generalize goBytes (toLowerCase s) = a
  generalize goBytes (toLowerCase q) = b
  refine ⟨trivial, ?_, ?_⟩
  · constructor
    · rintro ⟨_, htake⟩
      have h := List.take_append_drop b.length a
      rw [htake] at h
      exact ⟨_, h⟩
    · rintro ⟨t, ht⟩
      rw [← ht]
      simp
  · by_cases hlen : a.length ≥ b.length
    · have hle : b.length ≤ a.length := hlen
      simp [hlen, hle]
    · simp [hlen]

/-! ## The files returned by a search -/

/-- C29. The files returned by a search, for every index, query, limit and
visiting order of the name index: their names are pairwise distinct; each
returned name matches the query and is a key of `FilesByName`, and the
`PeerIDs` of the returned file is exactly the bucket of that name.  The empty
query matches every name, so with it the search returns the indexed names in
visiting order, cut at a positive limit. -/
theorem SearchByName_results (idx : Index) (query : String) (limit : Int)
    (order : List (String × List String)) (horder : order.Perm idx.FilesByName.entries) :
    ((SearchByNameIn idx query limit order).1.map File.Name).Nodup ∧
    (∀ f ∈ (SearchByNameIn idx query limit order).1,
      containsSubstring f.Name query = true ∧ f.Name ∈ idx.FilesByName.keys ∧
      idx.FilesByName.get f.Name = some f.PeerIDs) ∧
    (∀ name : String, containsSubstring name "" = true) ∧
    (SearchByNameIn idx "" limit order).1.map File.Name =
      (if limit > 0 then (order.map Prod.fst).take limit.toNat else order.map Prod.fst) := by
  have hnames : ∀ l : List (String × List String),
      (l.map (fun e => searchEntry idx e.1 e.2)).map File.Name = l.map Prod.fst := by
    intro l
    simp [List.map_map, Function.comp_def, searchEntry_Name]
  have hnodup : (order.map Prod.fst).Nodup :=
    (horder.map Prod.fst).nodup_iff.2 idx.FilesByName.nodupKeys
  have hempty : ∀ name : String, containsSubstring name "" = true := by
    intro name
    simp [containsSubstring, toLowerCase, goBytes]
  have hsub : ∀ l : List (String × List String),
      l.Sublist order → ((l.map (fun e => searchEntry idx e.1 e.2)).map File.Name).Nodup := by
    intro l hl
    rw [hnames]
    exact (hl.map Prod.fst).nodup hnodup
  have hmem : ∀ l : List (String × List String),
      (∀ e ∈ l, e ∈ order ∧ containsSubstring e.1 query = true) →
      ∀ f ∈ l.map (fun e => searchEntry idx e.1 e.2),
        containsSubstring f.Name query = true ∧ f.Name ∈ idx.FilesByName.keys ∧
        idx.FilesByName.get f.Name = some f.PeerIDs := by
    intro l hl f hf
    obtain ⟨e, he, rfl⟩ := List.mem_map.1 hf
    obtain ⟨heo, hmatch⟩ := hl e he
    have hin : (e.1, e.2) ∈ idx.FilesByName.entries := horder.subset heo
    rw [searchEntry_Name, searchEntry_PeerIDs]
    have hget := (idx.FilesByName.get_eq_some_iff e.1 e.2).2 hin
    exact ⟨hmatch, (idx.FilesByName.mem_keys_iff e.1).2 ⟨_, hget⟩, hget⟩
  refine ⟨?_, ?_, hempty, ?_⟩
  · rw [SearchByNameIn_files]
    by_cases hpos : limit > 0
    · rw [if_pos hpos]
      exact hsub _ ((List.take_sublist _ _).trans (List.filter_sublist _))
    · rw [if_neg hpos]
      exact hsub _ (List.filter_sublist _)
  · rw [SearchByNameIn_files]
    by_cases hpos : limit > 0
    · rw [if_pos hpos]
      apply hmem
      intro e he
      have he2 := List.mem_of_mem_take he
      exact ⟨List.mem_of_mem_filter he2, (List.mem_filter.1 he2).2⟩
    · rw [if_neg hpos]
      apply hmem
      intro e he
      exact ⟨List.mem_of_mem_filter he, (List.mem_filter.1 he).2⟩
  · rw [SearchByNameIn_files]
    have hall : order.filter (fun e => containsSubstring e.1 "") = order := by
      apply List.filter_eq_self.2
      intro e _
      exact hempty e.1
    rw [hall]
    by_cases hpos : limit > 0
    · rw [if_pos hpos, if_pos hpos, hnames, List.map_take]
    · rw [if_neg hpos, if_neg hpos, hnames]

theorem SearchByName_results_witness :
    twoPeers.FilesByName.entries.Perm twoPeers.FilesByName.entries ∧
    (SearchByNameIn twoPeers "A" 0 twoPeers.FilesByName.entries).1.map File.Name = ["a.txt"] ∧
    ((SearchByNameIn twoPeers "A" 0 twoPeers.FilesByName.entries).1.map File.Name).Nodup ∧
    (∀ f ∈ (SearchByNameIn twoPeers "A" 0 twoPeers.FilesByName.entries).1,
      containsSubstring f.Name "A" = true ∧ f.Name ∈ twoPeers.FilesByName.keys ∧
      twoPeers.FilesByName.get f.Name = some f.PeerIDs) :=
  have h := SearchByName_results twoPeers "A" 0 twoPeers.FilesByName.entries (List.Perm.refl _)
  ⟨List.Perm.refl _, by decide, h.1, h.2.1⟩

/-! ## Unregistration and the other peers -/

theorem withoutPeer_sublist (peerID : String) (l : List String) :
    (withoutPeer peerID l).Sublist l := by
  rw [withoutPeer_eq_filter]
  exact List.filter_sublist l

theorem frame_removeAll (p : String) (ks : List String) (m : GoMap (List String)) (k : String)
    (l : List String) (h : (removeAll p m ks).get k = some l) :
    ∃ b, m.get k = some b ∧ (l = b ∨ l = withoutPeer p b) := by
  rw [get_removeAll] at h
  by_cases hk : k ∈ ks
  · rw [if_pos hk] at h
    obtain ⟨b, hb, hl⟩ := purge_eq_some p _ l h
    exact ⟨b, hb, Or.inr hl⟩
  · rw [if_neg hk] at h
    exact ⟨l, h, Or.inl rfl⟩

theorem listed_removeAll_other (p q : String) (hne : p ≠ q) (ks : List String)
    (m : GoMap (List String)) (k : String) :
    listed (removeAll p m ks) k q ↔ listed m k q := by
  rw [listed_removeAll]
  constructor
  · exact fun h => h.1
  · exact fun h => ⟨h, fun hc => hne hc.1.symm⟩

/-- C27. Unregistration does not disturb other peers.  For `p ≠ q`,
`UnregisterPeer(p)` leaves the binding of `q` in `Peers` as it was, and `q` is
a member of a bucket of `FilesByName` or `FilesByHash` after the call exactly
when it was a member before.  Every bucket that exists after the call is the
bucket of before, either untouched or with the occurrences of `p` taken out,
so the IDs that remain keep their relative order. -/
theorem UnregisterPeer_frame (idx : Index) (p q : String) (hne : p ≠ q) :
    (UnregisterPeer idx p).Peers.get q = idx.Peers.get q ∧
    (∀ k, listed (UnregisterPeer idx p).FilesByName k q ↔ listed idx.FilesByName k q) ∧
    (∀ k, listed (UnregisterPeer idx p).FilesByHash k q ↔ listed idx.FilesByHash k q) ∧
    (∀ k l, (UnregisterPeer idx p).FilesByName.get k = some l →
      ∃ b, idx.FilesByName.get k = some b ∧ (l = b ∨ l = withoutPeer p b) ∧ l.Sublist b) ∧
    (∀ k l, (UnregisterPeer idx p).FilesByHash.get k = some l →
      ∃ b, idx.FilesByHash.get k = some b ∧ (l = b ∨ l = withoutPeer p b) ∧ l.Sublist b) := by
  have hsub : ∀ l b : List String, (l = b ∨ l = withoutPeer p b) → l.Sublist b := by
    rintro l b (h | h)
    · rw [h]
    · rw [h]; exact withoutPeer_sublist p b
  unfold UnregisterPeer
  cases hg : idx.Peers.get p with
  | none =>
    refine ⟨rfl, fun _ => Iff.rfl, fun _ => Iff.rfl, ?_, ?_⟩
    · intro k l hl
      exact ⟨l, hl, Or.inl rfl, List.Sublist.refl l⟩
    · intro k l hl
      exact ⟨l, hl, Or.inl rfl, List.Sublist.refl l⟩
  | some peer =>
    simp only [removePeer_eq]
    refine ⟨?_, ?_, ?_, ?_, ?_⟩
    · rw [GoMap.get_delete]
      simp [hne.symm]
    · intro k
      exact listed_removeAll_other p q hne _ _ k
    · intro k
      exact listed_removeAll_other p q hne _ _ k
    · intro k l hl
      obtain ⟨b, hb, hor⟩ := frame_removeAll p _ _ k l hl
      exact ⟨b, hb, hor, hsub l b hor⟩
    · intro k l hl
      obtain ⟨b, hb, hor⟩ := frame_removeAll p _ _ k l hl
      exact ⟨b, hb, hor, hsub l b hor⟩

theorem UnregisterPeer_frame_witness :
    "P" ≠ "Q" ∧
    (UnregisterPeer twoPeers "P").Peers.get "Q" = twoPeers.Peers.get "Q" ∧
    twoPeers.FilesByName.get "a.txt" = some ["P", "Q"] ∧
    (UnregisterPeer twoPeers "P").FilesByName.get "a.txt" = some ["Q"] ∧
    (listed (UnregisterPeer twoPeers "P").FilesByName "a.txt" "Q" ↔
      listed twoPeers.FilesByName "a.txt" "Q") :=
  have h := UnregisterPeer_frame twoPeers "P" "Q" (by decide)
  ⟨by decide, h.1, by decide, by decide, h.2.1 "a.txt"⟩

/-! ## Registration followed by unregistration -/

theorem purge_appendNew (id : String) (o : Option (List String)) (hne : o ≠ some [])
    (hid : ∀ l, o = some l → id ∉ l) :
    purge id (some (appendNew id (o.getD []))) = o := by
  cases o with
  | none => simp [appendNew, foundIn, purge, withoutPeer]
  | some l =>
    have hnot : id ∉ l := hid l rfl
    have hf : foundIn id l = false := by
      cases h : foundIn id l with
      | false => rfl
      | true => exact absurd ((foundIn_iff id l).1 h) hnot
    have hw : withoutPeer id (l ++ [id]) = l := by
      rw [withoutPeer_eq_filter, List.filter_append]
      have h1 : l.filter (fun x => decide (x ≠ id)) = l := by
        apply List.filter_eq_self.2
        intro a ha
        have : a ≠ id := fun h => hnot (h ▸ ha)
        simpa using this
      rw [h1]
      simp
    have hpos : l.length > 0 := by
      cases l with
      | nil => exact absurd rfl hne
      | cons a t => simp
    simp [appendNew, hf, purge, hw, hpos]

theorem removeAll_addAll (id : String) (ks : List String) (m : GoMap (List String))
    (hne : ∀ k, m.get k ≠ some []) (hid : ∀ k, ¬ listed m k id) (k : String) :
    (removeAll id (addAll id m ks) ks).get k = m.get k := by
  rw [get_removeAll, get_addAll]
  by_cases hk : k ∈ ks
  · rw [if_pos hk, if_pos hk]
    exact purge_appendNew id (m.get k) (hne k) (fun l hl hmem => hid k ⟨l, hl, hmem⟩)
  · rw [if_neg hk, if_neg hk]

theorem GoMap.entries_perm_of_get_eq {V : Type} (m1 m2 : GoMap V)
    (h : ∀ k, m1.get k = m2.get k) : m1.entries.Perm m2.entries := by
  have hn1 : m1.entries.Nodup := List.Nodup.of_map Prod.fst m1.nodupKeys
  have hn2 : m2.entries.Nodup := List.Nodup.of_map Prod.fst m2.nodupKeys
  rw [List.perm_ext_iff_of_nodup hn1 hn2]
  rintro ⟨k, v⟩
  rw [← GoMap.get_eq_some_iff, ← GoMap.get_eq_some_iff, h k]

theorem absentCheck_sound (m : GoMap (List String)) (id : String) (h : absentCheck m id = true) :
    ∀ k, ¬ listed m k id := by
  rintro k ⟨l, hl, hmem⟩
  simp only [absentCheck, List.all_eq_true] at h
  have := h (k, l) ((m.get_eq_some_iff k l).1 hl)
  simp [hmem] at this

/-- C26. Registration followed by unregistration is a round trip.  On an index
with no empty bucket in which the ID of the peer is neither a key of `Peers`
nor a member of any bucket, and for every catalog (repeated names or hashes
included), `RegisterPeer` of the peer followed by `UnregisterPeer` of its ID
restores the three maps: every key has the binding it had before (the same ID
list in the same order, or none), so the bindings of each map are those of
before. -/
theorem register_unregister_round_trip (idx : Index) (peer : Peer) (now : Int)
    (hn : NoEmptyBucket idx) (hp : idx.Peers.get peer.ID = none)
    (hname : ∀ k, ¬ listed idx.FilesByName k peer.ID)
    (hhash : ∀ k, ¬ listed idx.FilesByHash k peer.ID) :
    (∀ k, (UnregisterPeer (RegisterPeer idx peer now) peer.ID).Peers.get k = idx.Peers.get k) ∧
    (∀ k, (UnregisterPeer (RegisterPeer idx peer now) peer.ID).FilesByName.get k =
      idx.FilesByName.get k) ∧
    (∀ k, (UnregisterPeer (RegisterPeer idx peer now) peer.ID).FilesByHash.get k =
      idx.FilesByHash.get k) ∧
    (UnregisterPeer (RegisterPeer idx peer now) peer.ID).Peers.entries.Perm idx.Peers.entries ∧
    (UnregisterPeer (RegisterPeer idx peer now) peer.ID).FilesByName.entries.Perm
      idx.FilesByName.entries ∧
    (UnregisterPeer (RegisterPeer idx peer now) peer.ID).FilesByHash.entries.Perm
      idx.FilesByHash.entries := by
  have hget : (RegisterPeer idx peer now).Peers.get peer.ID =
      some { peer with LastSeen := now } := by
    rw [RegisterPeer_eq]
    simp [GoMap.get_set]
  have hU : UnregisterPeer (RegisterPeer idx peer now) peer.ID =
      removePeer (RegisterPeer idx peer now) peer.ID { peer with LastSeen := now } := by
    simp [UnregisterPeer, hget]
  have h1 : ∀ k, (UnregisterPeer (RegisterPeer idx peer now) peer.ID).Peers.get k =
      idx.Peers.get k := by
    intro k
    rw [hU, removePeer_eq, RegisterPeer_eq]
    simp only [GoMap.get_delete, GoMap.get_set]
    by_cases hk : k = peer.ID
    · rw [if_pos hk, hk, hp]
    · rw [if_neg hk, if_neg hk]
  have h2 : ∀ k, (UnregisterPeer (RegisterPeer idx peer now) peer.ID).FilesByName.get k =
      idx.FilesByName.get k := by
    intro k
    rw [hU, removePeer_eq, RegisterPeer_eq]
    exact removeAll_addAll peer.ID _ idx.FilesByName hn.1 hname k
  have h3 : ∀ k, (UnregisterPeer (RegisterPeer idx peer now) peer.ID).FilesByHash.get k =
      idx.FilesByHash.get k := by
    intro k
    rw [hU, removePeer_eq, RegisterPeer_eq]
    exact removeAll_addAll peer.ID _ idx.FilesByHash hn.2 hhash k
  exact ⟨h1, h2, h3, GoMap.entries_perm_of_get_eq _ _ h1, GoMap.entries_perm_of_get_eq _ _ h2,
    GoMap.entries_perm_of_get_eq _ _ h3⟩

theorem register_unregister_round_trip_witness :
    NoEmptyBucket twoPeers ∧ twoPeers.Peers.get peerRepeats.ID = none ∧
    (∀ k, ¬ listed twoPeers.FilesByName k peerRepeats.ID) ∧
    (RegisterPeer twoPeers peerRepeats 70).FilesByName.get "a.txt" = some ["P", "Q", "R"] ∧
    (RegisterPeer twoPeers peerRepeats 70).FilesByHash.get "hash-a" = some ["P", "Q", "R"] ∧
    (UnregisterPeer (RegisterPeer twoPeers peerRepeats 70) "R").FilesByName.get "a.txt" =
      twoPeers.FilesByName.get "a.txt" ∧
    (UnregisterPeer (RegisterPeer twoPeers peerRepeats 70) "R").FilesByHash.get "hash-a" =
      some ["P", "Q"] :=
  have h := register_unregister_round_trip twoPeers peerRepeats 70
    (noEmptyCheck_sound twoPeers (by decide)) (by decide)
    (absentCheck_sound twoPeers.FilesByName "R" (by decide))
    (absentCheck_sound twoPeers.FilesByHash "R" (by decide))
  ⟨noEmptyCheck_sound twoPeers (by decide), by decide,
    absentCheck_sound twoPeers.FilesByName "R" (by decide), by decide, by decide,
    h.2.1 "a.txt", (h.2.2.1 "hash-a").trans (by decide)⟩

/-! ## No peer is listed twice in a bucket -/

theorem nodup_appendNew (id : String) (l : List String) (h : l.Nodup) :
    (appendNew id l).Nodup := by
  unfold appendNew
  cases hf : foundIn id l with
  | true => simpa using h
  | false =>
    have hnot : id ∉ l := fun hm => by
      rw [(foundIn_iff id l).2 hm] at hf
      cases hf
    simp only [Bool.false_eq_true, if_false]
    rw [List.nodup_append]
    refine ⟨h, List.nodup_singleton id, ?_⟩
    intro a ha hb
    rw [List.mem_singleton] at hb
    exact hnot (hb ▸ ha)

theorem nodup_addAll (id : String) (ks : List String) (m : GoMap (List String))
    (h : ∀ k l, m.get k = some l → l.Nodup) :
    ∀ k l, (addAll id m ks).get k = some l → l.Nodup := by
  intro k l hl
  rw [get_addAll] at hl
  by_cases hk : k ∈ ks
  · rw [if_pos hk] at hl
    cases hl
    apply nodup_appendNew
    cases hg : m.get k with
    | none => simp
    | some b => exact h k b hg
  · rw [if_neg hk] at hl
    exact h k l hl

theorem nodup_removeAll (id : String) (ks : List String) (m : GoMap (List String))
    (h : ∀ k l, m.get k = some l → l.Nodup) :
    ∀ k l, (removeAll id m ks).get k = some l → l.Nodup := by
  intro k l hl
  rw [get_removeAll] at hl
  by_cases hk : k ∈ ks
  · rw [if_pos hk] at hl
    obtain ⟨b, hb, rfl⟩ := purge_eq_some id _ l hl
    rw [withoutPeer_eq_filter]
    exact (h k b hb).filter _
  · rw [if_neg hk] at hl
    exact h k l hl

theorem NoDuplicateMember_RegisterPeer (idx : Index) (peer : Peer) (now : Int)
    (h : NoDuplicateMember idx) : NoDuplicateMember (RegisterPeer idx peer now) := by
  rw [RegisterPeer_eq]
  exact ⟨nodup_addAll _ _ _ h.1, nodup_addAll _ _ _ h.2⟩

theorem NoDuplicateMember_removePeer (idx : Index) (peerID : String) (peer : Peer)
    (h : NoDuplicateMember idx) : NoDuplicateMember (removePeer idx peerID peer) := by
  rw [removePeer_eq]
  exact ⟨nodup_removeAll _ _ _ h.1, nodup_removeAll _ _ _ h.2⟩

theorem NoDuplicateMember_UnregisterPeer (idx : Index) (peerID : String)
    (h : NoDuplicateMember idx) : NoDuplicateMember (UnregisterPeer idx peerID) := by
  unfold UnregisterPeer
  cases hg : idx.Peers.get peerID with
  | none => exact h
  | some p => exact NoDuplicateMember_removePeer idx peerID p h

theorem NoDuplicateMember_Heartbeat (idx : Index) (peerID : String) (now : Int)
    (h : NoDuplicateMember idx) : NoDuplicateMember (Heartbeat idx peerID now) := by
  unfold Heartbeat
  cases hg : idx.Peers.get peerID with
  | none => exact h
  | some p => exact h

theorem NoDuplicateMember_cleanup (timeout now : Int) (order : List (String × Peer))
    (idx : Index) (h : NoDuplicateMember idx) :
    NoDuplicateMember (CleanupDeadPeersIn idx timeout now order) := by
  unfold CleanupDeadPeersIn
  induction order generalizing idx with
  | nil => exact h
  | cons e t ih =>
    rw [List.foldl_cons]
    apply ih
    unfold cleanupStep
    by_cases hs : Sub now e.2.LastSeen > timeout
    · rw [if_pos hs]
      exact NoDuplicateMember_removePeer idx e.1 e.2 h
    · rw [if_neg hs]
      exact h

/-- C28. No duplicate bucket members.  In every state that the index reaches
from the empty index by registrations, unregistrations, heartbeats and
reclamation sweeps, repeated registrations of one peer and catalogs that list
a name or a hash several times included, every bucket of `FilesByName` and of
`FilesByHash` lists each peer ID at most once. -/
theorem Reachable_noDuplicateMember (idx : Index) (h : Reachable idx) :
    NoDuplicateMember idx := by
  induction h with
  | init =>
    constructor
    · intro k l hl
      simp [NewIndex, GoMap.get_empty] at hl
    · intro k l hl
      simp [NewIndex, GoMap.get_empty] at hl
  | register idx peer now _ ih => exact NoDuplicateMember_RegisterPeer idx peer now ih
  | unregister idx peerID _ ih => exact NoDuplicateMember_UnregisterPeer idx peerID ih
  | heartbeat idx peerID now _ ih => exact NoDuplicateMember_Heartbeat idx peerID now ih
  | cleanup idx timeout now order _ _ ih => exact NoDuplicateMember_cleanup timeout now order idx ih

theorem Reachable_noDuplicateMember_witness :
    Reachable (RegisterPeer (RegisterPeer twoPeers peerRepeats 70) peerRepeats 80) ∧
    (RegisterPeer (RegisterPeer twoPeers peerRepeats 70) peerRepeats 80).FilesByName.get "a.txt" =
      some ["P", "Q", "R"] ∧
    NoDuplicateMember (RegisterPeer (RegisterPeer twoPeers peerRepeats 70) peerRepeats 80) :=
  have hr : Reachable (RegisterPeer (RegisterPeer twoPeers peerRepeats 70) peerRepeats 80) :=
    Reachable.register _ _ _ (Reachable.register _ _ _
      (Reachable.register _ _ _ (Reachable.register _ _ _ Reachable.init)))
  ⟨hr, by decide, Reachable_noDuplicateMember _ hr⟩

/-! ## Reclamation as repeated unregistration -/


theorem cleanup_eq_removeEach (timeout now : Int) (order : List (String × Peer)) (idx : Index) :
    CleanupDeadPeersIn idx timeout now order =
      removeEach idx (order.filter (fun e => decide (Sub now e.2.LastSeen > timeout))) := by
  unfold CleanupDeadPeersIn removeEach
  induction order generalizing idx with
  | nil => rfl
  | cons e t ih =>
    rw [List.foldl_cons, ih]
    by_cases hs : Sub now e.2.LastSeen > timeout
    · simp [cleanupStep, hs, List.filter_cons]
    · simp [cleanupStep, hs, List.filter_cons]

theorem unregisterEach_eq_removeEach (rs : List (String × Peer)) (idx : Index)
    (hnodup : (rs.map Prod.fst).Nodup) (hget : ∀ e ∈ rs, idx.Peers.get e.1 = some e.2) :
    unregisterEach idx (rs.map Prod.fst) = removeEach idx rs := by
  unfold unregisterEach removeEach
  induction rs generalizing idx with
  | nil => rfl
  | cons e t ih =>
    simp only [List.map_cons, List.nodup_cons] at hnodup
    have he : UnregisterPeer idx e.1 = removePeer idx e.1 e.2 := by
      simp [UnregisterPeer, hget e (List.mem_cons_self _ _)]
    rw [List.map_cons, List.foldl_cons, List.foldl_cons, he]
    apply ih _ hnodup.2
    intro e2 he2
    rw [removePeer_eq]
    simp only [GoMap.get_delete]
    have hne : e2.1 ≠ e.1 := by
      intro h
      exact hnodup.1 (h ▸ List.mem_map_of_mem Prod.fst he2)
    rw [if_neg hne]
    exact hget e2 (List.mem_cons_of_mem _ he2)

theorem lookupAll_entries (m : GoMap Peer) (l : List (String × Peer))
    (h : ∀ e ∈ l, e ∈ m.entries) : lookupAll m (l.map Prod.fst) = l := by
  unfold lookupAll
  induction l with
  | nil => rfl
  | cons e t ih =>
    have he : m.get e.1 = some e.2 :=
      (m.get_eq_some_iff e.1 e.2).2 (h e (List.mem_cons_self _ _))
    rw [List.map_cons, List.filterMap_cons, he]
    simp only [Option.map_some']
    rw [ih (fun e2 he2 => h e2 (List.mem_cons_of_mem _ he2))]

theorem lookupAll_fst (m : GoMap Peer) (ids : List String)
    (h : ∀ id ∈ ids, ∃ p, m.get id = some p) : (lookupAll m ids).map Prod.fst = ids := by
  unfold lookupAll
  induction ids with
  | nil => rfl
  | cons a t ih =>
    obtain ⟨p, hp⟩ := h a (List.mem_cons_self _ _)
    rw [List.filterMap_cons, hp]
    simp only [Option.map_some', List.map_cons]
    rw [ih (fun id hid => h id (List.mem_cons_of_mem _ hid))]

theorem mem_lookupAll (m : GoMap Peer) (ids : List String) (e : String × Peer)
    (h : e ∈ lookupAll m ids) : m.get e.1 = some e.2 := by
  unfold lookupAll at h
  obtain ⟨id, _, hid⟩ := List.mem_filterMap.1 h
  cases hg : m.get id with
  | none => simp [hg] at hid
  | some p =>
    simp only [hg, Option.map_some', Option.some.injEq] at hid
    rw [← hid]
    exact hg

theorem Peers_removeEach (rs : List (String × Peer)) (idx : Index) (k : String) :
    (removeEach idx rs).Peers.get k = if k ∈ rs.map Prod.fst then none else idx.Peers.get k := by
  unfold removeEach
  induction rs generalizing idx with
  | nil => simp
  | cons e t ih =>
    rw [List.foldl_cons, ih, removePeer_eq]
    simp only [GoMap.get_delete, List.map_cons, List.mem_cons]
    by_cases hk : k = e.1
    · simp [hk]
    · by_cases ht : k ∈ t.map Prod.fst
      · simp [ht]
      · simp [hk, ht]

theorem buckets_removeEach (rs : List (String × Peer)) (idx : Index) (k : String) :
    (removeEach idx rs).FilesByName.get k =
      (touching File.Name k rs).foldl (fun o id => purge id o) (idx.FilesByName.get k) ∧
    (removeEach idx rs).FilesByHash.get k =
      (touching File.Hash k rs).foldl (fun o id => purge id o) (idx.FilesByHash.get k) := by
  unfold removeEach touching
  induction rs generalizing idx with
  | nil => simp
  | cons e t ih =>
    rw [List.foldl_cons, (ih (removePeer idx e.1 e.2)).1, (ih (removePeer idx e.1 e.2)).2,
      removePeer_eq]
    simp only [get_removeAll, List.filter_cons]
    constructor
    · by_cases hk : k ∈ e.2.Files.map File.Name
      · simp [hk]
      · simp [hk]
    · by_cases hk : k ∈ e.2.Files.map File.Hash
      · simp [hk]
      · simp [hk]

theorem purge_comm (a b : String) (o : Option (List String)) :
    purge a (purge b o) = purge b (purge a o) := by
  cases o with
  | none => rfl
  | some l =>
    have hcomm : withoutPeer a (withoutPeer b l) = withoutPeer b (withoutPeer a l) := by
      simp only [withoutPeer_eq_filter, List.filter_filter]
      congr 1
      funext x
      exact Bool.and_comm _ _
    have hnil : ∀ c : String, withoutPeer c [] = [] := fun c => rfl
    by_cases hb : (withoutPeer b l).length > 0
    · by_cases ha : (withoutPeer a l).length > 0
      · simp only [purge, hb, ha, if_true, hcomm]
      · have ha0 : withoutPeer a l = [] := by
          cases h : withoutPeer a l with
          | nil => rfl
          | cons x t => rw [h] at ha; simp at ha
        simp [purge, hb, ha, hcomm, ha0, hnil]
    · have hb0 : withoutPeer b l = [] := by
        cases h : withoutPeer b l with
        | nil => rfl
        | cons x t => rw [h] at hb; simp at hb
      by_cases ha : (withoutPeer a l).length > 0
      · simp [purge, hb, ha, ← hcomm, hb0, hnil]
      · simp [purge, hb, ha]

theorem touching_perm (key : File → String) (k : String) (r1 r2 : List (String × Peer))
    (h : r1.Perm r2) : (touching key k r1).Perm (touching key k r2) :=
  (h.filter _).map Prod.fst

theorem foldl_purge_perm (l1 l2 : List String) (h : l1.Perm l2) (o : Option (List String)) :
    l1.foldl (fun o id => purge id o) o = l2.foldl (fun o id => purge id o) o := by
  apply List.Perm.foldl_eq' h
  intro x _ y _ z
  exact purge_comm y x z

theorem removeEach_perm (idx : Index) (r1 r2 : List (String × Peer)) (h : r1.Perm r2)
    (k : String) :
    (removeEach idx r1).Peers.get k = (removeEach idx r2).Peers.get k ∧
    (removeEach idx r1).FilesByName.get k = (removeEach idx r2).FilesByName.get k ∧
    (removeEach idx r1).FilesByHash.get k = (removeEach idx r2).FilesByHash.get k := by
  refine ⟨?_, ?_, ?_⟩
  · rw [Peers_removeEach, Peers_removeEach]
    have hm : k ∈ r1.map Prod.fst ↔ k ∈ r2.map Prod.fst := (h.map Prod.fst).mem_iff
    by_cases hk : k ∈ r1.map Prod.fst
    · rw [if_pos hk, if_pos (hm.1 hk)]
    · rw [if_neg hk, if_neg (fun h2 => hk (hm.2 h2))]
  · rw [(buckets_removeEach r1 idx k).1, (buckets_removeEach r2 idx k).1]
    exact foldl_purge_perm _ _ (touching_perm File.Name k r1 r2 h) _
  · rw [(buckets_removeEach r1 idx k).2, (buckets_removeEach r2 idx k).2]
    exact foldl_purge_perm _ _ (touching_perm File.Hash k r1 r2 h) _

theorem Sub_gt_iff (now t timeout : Int) (hmin : minDuration ≤ timeout)
    (hmax : timeout < maxDuration) : Sub now t > timeout ↔ now - t > timeout := by
  unfold Sub
  unfold minDuration at hmin
  unfold maxDuration at hmax
  simp only [maxDuration, minDuration]
  split_ifs <;> constructor <;> intro h <;> omega

/-- C21. Reclamation applies the cleanup of unregistration.  For every index,
timeout and current time, every order in which the loop of `CleanupDeadPeers`
visits the bindings of `Peers`, and every order `ids` of the IDs of the stale
peers (those with `now.Sub(LastSeen) > timeout`), the sweep and the calls
`UnregisterPeer(id)` for `id` in `ids` end with the same three maps: every key
of `Peers`, `FilesByName` and `FilesByHash` has the same binding, with the
same IDs in the same order in each bucket.  For a timeout strictly inside the
range of `time.Duration` the stale peers are those with
`now - LastSeen > timeout` as integers. -/
theorem CleanupDeadPeers_refines_unregister (idx : Index) (timeout now : Int)
    (order : List (String × Peer)) (ids : List String)
    (horder : order.Perm idx.Peers.entries)
    (hids : ids.Perm (stalePeerIDs idx timeout now)) :
    (∀ k, (CleanupDeadPeersIn idx timeout now order).Peers.get k =
      (unregisterEach idx ids).Peers.get k) ∧
    (∀ k, (CleanupDeadPeersIn idx timeout now order).FilesByName.get k =
      (unregisterEach idx ids).FilesByName.get k) ∧
    (∀ k, (CleanupDeadPeersIn idx timeout now order).FilesByHash.get k =
      (unregisterEach idx ids).FilesByHash.get k) ∧
    (minDuration ≤ timeout → timeout < maxDuration →
      stalePeerIDs idx timeout now =
        (idx.Peers.entries.filter (fun e => decide (now - e.2.LastSeen > timeout))).map
          Prod.fst) := by
  have hexact : minDuration ≤ timeout → timeout < maxDuration →
      stalePeerIDs idx timeout now =
        (idx.Peers.entries.filter (fun e => decide (now - e.2.LastSeen > timeout))).map
          Prod.fst := by
    intro hmin hmax
    unfold stalePeerIDs
    congr 1
    apply List.filter_congr
    intro e _
    simp only [Sub_gt_iff now e.2.LastSeen timeout hmin hmax]
  have hstale : ∀ e ∈ idx.Peers.entries.filter
      (fun e => decide (Sub now e.2.LastSeen > timeout)), e ∈ idx.Peers.entries :=
    fun e he => List.mem_of_mem_filter he
  have hall : ∀ id ∈ ids, ∃ p, idx.Peers.get id = some p := by
    intro id hid
    have hmem := hids.mem_iff.1 hid
    obtain ⟨e, he, hfst⟩ := List.mem_map.1 hmem
    exact ⟨e.2, (idx.Peers.get_eq_some_iff id e.2).2 (by rw [← hfst]; exact hstale e he)⟩
  have hnodup : ids.Nodup := by
    rw [hids.nodup_iff]
    exact ((List.filter_sublist _).map Prod.fst).nodup idx.Peers.nodupKeys
  have hfst : (lookupAll idx.Peers ids).map Prod.fst = ids := lookupAll_fst idx.Peers ids hall
  have hperm : (lookupAll idx.Peers ids).Perm
      (idx.Peers.entries.filter (fun e => decide (Sub now e.2.LastSeen > timeout))) := by
    have h1 : (lookupAll idx.Peers ids).Perm
        (lookupAll idx.Peers (stalePeerIDs idx timeout now)) := hids.filterMap _
    have h2 : lookupAll idx.Peers (stalePeerIDs idx timeout now) =
        idx.Peers.entries.filter (fun e => decide (Sub now e.2.LastSeen > timeout)) :=
      lookupAll_entries idx.Peers _ hstale
    rw [h2] at h1
    exact h1
  have hun : unregisterEach idx ids = removeEach idx (lookupAll idx.Peers ids) := by
    have h := unregisterEach_eq_removeEach (lookupAll idx.Peers ids) idx
      (by rw [hfst]; exact hnodup) (fun e he => mem_lookupAll idx.Peers ids e he)
    rw [hfst] at h
    exact h
  have hboth : (order.filter (fun e => decide (Sub now e.2.LastSeen > timeout))).Perm
      (lookupAll idx.Peers ids) := (horder.filter _).trans hperm.symm
  rw [cleanup_eq_removeEach, hun]
  exact ⟨fun k => (removeEach_perm idx _ _ hboth k).1,
    fun k => (removeEach_perm idx _ _ hboth k).2.1,
    fun k => (removeEach_perm idx _ _ hboth k).2.2, hexact⟩

theorem CleanupDeadPeers_refines_unregister_witness :
    twoPeers.Peers.entries.reverse.Perm twoPeers.Peers.entries ∧
    stalePeerIDs twoPeers 20 100 = ["P", "Q"] ∧
    ["Q", "P"].Perm (stalePeerIDs twoPeers 20 100) ∧
    (∀ k, (CleanupDeadPeersIn twoPeers 20 100 twoPeers.Peers.entries.reverse).FilesByName.get k =
      (unregisterEach twoPeers ["Q", "P"]).FilesByName.get k) ∧
    (unregisterEach twoPeers ["Q", "P"]).FilesByName.get "a.txt" = none ∧
    stalePeerIDs twoPeers 50 100 = ["P"] ∧
    (∀ k, (CleanupDeadPeersIn twoPeers 50 100 twoPeers.Peers.entries).FilesByName.get k =
      (unregisterEach twoPeers ["P"]).FilesByName.get k) ∧
    (unregisterEach twoPeers ["P"]).FilesByName.get "a.txt" = some ["Q"] :=
  have h := CleanupDeadPeers_refines_unregister twoPeers 20 100 twoPeers.Peers.entries.reverse
    ["Q", "P"] (List.reverse_perm _) (by decide)
  have h2 := CleanupDeadPeers_refines_unregister twoPeers 50 100 twoPeers.Peers.entries
    ["P"] (List.Perm.refl _) (by decide)
  ⟨List.reverse_perm _, by decide, by decide, h.2.1, by decide, by decide, h2.2.1, by decide⟩

/-! ## Names with two consecutive dots -/

/-- C30. Over-rejection by the `/file` handler.  A GET request whose `name`
has a cleaned form that contains `..` anywhere is answered with 400 and no
file is opened, whatever the file system holds; with any method the answer is
not 200.  This includes names of regular files inside the shared directory:
`notes..old.txt` is its own cleaned form and `Join` puts it inside
`SharedDir`, the scan of a shared directory that holds it lists it in the
catalog, and the request for it is answered with 400 although the file
exists.  So a file that `ScanSharedDirectory` lists under such a name is
never served. -/
theorem fileHandler_rejects_two_dots (pc : PeerClient) (name : String)
    (fs : String → OpenResult) :
    (Contains (Clean name) ".." = true →
      fileHandler pc "GET" name fs = { status := 400, opened := [] } ∧
      ∀ method, (fileHandler pc method name fs).status ≠ 200 ∧
        (fileHandler pc method name fs).opened = []) ∧
    (∀ (walk : List WalkEntry), ∀ f ∈ (ScanSharedDirectory pc walk).Files,
      Contains (Clean f.Name) ".." = true →
      fileHandler pc "GET" f.Name fs = { status := 400, opened := [] }) ∧
    (Clean "notes..old.txt" = "notes..old.txt" ∧
      Join idleClient.SharedDir "notes..old.txt" = "shared/notes..old.txt" ∧
      lexicallyInside idleClient.SharedDir (Join idleClient.SharedDir "notes..old.txt") ∧
      (ScanSharedDirectory idleClient dottedWalk).Files =
        [{ Name := "notes..old.txt", Hash := "hash-n", Size := 12, PeerIDs := ["peer-42"] }] ∧
      onlyDotted "shared/notes..old.txt" = OpenResult.ok 12 ∧
      fileHandler idleClient "GET" "notes..old.txt" onlyDotted =
        { status := 400, opened := [] }) := by
  have hmain : ∀ n : String, Contains (Clean n) ".." = true →
      fileHandler pc "GET" n fs = { status := 400, opened := [] } := by
    intro n h
    by_cases hn : n = ""
    · simp [fileHandler, hn]
    · simp [fileHandler, hn, h]
  refine ⟨?_, ?_, ?_⟩
  · intro h
    refine ⟨hmain name h, ?_⟩
    intro method
    by_cases hm : method = "GET"
    · rw [hm, hmain name h]
      simp
    · simp [fileHandler, hm]
  · intro walk f _ h
    exact hmain f.Name h
  · refine ⟨by decide, by decide, ?_, by decide, by decide, by decide⟩
    refine ⟨["notes..old.txt"], ?_, by decide⟩
    intro e he
    rw [List.mem_singleton] at he
    subst he
    decide

theorem fileHandler_rejects_two_dots_witness :
    Contains (Clean "docs/v1..2/notes..old.txt") ".." = true ∧
    fileHandler idleClient "GET" "docs/v1..2/notes..old.txt" onlyDotted =
      { status := 400, opened := [] } ∧
    (fileHandler idleClient "POST" "docs/v1..2/notes..old.txt" onlyDotted).status ≠ 200 :=
  have h := (fileHandler_rejects_two_dots idleClient "docs/v1..2/notes..old.txt" onlyDotted).1
    (by decide)
  ⟨by decide, h.1, (h.2 "POST").1⟩

/-! ## The catalog scan -/

theorem scanWalk_files (ownID : String) (walk : List WalkEntry) (files : List File) :
    (scanWalk ownID walk files).1 =
      files ++ (walk.takeWhile (fun e => !scanStops e)).filterMap (catalogEntry ownID) := by
  induction walk generalizing files with
  | nil => simp [scanWalk]
  | cons e t ih =>
    obtain ⟨path, walkErr, isDir, size, rel, hash⟩ := e
    cases walkErr with
    | some err => simp [scanWalk, scanStops]
    | none =>
      cases isDir with
      | true => simp [scanWalk, scanStops, catalogEntry, ih]
      | false =>
        cases rel with
        | error err => simp [scanWalk, scanStops]
        | ok relPath =>
          cases hash with
          | error err => simp [scanWalk, scanStops, catalogEntry, ih]
          | ok h => simp [scanWalk, scanStops, catalogEntry, ih]

/-- C24, the claim as stated fails: in the walk `lossyWalk` the file `d.txt` is
not a directory and can be read and hashed, but the walk reports an error for
the file `c.txt` that precedes it; the function passed to `filepath.Walk`
returns that error, the walk ends there, and the catalog is `[a.txt]`:
`d.txt` is lost.  (The file `b.txt`, whose hash fails, is skipped without
loss.) -/
theorem scan_stops_at_walk_error :
    (ScanSharedDirectory idleClient lossyWalk).Files =
      [{ Name := "a.txt", Hash := "hash-a", Size := 5, PeerIDs := ["peer-42"] }] ∧
    lossyWalk.filterMap (catalogEntry idleClient.ID) =
      [{ Name := "a.txt", Hash := "hash-a", Size := 5, PeerIDs := ["peer-42"] },
        { Name := "d.txt", Hash := "hash-d", Size := 9, PeerIDs := ["peer-42"] }] ∧
    (ScanSharedDirectory idleClient lossyWalk).Files ≠
      lossyWalk.filterMap (catalogEntry idleClient.ID) := by
  decide

/-- C24, amended.  `ScanSharedDirectory` replaces the catalog wholesale (an
old catalog leaves no trace, and nothing else of the agent changes) with one
entry (relative name, digest, size, `PeerIDs = [own ID]`), in walk order, for
every entry that is not a directory and can be hashed and that the walk visits
before the first entry for which the walk or `filepath.Rel` reports an error:
a file whose hash fails is skipped and no other file is lost, but the scan
ends at the first entry with a walk error and the files after it are not
listed.  When the walk reports no such error the catalog has exactly one
entry for every non-directory entry that could be hashed. -/
theorem ScanSharedDirectory_catalog (pc : PeerClient) (walk : List WalkEntry) :
    (ScanSharedDirectory pc walk).Files =
      (walk.takeWhile (fun e => !scanStops e)).filterMap (catalogEntry pc.ID) ∧
    ScanSharedDirectory pc walk = { pc with Files := (ScanSharedDirectory pc walk).Files } ∧
    (∀ old : List File, ScanSharedDirectory { pc with Files := old } walk =
      ScanSharedDirectory pc walk) ∧
    ((∀ e ∈ walk, scanStops e = false) →
      (ScanSharedDirectory pc walk).Files = walk.filterMap (catalogEntry pc.ID)) ∧
    (∀ f ∈ (ScanSharedDirectory pc walk).Files, f.PeerIDs = [pc.ID]) := by
  have hfiles : (ScanSharedDirectory pc walk).Files =
      (walk.takeWhile (fun e => !scanStops e)).filterMap (catalogEntry pc.ID) := by
    simp [ScanSharedDirectory, scanWalk_files]
  refine ⟨hfiles, rfl, fun _ => rfl, ?_, ?_⟩
  · intro hall
    rw [hfiles]
    have htake : walk.takeWhile (fun e => !scanStops e) = walk := by
      apply List.takeWhile_eq_self_iff.2
      intro e he
      simp [hall e he]
    rw [htake]
  · intro f hf
    rw [hfiles] at hf
    obtain ⟨e, _, he⟩ := List.mem_filterMap.1 hf
    obtain ⟨path, walkErr, isDir, size, rel, hash⟩ := e
    cases walkErr <;> cases isDir <;> cases rel <;> cases hash <;>
      simp [catalogEntry] at he
    rw [← he]

theorem ScanSharedDirectory_catalog_witness :
    (∀ e ∈ lossyWalk.take 3, scanStops e = false) ∧
    (ScanSharedDirectory busyClient (lossyWalk.take 3)).Files =
      (lossyWalk.take 3).filterMap (catalogEntry busyClient.ID) ∧
    (ScanSharedDirectory busyClient (lossyWalk.take 3)).Files =
      [{ Name := "a.txt", Hash := "hash-a", Size := 5, PeerIDs := ["peer-42"] }] :=
  have h := (ScanSharedDirectory_catalog busyClient (lossyWalk.take 3)).2.2.2.1 (by decide)
  ⟨by decide, h, by decide⟩

/-! ## The ID of an agent -/

theorem digitChar_toNat (d : Nat) (h : d < 10) : (digitChar d).toNat = 48 + d := by
  revert d
  decide

theorem valueRev_decimalRev (fuel n : Nat) (h : n < fuel) :
    valueRev (decimalRev fuel n) = n := by
  induction fuel generalizing n with
  | zero => omega
  | succ f ih =>
    unfold decimalRev
    by_cases h10 : n < 10
    · simp [h10, valueRev, digitChar_toNat n h10]
    · have hq : n / 10 < f := by omega
      have hd : n % 10 < 10 := Nat.mod_lt n (by norm_num)
      simp only [h10, if_false, valueRev, digitChar_toNat (n % 10) hd, ih (n / 10) hq]
      omega

theorem formatInt_injective (n1 n2 : Nat) (h : formatInt n1 = formatInt n2) : n1 = n2 := by
  unfold formatInt at h
  have h2 : (decimalRev (n1 + 1) n1).reverse = (decimalRev (n2 + 1) n2).reverse :=
    congrArg String.data h
  have h3 : decimalRev (n1 + 1) n1 = decimalRev (n2 + 1) n2 := List.reverse_injective h2
  have h4 := congrArg valueRev h3
  rw [valueRev_decimalRev _ _ (Nat.lt_succ_self n1),
    valueRev_decimalRev _ _ (Nat.lt_succ_self n2)] at h4
  exact h4

/-- C25, the claim as stated fails: two agents (started with different ports
and directories) whose calls of `rand.Intn(10000)` both return 42 are both
assigned the ID `peer-42`. -/
theorem equal_draws_equal_ids :
    (NewPeerClient "http://localhost:8080" 8001 8081 "shared1" "downloads1" 42).ID = "peer-42" ∧
    (NewPeerClient "http://localhost:8080" 8002 8082 "shared2" "downloads2" 42).ID = "peer-42" ∧
    (NewPeerClient "http://localhost:8080" 8001 8081 "shared1" "downloads1" 42).ID =
      (NewPeerClient "http://localhost:8080" 8002 8082 "shared2" "downloads2" 42).ID := by
  decide

/-- C25, amended.  The ID that `NewPeerClient` assigns is `peer-` followed by
the decimal form of the draw, and nothing else of the agent enters it: the IDs
of two agents differ exactly when their draws differ.  The draws are below
10000, so among any 10001 agents two have the same ID. -/
theorem NewPeerClient_id_by_draw (u1 u2 : String) (l1 l2 w1 w2 : Int) (s1 s2 d1 d2 : String)
    (n1 n2 : Nat) :
    ((NewPeerClient u1 l1 w1 s1 d1 n1).ID = (NewPeerClient u2 l2 w2 s2 d2 n2).ID ↔ n1 = n2) ∧
    (∀ draws : Fin 10001 → Fin 10000, ∃ i j, i ≠ j ∧
      (NewPeerClient u1 l1 w1 s1 d1 (draws i).val).ID =
        (NewPeerClient u1 l1 w1 s1 d1 (draws j).val).ID) := by
  constructor
  · constructor
    · intro h
      simp only [NewPeerClient] at h
      have h2 : ("peer-" ++ formatInt n1).data = ("peer-" ++ formatInt n2).data := by rw [h]
      rw [String.data_append, String.data_append] at h2
      have h3 := List.append_cancel_left h2
      exact formatInt_injective n1 n2 (String.ext h3)
    · intro h
      rw [h]
      rfl
  · intro draws
    obtain ⟨i, j, hne, heq⟩ := Fintype.exists_ne_map_eq_of_card_lt draws
      (by rw [Fintype.card_fin, Fintype.card_fin]; norm_num)
    exact ⟨i, j, hne, by rw [heq]⟩

/-! ## The command loop of the directory service -/

theorem ServiceRun_spec (sp : SuperPeer) (cmds : List Command) (sp2 : SuperPeer)
    (h : ServiceRun sp cmds sp2) :
    sp2.index = cmds.foldl applyCommand sp.index ∧
    registrationsOf cmds ++ sp2.registrationChan = sp.registrationChan ∧
    unregistrationsOf cmds ++ sp2.unregisterChan = sp.unregisterChan := by
  induction h with
  | done sp => exact ⟨rfl, rfl, rfl⟩
  | step sp sp1 sp2 cmd cmds hstep _ ih =>
    cases hstep with
    | register idx peer rest unregs now =>
      simp only [List.foldl_cons, applyCommand, registrationsOf, unregistrationsOf] at ih ⊢
      exact ⟨ih.1, by rw [List.cons_append, ih.2.1], ih.2.2⟩
    | unregister idx regs peerID rest =>
      simp only [List.foldl_cons, applyCommand, registrationsOf, unregistrationsOf] at ih ⊢
      exact ⟨ih.1, ih.2.1, by rw [List.cons_append, ih.2.2]⟩

theorem only_registrations (cmds : List Command) (h : unregistrationsOf cmds = []) :
    ∃ nows : List Int, nows.length = (registrationsOf cmds).length ∧
      cmds = List.zipWith Command.register (registrationsOf cmds) nows := by
  induction cmds with
  | nil => exact ⟨[], rfl, rfl⟩
  | cons c t ih =>
    cases c with
    | register peer now =>
      obtain ⟨nows, hlen, hc⟩ := ih (by simpa [unregistrationsOf] using h)
      refine ⟨now :: nows, by simp [registrationsOf, hlen], ?_⟩
      simp only [registrationsOf, List.zipWith_cons_cons]
      rw [← hc]
    | unregister peerID => simp [unregistrationsOf] at h

theorem only_unregistrations (cmds : List Command) (h : registrationsOf cmds = []) :
    cmds = (unregistrationsOf cmds).map Command.unregister := by
  induction cmds with
  | nil => rfl
  | cons c t ih =>
    cases c with
    | register peer now => simp [registrationsOf] at h
    | unregister peerID =>
      simp only [unregistrationsOf, List.map_cons]
      rw [← ih (by simpa [registrationsOf] using h)]

theorem Peers_UnregisterPeer_self (idx : Index) (peerID : String) :
    (UnregisterPeer idx peerID).Peers.get peerID = none := by
  unfold UnregisterPeer
  cases hg : idx.Peers.get peerID with
  | none => exact hg
  | some p =>
    simp only [removePeer_eq, GoMap.get_delete]
    simp

theorem ServiceRun_drain (regs : List Peer) (unregs : List String) (idx : Index) :
    ∃ cmds sp2, ServiceRun { index := idx, registrationChan := regs, unregisterChan := unregs }
      cmds sp2 ∧ sp2.registrationChan = [] ∧ sp2.unregisterChan = [] := by
  induction regs generalizing idx with
  | nil =>
    induction unregs generalizing idx with
    | nil => exact ⟨[], _, ServiceRun.done _, rfl, rfl⟩
    | cons u t ih =>
      obtain ⟨cmds, sp2, hrun, h1, h2⟩ := ih (UnregisterPeer idx u)
      exact ⟨_, sp2, ServiceRun.step _ _ _ _ _ (ServiceStep.unregister idx [] u t) hrun, h1, h2⟩
  | cons p t ih =>
    obtain ⟨cmds, sp2, hrun, h1, h2⟩ := ih (RegisterPeer idx p 0)
    exact ⟨_, sp2, ServiceRun.step _ _ _ _ _ (ServiceStep.register idx p t unregs 0) hrun, h1, h2⟩

/-- C22, the claim as stated fails: the registration of `P` is sent, then the
unregistration of `P` is sent, and both are in their channels when the loop of
`registrationService` comes to its `select`.  The `select` may receive from
`unregisterChan` first; the run below applies the unregistration (`P` is
unknown, nothing happens) and then the registration, empties both channels,
and ends with `P` in the index. -/
theorem unregister_overtakes_register :
    pendingBoth = SuperPeer.mk NewIndex [peerWithA] ["P"] ∧
    ∃ sp, ServiceRun pendingBoth [Command.unregister "P", Command.register peerWithA 5] sp ∧
      sp.registrationChan = [] ∧ sp.unregisterChan = [] ∧
      sp.index.Peers.get "P" = some { peerWithA with LastSeen := 5 } ∧
      sp.index.FilesByName.get "a.txt" = some ["P"] :=
  ⟨rfl, _,
    ServiceRun.step _ _ _ _ _ (ServiceStep.unregister NewIndex [peerWithA] "P" [])
      (ServiceRun.step _ _ _ _ _
        (ServiceStep.register (UnregisterPeer NewIndex "P") peerWithA [] [] 5)
        (ServiceRun.done _)),
    rfl, rfl, by decide, by decide⟩

/-- C22, amended.  The loop of `registrationService` applies the commands one
at a time, and it receives from each channel in the order of the sends: the
registrations applied by a run are, in order, the oldest elements of
`registrationChan`, and the unregistrations applied are the oldest elements of
`unregisterChan`.  So two registrations in the registration channel are
applied in send order and the record of the later one is the one bound to its
ID afterwards; and when the registration of a peer has been applied before
its unregistration is sent, the peer is absent once the unregistration is
applied.  Nothing orders a registration against an unregistration that is in
its channel at the same time.  Every state of the channels can be drained. -/
theorem ServiceRun_channel_order (sp : SuperPeer) (cmds : List Command) (sp2 : SuperPeer)
    (hrun : ServiceRun sp cmds sp2) :
    sp2.index = cmds.foldl applyCommand sp.index ∧
    registrationsOf cmds ++ sp2.registrationChan = sp.registrationChan ∧
    unregistrationsOf cmds ++ sp2.unregisterChan = sp.unregisterChan ∧
    (∀ p1 p2, sp.registrationChan = [p1, p2] → sp.unregisterChan = [] →
      sp2.registrationChan = [] →
      ∃ now1 now2, cmds = [Command.register p1 now1, Command.register p2 now2] ∧
        sp2.index = RegisterPeer (RegisterPeer sp.index p1 now1) p2 now2 ∧
        sp2.index.Peers.get p2.ID = some { p2 with LastSeen := now2 }) ∧
    (∀ p, sp.registrationChan = [p] → sp.unregisterChan = [] → sp2.registrationChan = [] →
      ∀ cmds2 sp3, ServiceRun (submitUnregister sp2 p.ID) cmds2 sp3 → sp3.unregisterChan = [] →
        (∃ now, cmds ++ cmds2 = [Command.register p now, Command.unregister p.ID]) ∧
        sp3.index.Peers.get p.ID = none) ∧
    (∃ cmds3 sp3, ServiceRun sp2 cmds3 sp3 ∧ sp3.registrationChan = [] ∧
      sp3.unregisterChan = []) := by
  obtain ⟨hidx, hreg, hunreg⟩ := ServiceRun_spec sp cmds sp2 hrun
  refine ⟨hidx, hreg, hunreg, ?_, ?_, ?_⟩
  · intro p1 p2 hr hu hempty
    rw [hu] at hunreg
    rw [hr, hempty, List.append_nil] at hreg
    have hnone : unregistrationsOf cmds = [] := (List.append_eq_nil.1 hunreg).1
    obtain ⟨nows, hlen, hc⟩ := only_registrations cmds hnone
    rw [hreg] at hlen hc
    match nows, hlen with
    | [now1, now2], _ =>
      refine ⟨now1, now2, hc, ?_, ?_⟩
      · rw [hidx, hc]
        rfl
      · rw [hidx, hc]
        simp only [List.zipWith_cons_cons, List.zipWith_nil_right, List.foldl_cons,
          List.foldl_nil, applyCommand]
        rw [RegisterPeer_eq]
        simp [GoMap.get_set]
  · intro p hr hu hempty cmds2 sp3 hrun2 hdrained
    rw [hu] at hunreg
    rw [hr, hempty, List.append_nil] at hreg
    have hnone : unregistrationsOf cmds = [] := (List.append_eq_nil.1 hunreg).1
    have hu2 : sp2.unregisterChan = [] := (List.append_eq_nil.1 hunreg).2
    obtain ⟨nows, hlen, hc⟩ := only_registrations cmds hnone
    rw [hreg] at hlen hc
    obtain ⟨hidx2, hreg2, hunreg2⟩ := ServiceRun_spec _ cmds2 sp3 hrun2
    simp only [submitUnregister, hempty, hu2, List.nil_append] at hidx2 hreg2 hunreg2
    rw [hdrained, List.append_nil] at hunreg2
    have hnoreg : registrationsOf cmds2 = [] := (List.append_eq_nil.1 hreg2).1
    have hc2 := only_unregistrations cmds2 hnoreg
    rw [hunreg2] at hc2
    match nows, hlen with
    | [now], _ =>
      refine ⟨⟨now, by rw [hc, hc2]; rfl⟩, ?_⟩
      rw [hidx2, hc2]
      simp only [List.map_cons, List.map_nil, List.foldl_cons, List.foldl_nil, applyCommand]
      exact Peers_UnregisterPeer_self _ _
  · obtain ⟨idx, regs, unregs⟩ := sp2
    exact ServiceRun_drain regs unregs idx

theorem ServiceRun_channel_order_witness :
    ServiceRun (SuperPeer.mk NewIndex [peerWithAB, peerWithA] [])
      [Command.register peerWithAB 10, Command.register peerWithA 20]
      (SuperPeer.mk shrunkIndex [] []) ∧
    shrunkIndex.Peers.get "P" = some { peerWithA with LastSeen := 20 } ∧
    registrationsOf [Command.register peerWithAB 10, Command.register peerWithA 20] ++ [] =
      [peerWithAB, peerWithA] :=
  have hrun : ServiceRun (SuperPeer.mk NewIndex [peerWithAB, peerWithA] [])
      [Command.register peerWithAB 10, Command.register peerWithA 20]
      (SuperPeer.mk shrunkIndex [] []) :=
    ServiceRun.step _ _ _ _ _ (ServiceStep.register NewIndex peerWithAB [peerWithA] [] 10)
      (ServiceRun.step _ _ _ _ _
        (ServiceStep.register (RegisterPeer NewIndex peerWithAB 10) peerWithA [] [] 20)
        (ServiceRun.done _))
  have h := ServiceRun_channel_order _ _ _ hrun
  ⟨hrun, by decide, h.2.1⟩

end P2P
